import Mathlib

/-!
# kernel_downloader: kernel resolution and cache reconciliation

A shallow embedding of the Go sources `distribution/distribution.go`,
`distribution/rhel.go` and `artifactory/artifactory.go`, followed by theorems
about them.

Conventions of the embedding.

* A Go function returning `(value, error)` becomes a function returning a pair
  whose last component is `Option String` (`none` is the `nil` error).
* A run-time fault (index out of range, write to a `nil` map, method call on a
  `nil` interface) and an exhausted loop budget are the two ways a call can fail
  to return; they are the `Halt` alternatives of `Run`.
* `map[string][]string` is an association list with distinct keys, in order of
  first insertion.  The order in which `range` visits a map is not fixed by the
  language, so it is a parameter (`World.rangeOrder`).
* The libraries the program imports (regexp, semver, net/http, net/url, html,
  encoding/json, fmt verbs driven by configured format strings) are parameters,
  collected in `Libs` and `World`.  `goLibs` and `listingWorld` are executable
  instances used to evaluate the program on concrete inputs.
* Log calls have no effect on results and are left out.
-/

namespace KernelDownloader

/-! ## Outcomes -/

/-- The two ways a call does not return. -/
inductive Halt where
  | panic (msg : String)
  | outOfFuel
  deriving DecidableEq, Repr

/-- A computation that returns a value, faults, or exceeds its loop budget. -/
abbrev Run := Except Halt

deriving instance DecidableEq for Except

/-! ## Library interfaces -/

/-- A compiled regular expression: `FindStringSubmatch` returns `[]` (Go `nil`) when there is no
match and otherwise the matched text followed by the text of every capture group. -/
structure Regexp where
  FindStringSubmatch : String → List String

/-- The method `MatchString` of a compiled expression: whether there is a match at all. -/
def Regexp.MatchString (r : Regexp) (s : String) : Bool :=
  !(r.FindStringSubmatch s).isEmpty

/-- The errors of `semver.NewVersion`: the sentinel `ErrInvalidSemVer`, or any other error. -/
inductive SemverError where
  | ErrInvalidSemVer
  | other (msg : String)
  deriving DecidableEq, Repr

/-- The text of a semver error. -/
def SemverError.Error : SemverError → String
  | .ErrInvalidSemVer => "Invalid Semantic Version"
  | .other msg => msg

/-- The libraries `regexp` and `github.com/Masterminds/semver`. -/
structure Libs where
  /-- The function `regexp.Compile`. -/
  Compile : String → Except String Regexp
  /-- The type `semver.Version`. -/
  Version : Type
  /-- The function `semver.NewVersion`. -/
  NewVersion : String → Except SemverError Version
  /-- The method `Version.Compare`: negative, zero or positive. -/
  Compare : Version → Version → Int

/-- The method `Version.LessThan` of the semver library. -/
def Libs.LessThan (L : Libs) (v o : L.Version) : Bool := decide (L.Compare v o < 0)

/-- The method `Version.GreaterThan` of the semver library. -/
def Libs.GreaterThan (L : Libs) (v o : L.Version) : Bool := decide (L.Compare v o > 0)

/-! ## Configuration model (`distribution.go`) -/

/-- Go `map[string]string`; `none` is the `nil` map. -/
abbrev StrMap := Option (List (String × String))

/-- Go `map[string][]string` that has been made: distinct keys, first-insertion order. -/
abbrev FileMap := List (String × List String)

structure CustomConfig where
  KernelName : String := ""
  LocalVersionSuffix : String := ""
  Properties : StrMap := none
  deriving DecidableEq, Repr

structure Version where
  Name : String := ""
  MinVersion : String := ""
  MaxVersion : String := ""
  ExtraVersions : List String := []
  BaseURL : String := ""
  KernelURL : String := ""
  DefconfigURL : String := ""
  KernelDefconfigURL : String := ""
  ArtifactoryCache : Bool := false
  RhRepository : String := ""
  CustomConfigs : List CustomConfig := []
  deriving DecidableEq, Repr

structure Distribution where
  Name : String := ""
  Versions : List Version := []
  Parser : List String := []
  RequiredVersions : List String := []
  deriving DecidableEq, Repr

def UBUNTU : String := "ubuntu"
def CENTOS : String := "centos"
def RHEL : String := "rhel"
def MINIKUBE : String := "minikube"

/-- The parts of a text between occurrences of a one-character separator
(`strings.Split(s, sep)`); never empty. -/
def splitChar (sep : Char) : List Char → List (List Char)
  | [] => [[]]
  | c :: t =>
    if c = sep then [] :: splitChar sep t
    else
      match splitChar sep t with
      | p :: ps => (c :: p) :: ps
      | [] => [[c]]

/-! ## Version matcher -/

/-- Compile `parser` and apply `FindStringSubmatch` to `file`. -/
def Libs.submatch (L : Libs) (parser file : String) : Except String (List String) :=
  match L.Compile parser with
  | .error err => .error err
  | .ok r => .ok (r.FindStringSubmatch file)

/-- The read `m[k]` of a map of slices: the `nil` slice when the key is absent. -/
def FileMap.get (m : FileMap) (k : String) : List String :=
  match m with
  | [] => []
  | (k', v) :: rest => if k' = k then v else FileMap.get rest k

/-- The write `m[k] = v`. -/
def FileMap.set (m : FileMap) (k : String) (v : List String) : FileMap :=
  match m with
  | [] => [(k, v)]
  | (k', v') :: rest => if k' = k then (k', v) :: rest else (k', v') :: FileMap.set rest k v

/-- The statement `m[k] = append(m[k], x)`. -/
def FileMap.push (m : FileMap) (k : String) (x : String) : FileMap :=
  m.set k (m.get k ++ [x])

/-- `validateVersion(file, parser, minVerStr, maxVerStr)`: the triple `(valid, versionMatch, err)`. -/
def validateVersion (L : Libs) (file parser minVerStr maxVerStr : String) :
    Run (Bool × List String × Option String) :=
  match L.Compile parser with
  | .error err => .ok (false, [], some err)
  | .ok r =>
    let versionMatch := r.FindStringSubmatch file
    if versionMatch.length < 1 then .ok (false, versionMatch, none)
    else
      match L.NewVersion minVerStr with
      | .error err =>
        .ok (false, versionMatch, some ("wrong min ver " ++ minVerStr ++ " " ++ err.Error))
      | .ok minVer =>
        match L.NewVersion maxVerStr with
        | .error err =>
          .ok (false, versionMatch, some ("wrong max ver " ++ maxVerStr ++ " " ++ err.Error))
        | .ok maxVer =>
          match versionMatch[1]? with
          | none => .error (.panic "index out of range [1] with length 1")
          | some v1 =>
            match L.NewVersion v1 with
            | .error err =>
              if err = SemverError.ErrInvalidSemVer then .ok (false, versionMatch, none)
              else .ok (false, versionMatch, some ("wrong current ver " ++ v1 ++ " " ++ err.Error))
            | .ok currentVer =>
              let valid := !(L.LessThan currentVer minVer || L.GreaterThan currentVer maxVer)
              .ok (valid, versionMatch, none)

/-- The grouping key and the group-0 text of a valid match, as `parse` and `parseRedHatPackages`
index them: key `m[1] + "." + m[2]` when `len(m) == 3`, key `m[1]` otherwise. -/
def groupKey (versionMatch : List String) : Run (String × String) :=
  match versionMatch with
  | [m0, m1, m2] => .ok (m1 ++ "." ++ m2, m0)
  | m0 :: m1 :: _ => .ok (m1, m0)
  | _ => .error (.panic "index out of range")

/-- The inner loop of `Distribution.parse` for one file: `.error` is the early `return nil, err`. -/
def parseFile (L : Libs) (version : Version) (file : String) :
    List String → FileMap → Run (Except String FileMap)
  | [], kernelMap => .ok (.ok kernelMap)
  | parser :: parsers, kernelMap =>
    match validateVersion L file parser version.MinVersion version.MaxVersion with
    | .error h => .error h
    | .ok (_, _, some err) => .ok (.error err)
    | .ok (valid, versionMatch, none) =>
      if valid then
        match groupKey versionMatch with
        | .error h => .error h
        | .ok (key, m0) =>
          parseFile L version file parsers (kernelMap.push key (version.BaseURL ++ "/" ++ m0))
      else parseFile L version file parsers kernelMap

/-- The outer loop of `Distribution.parse`. -/
def parseFiles (L : Libs) (parsers : List String) (version : Version) :
    List String → FileMap → Run (Except String FileMap)
  | [], kernelMap => .ok (.ok kernelMap)
  | file :: files, kernelMap =>
    match parseFile L version file parsers kernelMap with
    | .error h => .error h
    | .ok (.error err) => .ok (.error err)
    | .ok (.ok kernelMap') => parseFiles L parsers version files kernelMap'

/-- `(d *Distribution) parse(fileList, version)`: the grouped map and the error. -/
def Distribution.parse (L : Libs) (d : Distribution) (fileList : List String) (version : Version) :
    Run (FileMap × Option String) :=
  match parseFiles L d.Parser version fileList [] with
  | .error h => .error h
  | .ok (.error err) => .ok ([], some err)
  | .ok (.ok kernelMap) => .ok (kernelMap, none)

/-! ## Cache index (`artifactory.go`) -/

/-- The read `v, ok := m[k]` of a `map[string]string`; a `nil` map has no entry. -/
def StrMap.lookup (m : StrMap) (k : String) : Option String :=
  match m with
  | none => none
  | some entries => (entries.find? (fun e => e.1 = k)).map (fun e => e.2)

/-- The write `m[k] = v` on the entries of a map. -/
def setEntry (k v : String) : List (String × String) → List (String × String)
  | [] => [(k, v)]
  | (k', v') :: rest => if k' = k then (k', v) :: rest else (k', v') :: setEntry k v rest

/-- The write `m[k] = v`; on the `nil` map it is a run-time fault. -/
def StrMap.assign (m : StrMap) (k v : String) : Run StrMap :=
  match m with
  | none => .error (.panic "assignment to entry in nil map")
  | some entries => .ok (some (setEntry k v entries))

/-- The type `artifactoryKernelCache`. -/
structure artifactoryKernelCache where
  kernels : StrMap := none
  deriving DecidableEq, Repr

/-- The key `fmt.Sprintf("%s_%s_%s", distro, version, fileName)`. -/
def keyName (distro version fileName : String) : String :=
  distro ++ "_" ++ version ++ "_" ++ fileName

/-- `(a *artifactoryKernelCache) Empty()`. -/
def artifactoryKernelCache.Empty (a : artifactoryKernelCache) : Bool :=
  a.kernels.isNone

/-- `(a *artifactoryKernelCache) Set(kernels)`. -/
def artifactoryKernelCache.Set (_a : artifactoryKernelCache) (kernels : StrMap) :
    artifactoryKernelCache :=
  ⟨kernels⟩

/-- `(a *artifactoryKernelCache) InCache(distro, version, fileName)`. -/
def artifactoryKernelCache.InCache (a : artifactoryKernelCache)
    (distro version fileName : String) : Bool :=
  match a.kernels.lookup (keyName distro version fileName) with
  | some _ => true
  | none => false

/-- `(a *artifactoryKernelCache) InCacheSumCheck(distro, version, fileName, chksum)`: the stored
checksum is read without a presence test, so an absent key reads as the empty string. -/
def artifactoryKernelCache.InCacheSumCheck (a : artifactoryKernelCache)
    (distro version fileName chksum : String) : Bool :=
  let asum := (a.kernels.lookup (keyName distro version fileName)).getD ""
  decide (chksum = asum)

/-- The fields of a search result (`artUtils.ResultItem`) that the program reads. -/
structure ResultItem where
  Path : String := ""
  Name : String := ""
  Sha256 : String := ""
  deriving DecidableEq, Repr

/-- `getDistVersionFromPath(path)`: the last two segments of the path. -/
def getDistVersionFromPath (path : String) : String × String × Option String :=
  let pathEL := (splitChar (Char.ofNat 47) path.data).map String.mk
  if pathEL.length < 2 then ("", "", some ("something wrong with this path: " ++ path))
  else (pathEL.getD (pathEL.length - 2) "", pathEL.getD (pathEL.length - 1) "", none)

/-- The loop of `GetArtifactoryKernels` over the records of the search reader. -/
def indexResults : List ResultItem → List (String × String) → List (String × String)
  | [], fileMap => fileMap
  | currentResult :: rest, fileMap =>
    match getDistVersionFromPath currentResult.Path with
    | (_, _, some _) => indexResults rest fileMap
    | (distro, version, none) =>
      indexResults rest (setEntry (keyName distro version currentResult.Name) currentResult.Sha256 fileMap)

/-- `(a *ArtifactoryManger) GetArtifactoryKernels(logger, repo)`, given what `SearchFiles` answers:
an error, or the records of the reader with the reader's own error. -/
def GetArtifactoryKernels (search : Except String (List ResultItem × Option String)) :
    artifactoryKernelCache × Option String :=
  let artKernels : artifactoryKernelCache := {}
  match search with
  | .error err => (artKernels, some err)
  | .ok (records, readerErr) =>
    let fileMap := indexResults records []
    match readerErr with
    | some err => (artKernels, some err)
    | none =>
      if fileMap.length > 0 then (artKernels.Set (some fileMap), none)
      else (artKernels, none)

/-! ## Red Hat packages (`rhel.go`) -/

structure Pagination where
  Offset : Int := 0
  Limit : Int := 0
  Count : Int := 0
  deriving DecidableEq, Repr

structure RhPackage where
  Arch : String := ""
  Checksum : String := ""
  ContentSets : List String := []
  Epoch : String := ""
  Name : String := ""
  Release : String := ""
  Version : String := ""
  Href : String := ""
  DownloadHref : String := ""
  deriving DecidableEq, Repr

structure RepoContent where
  Pagination : Pagination := {}
  Packages : List RhPackage := []
  deriving DecidableEq, Repr

structure FileInfo where
  Expiration : String := ""
  Filename : String := ""
  Href : String := ""
  deriving DecidableEq, Repr

structure DownloadInfo where
  File : FileInfo := {}
  deriving DecidableEq, Repr

/-- The kinds of node of `golang.org/x/net/html`. -/
inductive NodeType where
  | ErrorNode | TextNode | DocumentNode | ElementNode | CommentNode | DoctypeNode | RawNode
  deriving DecidableEq, Repr

/-- A node of a parsed document with its first child and next sibling; `nil` is the absent node. -/
inductive HtmlNode where
  | nil
  | node (type : NodeType) (Data : String) (Attr : List (String × String))
      (FirstChild NextSibling : HtmlNode)
  deriving Repr

/-- The fields of `url.URL` that the program reads. -/
structure URL where
  Host : String := ""
  Path : String := ""
  deriving DecidableEq, Repr

/-- Everything outside the program: the libraries, the network and the scheduler. -/
structure World where
  /-- The libraries `regexp` and `semver`. -/
  libs : Libs
  /-- The order in which a `range` loop visits the entries of a map. -/
  rangeOrder : FileMap → FileMap
  /-- `client.Get(url)` followed by reading the body, for the client passed to the program. -/
  clientGet : String → Except String String
  /-- `http.Get(url)` followed by reading the body (the default client). -/
  httpGet : String → Except String String
  /-- The function `html.Parse`. -/
  htmlParse : String → Except String HtmlNode
  /-- The function `url.Parse`. -/
  urlParse : String → Except String URL
  /-- `fmt.Sprintf(format, arg)` for a configured format string and one string argument. -/
  Sprintf : String → String → String
  /-- `json.Unmarshal` into a `RepoContent`. -/
  unmarshalRepoContent : String → Except String RepoContent
  /-- `json.Unmarshal` into a `DownloadInfo`. -/
  unmarshalDownloadInfo : String → Except String DownloadInfo
  /-- `Repositories.ListTags(owner, repo, page)`: the tag names and the number of the next page. -/
  ListTags : String → String → Nat → Except String (List String × Nat)
  /-- The scheduler: which worker appends its next page to the shared list, step by step. -/
  schedule : List Nat
  /-- The budget of iterations of a loop that has no bound of its own. -/
  fuel : Nat

/-- `(p RhPackage) fileName()`. -/
def RhPackage.fileName (p : RhPackage) : String :=
  p.Name ++ "-" ++ p.Version ++ "-" ++ p.Release ++ "." ++ p.Arch ++ ".rpm"

/-- `(p RhPackage) getAuthDownloadUrl(client)`. -/
def RhPackage.getAuthDownloadUrl (W : World) (p : RhPackage) : String × Option String :=
  match W.clientGet p.DownloadHref with
  | .error err => ("", some err)
  | .ok body =>
    match W.unmarshalDownloadInfo body with
    | .error err => ("", some err)
    | .ok downloadInfo => (downloadInfo.File.Href, none)

/-- The choice of download URL in `parseRedHatPackages` for an in-range package; a method call on
the `nil` cache is a run-time fault. -/
def rhDownloadUrl (W : World) (rhp : RhPackage) (fileName : String) (version : Version)
    (artifactoryCache : Option artifactoryKernelCache) : Run (String × Option String) :=
  match artifactoryCache with
  | none => .error (.panic "invalid memory address or nil pointer dereference")
  | some cache =>
    if !cache.Empty && cache.InCacheSumCheck RHEL version.Name fileName rhp.Checksum then
      .ok (rhp.fileName, none)
    else .ok (rhp.getAuthDownloadUrl W)

/-- The inner loop of `parseRedHatPackages` for one package. -/
def parseRedHatPackage (W : World) (rhp : RhPackage) (fileName : String) (version : Version)
    (artifactoryCache : Option artifactoryKernelCache) :
    List String → FileMap → Run (Except String FileMap)
  | [], kernelMap => .ok (.ok kernelMap)
  | parser :: parsers, kernelMap =>
    match validateVersion W.libs fileName parser version.MinVersion version.MaxVersion with
    | .error h => .error h
    | .ok (_, _, some err) => .ok (.error err)
    | .ok (valid, versionMatch, none) =>
      if valid then
        match rhDownloadUrl W rhp fileName version artifactoryCache with
        | .error h => .error h
        | .ok (_, some err) => .ok (.error err)
        | .ok (downloadUrl, none) =>
          match groupKey versionMatch with
          | .error h => .error h
          | .ok (key, _) =>
            parseRedHatPackage W rhp fileName version artifactoryCache parsers
              (kernelMap.push key downloadUrl)
      else parseRedHatPackage W rhp fileName version artifactoryCache parsers kernelMap

/-- The outer loop of `parseRedHatPackages`. -/
def parseRedHatPackagesLoop (W : World) (version : Version) (parsers : List String)
    (artifactoryCache : Option artifactoryKernelCache) :
    List RhPackage → FileMap → Run (Except String FileMap)
  | [], kernelMap => .ok (.ok kernelMap)
  | rhp :: packages, kernelMap =>
    match parseRedHatPackage W rhp rhp.fileName version artifactoryCache parsers kernelMap with
    | .error h => .error h
    | .ok (.error err) => .ok (.error err)
    | .ok (.ok kernelMap') =>
      parseRedHatPackagesLoop W version parsers artifactoryCache packages kernelMap'

/-- `parseRedHatPackages(client, packages, version, parsers, artifactoryCache)`. -/
def parseRedHatPackages (W : World) (packages : List RhPackage) (version : Version)
    (parsers : List String) (artifactoryCache : Option artifactoryKernelCache) :
    Run (FileMap × Option String) :=
  match parseRedHatPackagesLoop W version parsers artifactoryCache packages [] with
  | .error h => .error h
  | .ok (.error err) => .ok ([], some err)
  | .ok (.ok kernelMap) => .ok (kernelMap, none)

/-! ## Listing fetchers (`distribution.go`, `rhel.go`) -/

/-- The value of the first attribute with key `href`, as the attribute loop of `getFileList`
finds it. -/
def firstHref : List (String × String) → List String
  | [] => []
  | (key, val) :: rest => if key = "href" then [val] else firstHref rest

/-- The closure `f` of `getFileList` applied to a node and then to its following siblings. -/
def collectHrefs : HtmlNode → List String
  | .nil => []
  | .node type data attr firstChild nextSibling =>
    (if type = NodeType.ElementNode ∧ data = "a" then firstHref attr else [])
      ++ collectHrefs firstChild ++ collectHrefs nextSibling

/-- `getFileList(content)`. -/
def getFileList (W : World) (content : String) : List String × Option String :=
  match W.htmlParse content with
  | .error err => ([], some err)
  | .ok .nil => ([], none)
  | .ok (.node type data attr firstChild _) =>
    ((if type = NodeType.ElementNode ∧ data = "a" then firstHref attr else [])
      ++ collectHrefs firstChild, none)

/-- `getHttpStringRespone(client, url)`. -/
def getHttpStringRespone (W : World) (url : String) : String × Option String :=
  match W.clientGet url with
  | .error err => ("", some err)
  | .ok body => (body, none)

/-- `hrefList(client, baseURL)`. -/
def hrefList (W : World) (baseURL : String) : List String × Option String :=
  match getHttpStringRespone W baseURL with
  | (_, some err) => ([], some err)
  | (response, none) =>
    match getFileList W response with
    | (_, some err) => ([], some err)
    | (fileList, none) => (fileList, none)

/-- The loop of `getMinikubeTags`; `page` is `opt.Page`. -/
def getMinikubeTagsLoop (W : World) (githubOwner repo : String) :
    Nat → Nat → List String → Run (List String × Option String)
  | 0, _, _ => .error .outOfFuel
  | fuel + 1, page, allTags =>
    match W.ListTags githubOwner repo page with
    | .error err => .ok ([], some err)
    | .ok (tags, nextPage) =>
      if nextPage = 0 then .ok (allTags ++ tags, none)
      else getMinikubeTagsLoop W githubOwner repo fuel nextPage (allTags ++ tags)

/-- `getMinikubeTags(client, githubOwner, repo)`. -/
def getMinikubeTags (W : World) (githubOwner repo : String) : Run (List String × Option String) :=
  getMinikubeTagsLoop W githubOwner repo W.fuel 0 []

/-- `strings.Trim(s, "/")`. -/
def trimSlashes (s : List Char) : List Char :=
  ((s.dropWhile (fun c => c = Char.ofNat 47)).reverse.dropWhile (fun c => c = Char.ofNat 47)).reverse

/-- `minikubeList(client, baseURL)`. -/
def minikubeList (W : World) (baseURL : String) : Run (List String × Option String) :=
  match W.urlParse baseURL with
  | .error err => .ok ([], some err)
  | .ok u =>
    if u.Host = "github.com" then
      match (splitChar (Char.ofNat 47) (trimSlashes u.Path.data)).map String.mk with
      | p0 :: p1 :: _ =>
        match getMinikubeTags W p0 p1 with
        | .error h => .error h
        | .ok (_, some err) => .ok ([], some err)
        | .ok (fileList, none) => .ok (fileList, none)
      | _ => .ok ([], some ("unable to find owner and repository in provided url: " ++ baseURL))
    else
      match hrefList W baseURL with
      | (_, some err) => .ok ([], some err)
      | (fileList, none) => .ok (fileList, none)

/-- The number of workers of `getRhelPackages`. -/
def RH_API_THREADS : Nat := 3

/-- `getEndpoint(repo, offset)`. -/
def getEndpoint (repo : String) (offset : Nat) : String :=
  "https://api.access.redhat.com/management/v1/packages/cset/" ++ repo
    ++ "/arch/x86_64?limit=100&offset=" ++ toString offset

/-- `getEntries(client, repo, offset)`. -/
def getEntries (W : World) (repo : String) (offset : Nat) : RepoContent × Option String :=
  match W.clientGet (getEndpoint repo offset) with
  | .error err => ({}, some err)
  | .ok body =>
    match W.unmarshalRepoContent body with
    | .error err => ({}, some err)
    | .ok response => (response, none)

/-- The filter of one page by the name pattern; `r` is `none` when the pattern did not compile,
and the method call on it is then a run-time fault. -/
def matchingPackages (r : Option Regexp) : List RhPackage → Run (List RhPackage)
  | [] => .ok []
  | pkg :: rest =>
    match r with
    | none => .error (.panic "invalid memory address or nil pointer dereference")
    | some re =>
      match matchingPackages r rest with
      | .error h => .error h
      | .ok kernels => .ok (if re.MatchString pkg.Name then pkg :: kernels else kernels)

/-- One worker of `getRhelPackages` from `offset` on: the offsets it requested, the lists it
appended to the shared list, one per page, and the error it returned. -/
def rhWorker (W : World) (r : Option Regexp) (repo : String) :
    Nat → Nat → Run (List Nat × List (List RhPackage) × Option String)
  | 0, _ => .error .outOfFuel
  | fuel + 1, offset =>
    match getEntries W repo offset with
    | (_, some err) => .ok ([offset], [], some err)
    | (resp, none) =>
      match matchingPackages r resp.Packages with
      | .error h => .error h
      | .ok kernels =>
        if resp.Pagination.Count < resp.Pagination.Limit then .ok ([offset], [kernels], none)
        else
          match rhWorker W r repo fuel (offset + RH_API_THREADS * 100) with
          | .error h => .error h
          | .ok (offsets, chunks, err) => .ok (offset :: offsets, kernels :: chunks, err)

/-- The shared list after all workers are done: the scheduler picks, step by step, the worker
that appends its next page; what is left is appended in worker order. -/
def interleave : List Nat → List (List (List RhPackage)) → List RhPackage
  | [], queues => queues.flatten.flatten
  | i :: sched, queues =>
    match queues.get? i with
    | some (chunk :: rest) => chunk ++ interleave sched (queues.set i rest)
    | _ => interleave sched queues

/-- Run the workers `i, i+1, ...` of `getRhelPackages`. -/
def rhWorkers (W : World) (r : Option Regexp) (repo : String) :
    Nat → Nat → Run (List (List (List RhPackage)) × Option String)
  | 0, _ => .ok ([], none)
  | n + 1, i =>
    match rhWorker W r repo W.fuel (i * 100) with
    | .error h => .error h
    | .ok (_, chunks, err) =>
      match rhWorkers W r repo n (i + 1) with
      | .error h => .error h
      | .ok (queues, err') => .ok (chunks :: queues, if err.isSome then err else err')

/-- `getRhelPackages(client, repo, pattern)`.  `Wait` returns one of the workers' errors; the
embedding takes that of the failing worker with the least index. -/
def getRhelPackages (W : World) (repo pattern : String) : Run (List RhPackage × Option String) :=
  let r := match W.libs.Compile pattern with
    | .ok re => some re
    | .error _ => none
  match rhWorkers W r repo RH_API_THREADS 0 with
  | .error h => .error h
  | .ok (queues, none) => .ok (interleave W.schedule queues, none)
  | .ok (queues, some err) =>
    .ok (interleave W.schedule queues,
      some ("at least one request failed, results can be incomplite: " ++ err))

/-! ## Kernel list assembler (`distribution.go`) -/

structure Kernel where
  Name : String := ""
  Files : List String := []
  Distro : String := ""
  KernelPath : String := ""
  Compiled : Bool := false
  Errormsg : String := ""
  Downloaded : Bool := false
  Extracted : Bool := false
  DistroVersion : String := ""
  MinikubeVersions : List String := []
  LocalVersion : String := ""
  CustomConfig : StrMap := none
  Required : Bool := false
  Command : String := ""
  FileLocation : StrMap := none
  deriving DecidableEq, Repr

/-- The read `v, ok := m[k]` of a map of slices. -/
def FileMap.lookup (m : FileMap) (k : String) : Option (List String) :=
  (m.find? (fun e => e.1 = k)).map (fun e => e.2)

/-- `filepath.Base(path)` with `/` as the separator. -/
def filepathBase (path : String) : String :=
  if path = "" then "."
  else
    let stripped := (path.data.reverse.dropWhile (fun c => c = Char.ofNat 47)).reverse
    let last := (stripped.reverse.takeWhile (fun c => c ≠ Char.ofNat 47)).reverse
    if last.isEmpty then "/" else String.mk last

/-- `destFileName(fileURL)`. -/
def destFileName (W : World) (fileURL : String) : String × Option String :=
  match W.urlParse fileURL with
  | .error err => ("", some err)
  | .ok u => (filepathBase u.Path, none)

/-- The loop of `checkIfKernelInArtifactory` over the files of a kernel. -/
def allInCache (W : World) (distro version : String) (cache : artifactoryKernelCache) :
    List String → Bool
  | [] => true
  | f :: rest =>
    match destFileName W f with
    | (_, some _) => allInCache W distro version cache rest
    | (fname, none) =>
      if !cache.InCache distro version fname then false
      else allInCache W distro version cache rest

/-- `checkIfKernelInArtifactory(distro, version, kernelFiles, artifactoryKernels)`. -/
def checkIfKernelInArtifactory (W : World) (distro version : String) (kernelFiles : List String)
    (artifactoryKernels : Option artifactoryKernelCache) : Bool :=
  match artifactoryKernels with
  | none => false
  | some cache =>
    if cache.Empty then false
    else allInCache W distro version cache kernelFiles

/-- The state of the loop of `getMinikubeKernelFile`: the package-level `minikubeMap`, the new
map of files and the set of file names already emitted. -/
structure MinikubeState where
  minikubeMap : FileMap
  newDownloadFileList : FileMap
  fileMap : List String

/-- The loop of `getMinikubeKernelFile` over the map keys in `range` order; the package-level
`minikubeMap` keeps what was written to it also when the function returns an error. -/
def getMinikubeKernelFileLoop (W : World) (kernelURL defconfigURL kernelDefconfigURL : String) :
    List String → MinikubeState → (Except String FileMap) × FileMap
  | [], st => (.ok st.newDownloadFileList, st.minikubeMap)
  | version :: versions, st =>
    let minikubeDefconfURL := W.Sprintf defconfigURL version
    match W.httpGet minikubeDefconfURL with
    | .error err => (.error err, st.minikubeMap)
    | .ok responseByte =>
      match W.libs.Compile "BR2_LINUX_KERNEL_CUSTOM_VERSION_VALUE=\"(.*)\"" with
      | .error err => (.error err, st.minikubeMap)
      | .ok r =>
        match r.FindStringSubmatch responseByte with
        | _ :: v1 :: _ =>
          let kernelFileURL := kernelURL ++ "/linux-" ++ v1 ++ ".tar.gz"
          let st1 : MinikubeState := { st with minikubeMap := st.minikubeMap.push v1 version }
          let st2 : MinikubeState :=
            if filepathBase kernelFileURL ∈ st1.fileMap then st1
            else { st1 with
              newDownloadFileList := st1.newDownloadFileList.push v1 kernelFileURL
              fileMap := st1.fileMap ++ [filepathBase kernelFileURL] }
          let kernelDefconfigString := W.Sprintf kernelDefconfigURL version
          let st3 : MinikubeState :=
            if v1 ++ filepathBase kernelDefconfigString ∈ st2.fileMap then st2
            else { st2 with
              newDownloadFileList := st2.newDownloadFileList.push v1 kernelDefconfigString
              fileMap := st2.fileMap ++ [v1 ++ filepathBase kernelDefconfigString] }
          getMinikubeKernelFileLoop W kernelURL defconfigURL kernelDefconfigURL versions st3
        | _ => getMinikubeKernelFileLoop W kernelURL defconfigURL kernelDefconfigURL versions st

/-- `getMinikubeKernelFile(downloadFileList, kernelURL, defconfigURL, kernelDefconfigURL)`, with
the package-level `minikubeMap` before and after. -/
def getMinikubeKernelFile (W : World) (downloadFileList : FileMap)
    (kernelURL defconfigURL kernelDefconfigURL : String) (minikubeMap : FileMap) :
    (FileMap × Option String) × FileMap :=
  match getMinikubeKernelFileLoop W kernelURL defconfigURL kernelDefconfigURL
      ((W.rangeOrder downloadFileList).map (fun e => e.1)) ⟨minikubeMap, [], []⟩ with
  | (.error err, minikubeMap') => (([], some err), minikubeMap')
  | (.ok newDownloadFileList, minikubeMap') => ((newDownloadFileList, none), minikubeMap')

/-- The flag `downloaded` that `GetKernelList` computes for a grouped entry. -/
def downloadedFlag (W : World) (d : Distribution) (version : Version) (upstream : Bool)
    (v : List String) (cachedKernels : Option artifactoryKernelCache) : Bool :=
  if upstream then
    if version.ArtifactoryCache
        && checkIfKernelInArtifactory W d.Name version.Name v cachedKernels then true
    else if !version.ArtifactoryCache then true
    else false
  else false

/-- The kernel that `GetKernelList` builds with the default configuration. -/
def baseKernel (d : Distribution) (version : Version) (minikubeMap : FileMap) (downloaded : Bool)
    (k : String) (v : List String) : Kernel :=
  let kernel : Kernel :=
    { Name := k, Files := v, Distro := d.Name, DistroVersion := version.Name,
      Downloaded := downloaded }
  let kernel : Kernel :=
    match minikubeMap.lookup k with
    | some mkVersions => { kernel with MinikubeVersions := mkVersions }
    | none => kernel
  if d.Name = UBUNTU then { kernel with LocalVersion := "-generic" } else kernel

/-- The kernel that `GetKernelList` builds for a custom configuration whose properties, after
the write of `CONFIG_LOCALVERSION`, are `properties`. -/
def customKernel (d : Distribution) (version : Version) (minikubeMap : FileMap)
    (downloaded : Bool) (k : String) (v : List String) (cc : CustomConfig)
    (properties : StrMap) : Kernel :=
  let kernel : Kernel :=
    { Name := k, Files := v, Distro := d.Name, DistroVersion := version.Name,
      LocalVersion := cc.LocalVersionSuffix, CustomConfig := properties,
      Downloaded := downloaded }
  match minikubeMap.lookup k with
  | some mkVersions => { kernel with MinikubeVersions := mkVersions }
  | none => kernel

/-- The loop of `GetKernelList` over the custom configurations of a version, for one entry. -/
def appendCustom (d : Distribution) (version : Version) (minikubeMap : FileMap)
    (downloaded : Bool) (k : String) (v : List String) :
    List CustomConfig → List Kernel → Run (List Kernel)
  | [], kernelList => .ok kernelList
  | cc :: ccs, kernelList =>
    if cc.KernelName = k then
      match cc.Properties.assign "CONFIG_LOCALVERSION" cc.LocalVersionSuffix with
      | .error h => .error h
      | .ok properties =>
        appendCustom d version minikubeMap downloaded k v ccs
          (kernelList ++ [customKernel d version minikubeMap downloaded k v cc properties])
    else appendCustom d version minikubeMap downloaded k v ccs kernelList

/-- The loop of `GetKernelList` over the grouped map of one version, in `range` order. -/
def appendEntries (W : World) (d : Distribution) (version : Version) (upstream : Bool)
    (cachedKernels : Option artifactoryKernelCache) (minikubeMap : FileMap) :
    List (String × List String) → List Kernel → Run (List Kernel)
  | [], kernelList => .ok kernelList
  | (k, v) :: entries, kernelList =>
    let downloaded := downloadedFlag W d version upstream v cachedKernels
    match appendCustom d version minikubeMap downloaded k v version.CustomConfigs
        (kernelList ++ [baseKernel d version minikubeMap downloaded k v]) with
    | .error h => .error h
    | .ok kernelList' =>
      appendEntries W d version upstream cachedKernels minikubeMap entries kernelList'

/-- What the first part of the loop body of `GetKernelList` does for one version: an early
return `(kernels, err)`, or the grouped map `downloadFileList`; with the `minikubeMap` after. -/
def fetchVersion (W : World) (d : Distribution) (upstream : Bool)
    (cachedKernels : Option artifactoryKernelCache) (version : Version)
    (kernelList : List Kernel) (minikubeMap : FileMap) :
    Run ((List Kernel × String ⊕ FileMap) × FileMap) :=
  if !upstream && d.Name ≠ MINIKUBE && version.ArtifactoryCache then
    match hrefList W version.BaseURL with
    | (_, some err) => .ok (.inl ([], err), minikubeMap)
    | (fileList, none) =>
      match d.parse W.libs fileList version with
      | .error h => .error h
      | .ok (_, some err) => .ok (.inl ([], err), minikubeMap)
      | .ok (downloadFileList, none) => .ok (.inr downloadFileList, minikubeMap)
  else if d.Name = RHEL then
    match getRhelPackages W version.RhRepository "kernel-devel" with
    | .error h => .error h
    | .ok (rhPackages, err) =>
      if err.isSome && rhPackages.length < 1 then .ok (.inl (kernelList, err.getD ""), minikubeMap)
      else
        match parseRedHatPackages W rhPackages version d.Parser cachedKernels with
        | .error h => .error h
        | .ok (_, some err) => .ok (.inl (kernelList, err), minikubeMap)
        | .ok (downloadFileList, none) => .ok (.inr downloadFileList, minikubeMap)
  else if d.Name = UBUNTU ∨ d.Name = CENTOS then
    match hrefList W version.BaseURL with
    | (_, some err) => .ok (.inl ([], err), minikubeMap)
    | (fileList, none) =>
      match d.parse W.libs fileList version with
      | .error h => .error h
      | .ok (_, some err) => .ok (.inl ([], err), minikubeMap)
      | .ok (downloadFileList, none) => .ok (.inr downloadFileList, minikubeMap)
  else if d.Name = MINIKUBE then
    match minikubeList W version.BaseURL with
    | .error h => .error h
    | .ok (_, some err) => .ok (.inl ([], err), minikubeMap)
    | .ok (fileList, none) =>
      match d.parse W.libs fileList version with
      | .error h => .error h
      | .ok (_, some err) => .ok (.inl ([], err), minikubeMap)
      | .ok (downloadFileList, none) =>
        match getMinikubeKernelFile W downloadFileList version.KernelURL version.DefconfigURL
            version.KernelDefconfigURL minikubeMap with
        | ((_, some err), minikubeMap') => .ok (.inl ([], err), minikubeMap')
        | ((downloadFileList', none), minikubeMap') => .ok (.inr downloadFileList', minikubeMap')
  else .ok (.inr [], minikubeMap)

/-- The loop of `GetKernelList` over the versions of the distribution. -/
def assembleVersions (W : World) (d : Distribution) (upstream : Bool)
    (cachedKernels : Option artifactoryKernelCache) :
    List Version → List Kernel → FileMap → Run ((List Kernel × String ⊕ List Kernel) × FileMap)
  | [], kernelList, minikubeMap => .ok (.inr kernelList, minikubeMap)
  | version :: versions, kernelList, minikubeMap =>
    match fetchVersion W d upstream cachedKernels version kernelList minikubeMap with
    | .error h => .error h
    | .ok (.inl early, minikubeMap') => .ok (.inl early, minikubeMap')
    | .ok (.inr downloadFileList, minikubeMap') =>
      match appendEntries W d version upstream cachedKernels minikubeMap'
          (W.rangeOrder downloadFileList) kernelList with
      | .error h => .error h
      | .ok kernelList' =>
        assembleVersions W d upstream cachedKernels versions kernelList' minikubeMap'

/-- The inner loop of the required-version check: mark the first kernel whose
`Name + LocalVersion` is `rv`; `none` when there is none (`found` stays false). -/
def markRequired (rv : String) : List Kernel → Option (List Kernel)
  | [] => none
  | k :: rest =>
    if rv = k.Name ++ k.LocalVersion then some ({ k with Required := true } :: rest)
    else (markRequired rv rest).map (fun rest' => k :: rest')

/-- A kernel with its `Required` flag cleared: everything but that flag. -/
def Kernel.clearRequired (k : Kernel) : Kernel := { k with Required := false }

/-- The text of the error for a missing required version. -/
def requiredError (rv distro : String) : String :=
  "kernel " ++ rv ++ " is defined as required, but not present in the any defined versions for "
    ++ distro ++ " distribution"

/-- The required-version check that ends `GetKernelList`. -/
def checkRequired (d : Distribution) : List String → List Kernel → List Kernel × Option String
  | [], kernelList => (kernelList, none)
  | rv :: rvs, kernelList =>
    match markRequired rv kernelList with
    | none => ([], some (requiredError rv d.Name))
    | some kernelList' => checkRequired d rvs kernelList'

/-- `(d *Distribution) GetKernelList(client, logger, upstream, cachedKernels)`, with the
package-level `minikubeMap` before and after: the pair `(kernels, err)` that is returned. -/
def Distribution.GetKernelList (W : World) (d : Distribution) (upstream : Bool)
    (cachedKernels : Option artifactoryKernelCache) (minikubeMap : FileMap) :
    Run ((List Kernel × Option String) × FileMap) :=
  match assembleVersions W d upstream cachedKernels d.Versions [] minikubeMap with
  | .error h => .error h
  | .ok (.inl (kernels, err), minikubeMap') => .ok ((kernels, some err), minikubeMap')
  | .ok (.inr kernelList, minikubeMap') =>
    .ok (checkRequired d d.RequiredVersions kernelList, minikubeMap')

/-! ## Specification of the assembled kernels -/

/-- The variant that a matching declaration `cc` contributes to the entry `(k, v)`: the custom
kernel whose configuration is the declared properties with `CONFIG_LOCALVERSION` set. -/
def variantKernel (d : Distribution) (version : Version) (minikubeMap : FileMap)
    (downloaded : Bool) (k : String) (v : List String) (cc : CustomConfig) : Kernel :=
  customKernel d version minikubeMap downloaded k v cc
    (some (setEntry "CONFIG_LOCALVERSION" cc.LocalVersionSuffix (cc.Properties.getD [])))

/-- The kernels of one grouped entry, in the words of the specification: the base kernel, then
one variant for every custom-configuration declaration of the version whose `KernelName` is
the key, in declaration order. -/
def entryKernels (W : World) (d : Distribution) (version : Version) (upstream : Bool)
    (cachedKernels : Option artifactoryKernelCache) (minikubeMap : FileMap)
    (e : String × List String) : List Kernel :=
  baseKernel d version minikubeMap (downloadedFlag W d version upstream e.2 cachedKernels) e.1 e.2
    :: (version.CustomConfigs.filter (fun cc => cc.KernelName = e.1)).map
        (variantKernel d version minikubeMap
          (downloadedFlag W d version upstream e.2 cachedKernels) e.1 e.2)

/-! ## An executable regular-expression instance

A backtracking matcher with Go's leftmost-first, greedy semantics for a fragment of the pattern
language: literal characters, `.`, the classes `\d`, `\w`, `\s`, escaped punctuation, capture
groups, the operators `*`, `+`, `?` and the end-of-text assertion `$`.  A pattern outside the fragment is rejected by
`goCompile`; on the fragment the result of `FindStringSubmatch` is that of Go's `regexp`. -/

/-- Regular expressions of the fragment. -/
inductive Re where
  | eps
  | lit (c : Char)
  | any
  | digit
  | word
  | space
  | seq (a b : Re)
  | group (i : Nat) (r : Re)
  | star (r : Re)
  | plus (r : Re)
  | opt (r : Re)
  | eot
  deriving Repr

/-- Captured text by group number; the first entry for a number is the current one. -/
abbrev Caps := List (Nat × List Char)

/-- The text of group `i`, empty when the group did not take part in the match. -/
def Caps.get (c : Caps) (i : Nat) : List Char :=
  match c with
  | [] => []
  | (j, t) :: rest => if j = i then t else Caps.get rest i

/-- Match one character satisfying `p`, then continue. -/
def Re.one (p : Char → Bool) (s : List Char) (c : Caps)
    (k : List Char → Caps → Option Caps) : Option Caps :=
  match s with
  | [] => none
  | x :: t => if p x then k t c else none

/-- Greedy iteration of `step`, at most `fuel` times, each iteration consuming input. -/
def Re.loop (step : List Char → Caps → (List Char → Caps → Option Caps) → Option Caps) :
    Nat → List Char → Caps → (List Char → Caps → Option Caps) → Option Caps
  | 0, s, c, k => k s c
  | fuel + 1, s, c, k =>
    match step s c (fun s' c' => if s'.length < s.length then Re.loop step fuel s' c' k else none) with
    | some r => some r
    | none => k s c

/-- The class `\w`. -/
def isWordChar (x : Char) : Bool := x.isAlphanum || x = Char.ofNat 95

/-- The class `\s`. -/
def isSpaceChar (x : Char) : Bool :=
  x = Char.ofNat 32 || x = Char.ofNat 9 || x = Char.ofNat 10 || x = Char.ofNat 12 || x = Char.ofNat 13

/-- Match `r` at the head of `s`, then continue with `k` on the rest. -/
def Re.run : Re → List Char → Caps → (List Char → Caps → Option Caps) → Option Caps
  | .eps, s, c, k => k s c
  | .lit x, s, c, k => Re.one (fun y => x = y) s c k
  | .any, s, c, k => Re.one (fun y => y ≠ Char.ofNat 10) s c k
  | .digit, s, c, k => Re.one Char.isDigit s c k
  | .word, s, c, k => Re.one isWordChar s c k
  | .space, s, c, k => Re.one isSpaceChar s c k
  | .seq a b, s, c, k => a.run s c (fun s' c' => b.run s' c' k)
  | .group i r, s, c, k =>
    r.run s c (fun s' c' => k s' ((i, s.take (s.length - s'.length)) :: c'))
  | .star r, s, c, k => Re.loop (fun s' c' k' => r.run s' c' k') (s.length + 1) s c k
  | .plus r, s, c, k =>
    r.run s c (fun s' c' => Re.loop (fun s2 c2 k2 => r.run s2 c2 k2) (s'.length + 1) s' c' k)
  | .opt r, s, c, k =>
    match r.run s c k with
    | some res => some res
    | none => k s c
  | .eot, s, c, k =>
    match s with
    | [] => k [] c
    | _ :: _ => none

/-- The leftmost match of `r` in `s`: try every start position in turn. -/
def Re.search (r : Re) : List Char → Option Caps
  | [] => r.run [] [] (fun _ c => some ((0, []) :: c))
  | x :: t =>
    match r.run (x :: t) [] (fun s' c => some ((0, (x :: t).take ((x :: t).length - s'.length)) :: c)) with
    | some c => some c
    | none => Re.search r t

/-- One open group while reading a pattern: its number and its items, last first. -/
abbrev Frame := Nat × List Re

/-- The sequence of the items of a frame. -/
def Re.ofItems : List Re → Re
  | [] => .eps
  | [r] => r
  | r :: rest => .seq (Re.ofItems rest) r

/-- Whether an item is already a repetition. -/
def Re.isRep : Re → Bool
  | .star _ => true
  | .plus _ => true
  | .opt _ => true
  | _ => false

/-- Apply a repetition operator to the last item of the innermost frame. -/
def applyRep (f : Re → Re) (stack : List Frame) : Except String (List Frame) :=
  match stack with
  | (i, r :: items) :: outer =>
    if r.isRep then .error "unsupported nested repetition operator"
    else .ok ((i, f r :: items) :: outer)
  | _ => .error "missing argument to repetition operator"

/-- Add an item to the innermost frame. -/
def pushItem (r : Re) (stack : List Frame) : Except String (List Frame) :=
  match stack with
  | (i, items) :: outer => .ok ((i, r :: items) :: outer)
  | [] => .error "internal error"

/-- Read a pattern, left to right; `next` is the number of the next capture group. -/
def readPattern : List Char → List Frame → Nat → Except String (Re × Nat)
  | [], [(_, items)], next => .ok (Re.ofItems items, next)
  | [], _, _ => .error "missing closing )"
  | x :: t, stack, next =>
    if x = Char.ofNat 40 then
      match t with
      | y :: _ =>
        if y = Char.ofNat 63 then .error "unsupported group flag"
        else readPattern t ((next, []) :: stack) (next + 1)
      | [] => .error "missing closing )"
    else if x = Char.ofNat 41 then
      match stack with
      | (i, items) :: (j, outerItems) :: outer =>
        readPattern t ((j, Re.group i (Re.ofItems items) :: outerItems) :: outer) next
      | _ => .error "unexpected )"
    else if x = Char.ofNat 42 then
      match applyRep Re.star stack with
      | .ok stack' => readPattern t stack' next
      | .error e => .error e
    else if x = Char.ofNat 43 then
      match applyRep Re.plus stack with
      | .ok stack' => readPattern t stack' next
      | .error e => .error e
    else if x = Char.ofNat 63 then
      match applyRep Re.opt stack with
      | .ok stack' => readPattern t stack' next
      | .error e => .error e
    else if x = Char.ofNat 46 then
      match pushItem Re.any stack with
      | .ok stack' => readPattern t stack' next
      | .error e => .error e
    else if x = Char.ofNat 92 then
      match t with
      | [] => .error "trailing backslash at end of expression"
      | y :: t' =>
        let item : Except String Re :=
          if y = Char.ofNat 100 then .ok Re.digit
          else if y = Char.ofNat 119 then .ok Re.word
          else if y = Char.ofNat 115 then .ok Re.space
          else if y.isAlphanum then .error "unsupported escape sequence"
          else .ok (Re.lit y)
        match item with
        | .error e => .error e
        | .ok r =>
          match pushItem r stack with
          | .ok stack' => readPattern t' stack' next
          | .error e => .error e
    else if x = Char.ofNat 36 then
      match pushItem Re.eot stack with
      | .ok stack' => readPattern t stack' next
      | .error e => .error e
    else if x = Char.ofNat 91 || x = Char.ofNat 123 || x = Char.ofNat 124 || x = Char.ofNat 94 then
      .error "unsupported operator"
    else
      match pushItem (Re.lit x) stack with
      | .ok stack' => readPattern t stack' next
      | .error e => .error e

/-- The slice `FindStringSubmatch` returns for a match: group 0 and the `n` capture groups. -/
def Caps.toSubmatch (c : Caps) (n : Nat) : List String :=
  (List.range (n + 1)).map (fun i => String.mk (c.get i))

/-- The executable instance of `regexp.Compile` on the fragment. -/
def goCompile (pattern : String) : Except String Regexp :=
  match readPattern pattern.data [(0, [])] 1 with
  | .error e => .error ("error parsing regexp: " ++ e)
  | .ok (r, next) =>
    .ok ⟨fun s => match r.search s.data with
      | none => []
      | some c => c.toSubmatch (next - 1)⟩

/-! ## An executable semver instance

The behaviour of `github.com/Masterminds/semver` (v1): `NewVersion` accepts
`v?MAJOR(.MINOR)?(.PATCH)?(-PRERELEASE)?(+METADATA)?`, answers `ErrInvalidSemVer` for any other
text and a different error for a numeric segment that does not fit a signed 64-bit integer;
`Compare` orders by major, minor, patch and then by pre-release. -/

/-- The value `semver.Version`. -/
structure SemVer where
  major : Int
  minor : Int
  patch : Int
  pre : String
  metadata : String
  original : String
  deriving DecidableEq, Repr

/-- The value of a run of decimal digits. -/
def digitsValue (ds : List Char) : Nat :=
  ds.foldl (fun n c => 10 * n + (c.toNat - 48)) 0

/-- `strconv.ParseInt(s, 10, 64)` on a run of digits: fails above `2^63 - 1`. -/
def parseSegment (ds : List Char) : Except SemverError Int :=
  if digitsValue ds < 2 ^ 63 then .ok (digitsValue ds)
  else .error (.other ("Error parsing version segment: strconv.ParseInt: parsing \""
    ++ String.mk ds ++ "\": value out of range"))

/-- The parts of a text between dots (`strings.Split(s, ".")`). -/
def splitDots (s : List Char) : List (List Char) := splitChar (Char.ofNat 46) s

/-- A character of a pre-release or metadata identifier: `[0-9A-Za-z-]`. -/
def isIdentChar (c : Char) : Bool := c.isAlphanum || c = Char.ofNat 45

/-- Read `[0-9A-Za-z-]+(\.[0-9A-Za-z-]+)*` at the head of `s`: the text read and the rest. -/
def readIdents (s : List Char) : Option (List Char × List Char) :=
  let chunk := s.takeWhile (fun c => isIdentChar c || c = Char.ofNat 46)
  if (splitDots chunk).all (fun p => !p.isEmpty) then some (chunk, s.dropWhile (fun c => isIdentChar c || c = Char.ofNat 46))
  else none

/-- Read an optional `.DIGITS` segment: `none` when a dot is not followed by a digit. -/
def readDotSegment (s : List Char) : Option (List Char × List Char) :=
  match s with
  | c :: t =>
    if c = Char.ofNat 46 then
      if (t.takeWhile Char.isDigit).isEmpty then none
      else some (t.takeWhile Char.isDigit, t.dropWhile Char.isDigit)
    else some ([], s)
  | [] => some ([], [])

/-- Read an optional part introduced by the character `mark`. -/
def readMarked (mark : Char) (s : List Char) : Option (List Char × List Char) :=
  match s with
  | c :: t => if c = mark then readIdents t else some ([], s)
  | [] => some ([], [])

/-- The groups of the version expression on `v`: major, minor, patch, pre-release, metadata. -/
def splitVersion (v : List Char) :
    Option (List Char × List Char × List Char × List Char × List Char) :=
  let s := match v with
    | c :: t => if c = Char.ofNat 118 then t else v
    | [] => v
  let major := s.takeWhile Char.isDigit
  if major.isEmpty then none
  else
    match readDotSegment (s.dropWhile Char.isDigit) with
    | none => none
    | some (minor, s1) =>
      match (if minor.isEmpty then some ([], s1) else readDotSegment s1) with
      | none => none
      | some (patch, s2) =>
        match readMarked (Char.ofNat 45) s2 with
        | none => none
        | some (pre, s3) =>
          match readMarked (Char.ofNat 43) s3 with
          | none => none
          | some (meta, s4) => if s4.isEmpty then some (major, minor, patch, pre, meta) else none

/-- The function `semver.NewVersion`. -/
def goNewVersion (v : String) : Except SemverError SemVer :=
  match splitVersion v.data with
  | none => .error .ErrInvalidSemVer
  | some (major, minor, patch, pre, meta) =>
    match parseSegment major with
    | .error e => .error e
    | .ok ma =>
      match (if minor.isEmpty then .ok 0 else parseSegment minor) with
      | .error e => .error e
      | .ok mi =>
        match (if patch.isEmpty then .ok 0 else parseSegment patch) with
        | .error e => .error e
        | .ok pa => .ok ⟨ma, mi, pa, String.mk pre, String.mk meta, v⟩

/-- The helper `compareSegment` of the library. -/
def compareSegment (v o : Int) : Int :=
  if v < o then -1 else if v > o then 1 else 0

/-- `strconv.ParseUint(s, 10, 64)` succeeds on `s`. -/
def isUint (s : List Char) : Bool :=
  !s.isEmpty && s.all Char.isDigit && decide (digitsValue s < 2 ^ 64)

/-- The helper `comparePrePart` of the library. -/
def comparePrePart (s o : List Char) : Int :=
  if s = o then 0
  else if s.isEmpty then -1
  else if o.isEmpty then 1
  else if !isUint o && !isUint s then (if String.mk o < String.mk s then 1 else -1)
  else if !isUint o then -1
  else if !isUint s then 1
  else if digitsValue s > digitsValue o then 1 else -1

/-- The helper `comparePrerelease` of the library on the dot-separated parts. -/
def comparePreParts : List (List Char) → List (List Char) → Int
  | [], [] => 0
  | s :: ss, [] => if comparePrePart s [] ≠ 0 then comparePrePart s [] else comparePreParts ss []
  | [], o :: os => if comparePrePart [] o ≠ 0 then comparePrePart [] o else comparePreParts [] os
  | s :: ss, o :: os => if comparePrePart s o ≠ 0 then comparePrePart s o else comparePreParts ss os

/-- The method `Version.Compare`. -/
def goCompare (v o : SemVer) : Int :=
  if compareSegment v.major o.major ≠ 0 then compareSegment v.major o.major
  else if compareSegment v.minor o.minor ≠ 0 then compareSegment v.minor o.minor
  else if compareSegment v.patch o.patch ≠ 0 then compareSegment v.patch o.patch
  else if v.pre = "" ∧ o.pre = "" then 0
  else if v.pre = "" then 1
  else if o.pre = "" then -1
  else comparePreParts (splitDots v.pre.data) (splitDots o.pre.data)

/-- The executable libraries. -/
def goLibs : Libs where
  Compile := goCompile
  Version := SemVer
  NewVersion := goNewVersion
  Compare := goCompare

/-! ## An executable world

A server whose index page, at every address, lists the given `href` values, with the executable
libraries; it is used to evaluate the program on concrete inputs. -/

/-- A chain of sibling anchor elements, one per `href`. -/
def anchors : List String → HtmlNode
  | [] => .nil
  | h :: rest => .node .ElementNode "a" [("href", h)] .nil (anchors rest)

/-- The path of an address of the form `scheme://host/path`, and the host. -/
def splitAddress (s : List Char) : URL :=
  match s.dropWhile (fun c => c ≠ Char.ofNat 58) with
  | _ :: a :: b :: rest =>
    if a = Char.ofNat 47 ∧ b = Char.ofNat 47 then
      ⟨String.mk (rest.takeWhile (fun c => c ≠ Char.ofNat 47)),
        String.mk (rest.dropWhile (fun c => c ≠ Char.ofNat 47))⟩
    else ⟨"", String.mk s⟩
  | _ => ⟨"", String.mk s⟩

/-- Replace the first `%s` of a format by the argument. -/
def substFirst (arg : List Char) : List Char → List Char
  | [] => []
  | [c] => [c]
  | a :: b :: rest =>
    if a = Char.ofNat 37 ∧ b = Char.ofNat 115 then arg ++ rest
    else a :: substFirst arg (b :: rest)

/-- The world in which every index page lists `listing`. -/
def listingWorld (listing : List String) : World where
  libs := goLibs
  rangeOrder := fun m => m
  clientGet := fun _ => .ok ""
  httpGet := fun _ => .ok ""
  htmlParse := fun _ => .ok (.node .DocumentNode "" [] (anchors listing) .nil)
  urlParse := fun s => .ok (splitAddress s.data)
  Sprintf := fun format arg => String.mk (substFirst arg.data format.data)
  unmarshalRepoContent := fun _ => .error "unexpected end of JSON input"
  unmarshalDownloadInfo := fun _ => .error "unexpected end of JSON input"
  ListTags := fun _ _ _ => .ok ([], 0)
  schedule := []
  fuel := 8

/-- Whether `t` starts with `p`. -/
def startsWith : List Char → List Char → Bool
  | [], _ => true
  | _ :: _, [] => false
  | a :: p, b :: t => a = b && startsWith p t

/-- Whether `name` occurs in `text`. -/
def occursIn (name : List Char) : List Char → Bool
  | [] => startsWith name []
  | c :: t => startsWith name (c :: t) || occursIn name t

/-- Whether the text of an error mentions `name`. -/
def mentions (text name : String) : Bool := occursIn name.data text.data

/-- The pattern of the end-to-end scenario: `linux-(\d+)\.(\d+)\.\d+`. -/
def linuxPattern : String := "linux-(\\d+)\\.(\\d+)\\.\\d+"

/-- A version with the bounds of the end-to-end scenario. -/
def focal : Version :=
  { Name := "focal", MinVersion := "5.0.0", MaxVersion := "5.10.0", BaseURL := "http://mirror/u" }

/-- An ubuntu distribution with one version and the required kernel `5.4-generic`. -/
def demoUbuntu : Distribution :=
  { Name := "ubuntu", Parser := [linuxPattern], Versions := [focal],
    RequiredVersions := ["5.4-generic"] }

/-- The index page of the end-to-end scenario. -/
def demoListing : List String := ["linux-5.4.0.tar.gz", "linux-5.4.0-headers.tar.gz"]

/-- The kernel assembled from `demoListing` for `demoUbuntu`. -/
def demoKernel : Kernel :=
  { Name := "5.4", Files := ["http://mirror/u/linux-5.4.0", "http://mirror/u/linux-5.4.0"],
    Distro := "ubuntu", DistroVersion := "focal", LocalVersion := "-generic" }

/-- The origin of a key of the grouped map: an in-range match of a listed file. -/
def KeyOrigin (L : Libs) (files parsers : List String) (version : Version) (K : String) : Prop :=
  ∃ file ∈ files, ∃ parser ∈ parsers, ∃ m0 v1 rest minVer maxVer v,
    L.submatch parser file = .ok (m0 :: v1 :: rest) ∧
    L.NewVersion version.MinVersion = .ok minVer ∧
    L.NewVersion version.MaxVersion = .ok maxVer ∧
    L.NewVersion v1 = .ok v ∧ 0 ≤ L.Compare v minVer ∧ L.Compare v maxVer ≤ 0 ∧
    K = (if rest.length = 1 then v1 ++ "." ++ rest.headD "" else v1)

/-- A file none of whose matches yields a version text that the library accepts. -/
def NoiseFile (L : Libs) (parsers : List String) (file : String) : Prop :=
  ∀ q ∈ parsers, L.submatch q file = .ok [] ∨
    ∃ m0 v1 rest, L.submatch q file = .ok (m0 :: v1 :: rest) ∧
      L.NewVersion v1 = .error SemverError.ErrInvalidSemVer

/-- The rule the code follows for the local version of an ubuntu kernel: a base kernel (no
custom configuration) carries `-generic`, a variant carries the suffix of its declaration. -/
def UbuntuLocalVersion (d : Distribution) (k : Kernel) : Prop :=
  (k.CustomConfig = none ∧ k.LocalVersion = "-generic") ∨
  (k.CustomConfig ≠ none ∧ ∃ version ∈ d.Versions, ∃ cc ∈ version.CustomConfigs,
    cc.KernelName = k.Name ∧ k.LocalVersion = cc.LocalVersionSuffix)

/-- The version `focal` with a custom configuration for the kernel `5.4`. -/
def focalCustom (suffix : String) : Version :=
  { focal with CustomConfigs :=
      [{ KernelName := "5.4", LocalVersionSuffix := suffix, Properties := some [] }] }

/-- The distribution `name` with the version `focalCustom suffix`. -/
def demoCustom (name suffix : String) : Distribution :=
  { Name := name, Parser := [linuxPattern], Versions := [focalCustom suffix] }

/-- The base kernel assembled from `demoListing` for `demoCustom name suffix`. -/
def demoBase (name localVersion : String) : Kernel :=
  { Name := "5.4", Files := ["http://mirror/u/linux-5.4.0", "http://mirror/u/linux-5.4.0"],
    Distro := name, DistroVersion := "focal", LocalVersion := localVersion }

/-- The variant assembled from `demoListing` for `demoCustom name suffix`. -/
def demoVariant (name suffix : String) : Kernel :=
  { Name := "5.4", Files := ["http://mirror/u/linux-5.4.0", "http://mirror/u/linux-5.4.0"],
    Distro := name, DistroVersion := "focal", LocalVersion := suffix,
    CustomConfig := some [("CONFIG_LOCALVERSION", suffix)] }

/-- Whether a character is a hexadecimal digit. -/
def isHexChar (c : Char) : Bool :=
  c.isDigit || (97 ≤ c.toNat && c.toNat ≤ 102) || (65 ≤ c.toNat && c.toNat ≤ 70)

/-- Whether every `%` of a text is followed by two hexadecimal digits. -/
def escapesValid : List Char → Bool
  | [] => true
  | c :: rest =>
    if c = Char.ofNat 37 then
      match rest with
      | a :: b :: rest' => isHexChar a && isHexChar b && escapesValid rest'
      | _ => false
    else escapesValid rest

/-- An address parser that, like `url.Parse`, rejects an invalid percent escape. -/
def checkedAddress (s : String) : Except String URL :=
  if escapesValid s.data then .ok (splitAddress s.data)
  else .error ("parse \"" ++ s ++ "\": invalid URL escape")

/-- The world of `listingWorld` with the address parser `checkedAddress`. -/
def strictWorld (listing : List String) : World :=
  { listingWorld listing with urlParse := checkedAddress }

/-- The version `focal` with the cache flag on. -/
def focalCached : Version := { focal with ArtifactoryCache := true }

/-- A cache index with one entry, for a file other than those of the scenarios. -/
def otherIndex : artifactoryKernelCache :=
  ⟨some [("rhel_8_kernel-devel-4.18.0-80.el8.x86_64.rpm", "1f2e")]⟩

/-- A Red Hat package `kernel-devel-4.18.0-147.el8.x86_64.rpm` with the given checksum. -/
def demoPackage (checksum : String) : RhPackage :=
  { Name := "kernel-devel", Version := "4.18.0", Release := "147.el8", Arch := "x86_64",
    Checksum := checksum, DownloadHref := "https://api.access.redhat.com/download/147" }

/-- A version of the rhel distribution with the range [4.0.0, 5.0.0]. -/
def rhel8 : Version := { Name := "8", MinVersion := "4.0.0", MaxVersion := "5.0.0" }

/-- The entry (key, URL) that a pair (file, pattern) contributes to the grouped map, in the
words of the specification: present exactly for an in-range match; the key is `<g1>.<g2>` when
the match has exactly two capture groups and `<g1>` otherwise. -/
def matchEntry (L : Libs) (version : Version) (file parser : String) : Option (String × String) :=
  match validateVersion L file parser version.MinVersion version.MaxVersion with
  | .ok (true, m0 :: v1 :: rest, none) =>
    some (if rest.length = 1 then v1 ++ "." ++ rest.headD "" else v1,
      version.BaseURL ++ "/" ++ m0)
  | _ => none

/-- The entries of all in-range (file, pattern) matches: files in listing order and, for one
file, patterns in configuration order. -/
def inRangeMatches (L : Libs) (parsers : List String) (version : Version)
    (fileList : List String) : List (String × String) :=
  fileList.flatMap (fun file => parsers.filterMap (matchEntry L version file))

/-- The number of URLs of a grouped map. -/
def FileMap.total (m : FileMap) : Nat := (m.map (fun e => e.2.length)).sum

/-- The offsets that worker `i` requests when it stops after `n + 1` pages. -/
def workerOffsets (i n : Nat) : List Nat :=
  (List.range (n + 1)).map (fun j => i * 100 + 300 * j)

/-- The packages that worker `i` appends for its first `n + 1` pages: for each page, those
whose name the pattern matches. -/
def workerChunks (W : World) (re : Regexp) (repo : String) (i n : Nat) : List (List RhPackage) :=
  (List.range (n + 1)).map (fun j =>
    (getEntries W repo (i * 100 + 300 * j)).1.Packages.filter (fun p => re.MatchString p.Name))

/-- A world whose package API answers every request with the page recorded for its address. -/
def pagedWorld (repo : String) (pages : List (Nat × RepoContent)) : World :=
  { listingWorld [] with
    clientGet := fun url => .ok url
    unmarshalRepoContent := fun body =>
      match pages.find? (fun p => getEndpoint repo p.1 = body) with
      | some p => .ok p.2
      | none => .error "unexpected end of JSON input" }

/-- Four pages: a full page and a short page for worker 0, a short page for workers 1 and 2. -/
def demoPages : List (Nat × RepoContent) :=
  [(0, { Pagination := ⟨0, 100, 100⟩,
         Packages := [{ Name := "kernel-devel", Version := "4.18.0" }, { Name := "bash" }] }),
   (100, { Pagination := ⟨100, 100, 1⟩, Packages := [{ Name := "zlib" }] }),
   (200, { Pagination := ⟨200, 100, 0⟩, Packages := [] }),
   (300, { Pagination := ⟨300, 100, 1⟩,
           Packages := [{ Name := "kernel-devel", Version := "4.18.1" }] })]

/-- The number of full pages of each worker on `demoPages`. -/
def demoFullPages (i : Nat) : Nat := if i = 0 then 1 else 0

/-- The compiled name pattern `kernel-devel` of `getRhelPackages`. -/
def kernelDevelRe : Regexp :=
  match goCompile "kernel-devel" with
  | .ok r => r
  | .error _ => ⟨fun _ => []⟩

/-- The address of the kernel archive of version `v1`. -/
def archiveURL (kernelURL v1 : String) : String := kernelURL ++ "/linux-" ++ v1 ++ ".tar.gz"

/-- What the defconfig of a tag yields in `getMinikubeKernelFile`: the error of the fetch, or
the kernel version that the pattern finds in the body, if it finds one. -/
def resolveTag (W : World) (defconfigURL tag : String) : Except String (Option String) :=
  match W.httpGet (W.Sprintf defconfigURL tag) with
  | .error err => .error err
  | .ok body =>
    match W.libs.Compile "BR2_LINUX_KERNEL_CUSTOM_VERSION_VALUE=\"(.*)\"" with
    | .error err => .error err
    | .ok r =>
      match r.FindStringSubmatch body with
      | _ :: v1 :: _ => .ok (some v1)
      | _ => .ok none

/-- The state of the loop of `getMinikubeKernelFile` after a tag that resolves to `v1`. -/
def recordTag (W : World) (kernelURL kernelDefconfigURL tag v1 : String)
    (st : MinikubeState) : MinikubeState :=
  let st1 : MinikubeState := { st with minikubeMap := st.minikubeMap.push v1 tag }
  let st2 : MinikubeState :=
    if filepathBase (archiveURL kernelURL v1) ∈ st1.fileMap then st1
    else { st1 with
      newDownloadFileList := st1.newDownloadFileList.push v1 (archiveURL kernelURL v1)
      fileMap := st1.fileMap ++ [filepathBase (archiveURL kernelURL v1)] }
  if v1 ++ filepathBase (W.Sprintf kernelDefconfigURL tag) ∈ st2.fileMap then st2
  else { st2 with
    newDownloadFileList := st2.newDownloadFileList.push v1 (W.Sprintf kernelDefconfigURL tag)
    fileMap := st2.fileMap ++ [v1 ++ filepathBase (W.Sprintf kernelDefconfigURL tag)] }

/-- A world whose configuration server answers the recorded addresses and refuses the rest. -/
def tagWorld (bodies : List (String × String)) : World :=
  { listingWorld [] with
    httpGet := fun url =>
      match bodies.find? (fun b => b.1 = url) with
      | some b => .ok b.2
      | none => .error ("Get \"" ++ url ++ "\": dial tcp: connection refused") }

/-- The bodies of the configuration server: the tags `v1.2.3` and `v1.3.0` build kernel
5.10.7, the tag `v0.9.0` has no defconfig (an error page). -/
def demoBodies : List (String × String) :=
  [("http://cfg/v1.2.3/defconfig",
      "BR2_x86_64=y\nBR2_LINUX_KERNEL_CUSTOM_VERSION_VALUE=\"5.10.7\"\nBR2_LINUX_KERNEL=y"),
   ("http://cfg/v1.3.0/defconfig",
      "BR2_LINUX_KERNEL_CUSTOM_VERSION_VALUE=\"5.10.7\""),
   ("http://cfg/v0.9.0/defconfig", "404: Not Found")]

/-- The address of the kernel archives in the minikube scenario. -/
def demoKernelURL : String := "https://cdn.kernel.org/v5.x"

/-- The tag `tag`, which resolves to the version `v1`, does not disturb the archive of the
version `V`: the file names under which its two entries are deduplicated are not the base name
of the archive of `V` (unless `v1` is `V` itself, for its archive), and its defconfig address
is not the address of the archive of `V`. -/
def NoClash (W : World) (kernelURL kernelDefconfigURL V tag v1 : String) : Prop :=
  (filepathBase (archiveURL kernelURL v1) = filepathBase (archiveURL kernelURL V) → v1 = V) ∧
  v1 ++ filepathBase (W.Sprintf kernelDefconfigURL tag) ≠ filepathBase (archiveURL kernelURL V) ∧
  (v1 = V → W.Sprintf kernelDefconfigURL tag ≠ archiveURL kernelURL V)

/-- Bodies of two tags whose kernel versions, `stable/5.10` and `lts/5.10`, have archives
with the same base file name `5.10.tar.gz`. -/
def clashBodies : List (String × String) :=
  [("http://cfg/v2.0.0/defconfig", "BR2_LINUX_KERNEL_CUSTOM_VERSION_VALUE=\"stable/5.10\""),
   ("http://cfg/v2.1.0/defconfig", "BR2_LINUX_KERNEL_CUSTOM_VERSION_VALUE=\"lts/5.10\"")]

/-- The identity of a kernel. -/
def Kernel.identity (k : Kernel) : String × String × String × String :=
  (k.Name, k.LocalVersion, k.Distro, k.DistroVersion)

/-- The world `W` with another order of visit of maps. -/
def World.withOrder (W : World) (order : FileMap → FileMap) : World :=
  { W with rangeOrder := order }

/-- The identities of the kernels of the entry with key `k`: the base kernel and one variant
for every matching declaration. -/
def entryIdentities (d : Distribution) (version : Version) (k : String) :
    List (String × String × String × String) :=
  (k, if d.Name = UBUNTU then "-generic" else "", d.Name, version.Name)
    :: (version.CustomConfigs.filter (fun cc => cc.KernelName = k)).map
        (fun cc => (k, cc.LocalVersionSuffix, d.Name, version.Name))

/-- Whether the entry with key `k` has a matching declaration without a properties map. -/
def entryFaults (version : Version) (k : String) : Bool :=
  version.CustomConfigs.any (fun cc => decide (cc.KernelName = k) && cc.Properties.isNone)

/-- Two outcomes of `GetKernelList` with the same kernel identities: the same fault, or the
same error and the same identities up to order. -/
def SameIdentities (r1 r2 : Run ((List Kernel × Option String) × FileMap)) : Prop :=
  match r1, r2 with
  | .error h1, .error h2 => h1 = h2
  | .ok ((ks1, e1), _), .ok ((ks2, e2), _) =>
    e1 = e2 ∧ (ks1.map Kernel.identity).Perm (ks2.map Kernel.identity)
  | _, _ => False

/-- Two outcomes of the loop over the versions with the same kernel identities. -/
def SameAssembled (r1 r2 : Run ((List Kernel × String ⊕ List Kernel) × FileMap)) : Prop :=
  match r1, r2 with
  | .error h1, .error h2 => h1 = h2
  | .ok (.inl (ks1, e1), _), .ok (.inl (ks2, e2), _) =>
    e1 = e2 ∧ (ks1.map Kernel.identity).Perm (ks2.map Kernel.identity)
  | .ok (.inr ks1, _), .ok (.inr ks2, _) =>
    (ks1.map Kernel.identity).Perm (ks2.map Kernel.identity)
  | _, _ => False

/-- A world with an index page of tags and a configuration server. -/
def minikubeWorld (listing : List String) (bodies : List (String × String)) : World :=
  { tagWorld bodies with
    htmlParse := fun _ => .ok (.node .DocumentNode "" [] (anchors listing) .nil) }

/-- Two tags whose entries are deduplicated under each other's archive name: the first
resolves to the version `l` and its defconfig file is `inux-lin.tar.gz`, the second resolves
to the version `lin` and its defconfig file is `ux-l.tar.gz`. -/
def crossBodies : List (String × String) :=
  [("http://cfg/1./inux-lin.tar.gz", "BR2_LINUX_KERNEL_CUSTOM_VERSION_VALUE=\"l\""),
   ("http://cfg/1./ux-l.tar.gz", "BR2_LINUX_KERNEL_CUSTOM_VERSION_VALUE=\"lin\"")]

/-- A minikube version whose tags are listed at `http://tags/index`. -/
def crossVersion : Version :=
  { Name := "latest", MinVersion := "1.0.0", MaxVersion := "2.0.0",
    BaseURL := "http://tags/index", KernelURL := demoKernelURL,
    DefconfigURL := "http://cfg/%s", KernelDefconfigURL := "http://cfg/%s" }

/-- A minikube distribution over the index page of `crossListing`. -/
def crossMinikube : Distribution :=
  { Name := "minikube", Parser := ["(\\d+)(/.*)"], Versions := [crossVersion] }

/-- The index page of the two tags of `crossBodies`. -/
def crossListing : List String := ["1/inux-lin.tar.gz", "1/ux-l.tar.gz"]

/-- An index page with two kernels. -/
def twoKernels : List String := ["linux-5.4.0.tar.gz", "linux-5.8.0.tar.gz"]

/-- The one kernel assembled for `crossMinikube` when the tag of the version `l` is visited
first. -/
def crossFirst : Kernel :=
  { Name := "l", Files := ["https://cdn.kernel.org/v5.x/linux-l.tar.gz", "http://cfg/1./inux-lin.tar.gz"],
    Distro := "minikube", DistroVersion := "latest", MinikubeVersions := ["1./inux-lin.tar.gz"] }

/-- The one kernel assembled for `crossMinikube` when the tag of the version `lin` is visited
first. -/
def crossSecond : Kernel :=
  { Name := "lin", Files := ["https://cdn.kernel.org/v5.x/linux-lin.tar.gz", "http://cfg/1./ux-l.tar.gz"],
    Distro := "minikube", DistroVersion := "latest", MinikubeVersions := ["1./ux-l.tar.gz"] }

/-- The identities of the kernels that a call returns. -/
def identitiesOf (r : Run ((List Kernel × Option String) × FileMap)) :
    Run (List (String × String × String × String)) :=
  r.map (fun out => out.1.1.map Kernel.identity)

/-- The version `rhel8` with the repository of `demoPages`. -/
def rhel8Repo : Version := { rhel8 with RhRepository := "rhel-8" }

/-- A rhel distribution over the repository of `demoPages`. -/
def demoRhel : Distribution :=
  { Name := "rhel", Parser := ["kernel-devel-(\\d+\\.\\d+\\.\\d+)"], Versions := [rhel8Repo] }

/-- The version `focal` with a custom configuration for the kernel `5.4` that declares no
properties. -/
def focalBare (suffix : String) : Version :=
  { focal with CustomConfigs := [{ KernelName := "5.4", LocalVersionSuffix := suffix }] }

/-- The distribution `name` with the version `focalBare suffix`. -/
def demoBare (name suffix : String) : Distribution :=
  { Name := name, Parser := [linuxPattern], Versions := [focalBare suffix] }

/-- A pattern with two capture groups, the second of which matches only at the end of the
file name. -/
def endPattern : String := "linux-(\\d+)\\.(\\d+$)?\\d*"

/-- A distribution with the pattern `endPattern`. -/
def demoEnd : Distribution := { Name := "centos", Parser := [endPattern], Versions := [focal] }

/-- The two names under which `getMinikubeKernelFile` deduplicates the entries of the tag `t`
that resolves to the kernel version `v1`: the base name of the archive of `v1`, and `v1`
followed by the base name of the defconfig of the tag. -/
def dedupNames (W : World) (kernelURL kernelDefconfigURL t v1 : String) : List String :=
  [filepathBase (archiveURL kernelURL v1), v1 ++ filepathBase (W.Sprintf kernelDefconfigURL t)]

/-- Every tag keeps an entry: at least one of the two names under which the entries of a tag
are deduplicated is not a name of a tag that resolves to another kernel version. -/
def TagsKeepEntry (W : World) (version : Version) (tags : List String) : Prop :=
  ∀ t ∈ tags, ∀ V, resolveTag W version.DefconfigURL t = .ok (some V) →
    ∃ name ∈ dedupNames W version.KernelURL version.KernelDefconfigURL t V,
      ∀ t' ∈ tags, ∀ V', resolveTag W version.DefconfigURL t' = .ok (some V') → V' ≠ V →
        name ∉ dedupNames W version.KernelURL version.KernelDefconfigURL t' V'

/-- Two outcomes of `GetKernelList` with the same set of kernel identities: the same fault, or
both with an error or both without, and the same identities up to order. -/
def SameIdentitySet (r1 r2 : Run ((List Kernel × Option String) × FileMap)) : Prop :=
  match r1, r2 with
  | .error h1, .error h2 => h1 = h2
  | .ok ((ks1, e1), _), .ok ((ks2, e2), _) =>
    e1.isSome = e2.isSome ∧ (ks1.map Kernel.identity).Perm (ks2.map Kernel.identity)
  | _, _ => False

/-- Two outcomes of the loop over the versions with the same set of kernel identities. -/
def SameAssembledSet (r1 r2 : Run ((List Kernel × String ⊕ List Kernel) × FileMap)) : Prop :=
  match r1, r2 with
  | .error h1, .error h2 => h1 = h2
  | .ok (.inl (ks1, _), _), .ok (.inl (ks2, _), _) =>
    (ks1.map Kernel.identity).Perm (ks2.map Kernel.identity)
  | .ok (.inr ks1, _), .ok (.inr ks2, _) =>
    (ks1.map Kernel.identity).Perm (ks2.map Kernel.identity)
  | _, _ => False

/-- Bodies of two tags that build different kernels, 5.10.7 and 5.15.2. -/
def orderBodies : List (String × String) :=
  [("http://cfg/1.2.3/defconfig", "BR2_LINUX_KERNEL_CUSTOM_VERSION_VALUE=\"5.10.7\""),
   ("http://cfg/1.4.0/defconfig", "BR2_LINUX_KERNEL_CUSTOM_VERSION_VALUE=\"5.15.2\"")]

/-- A minikube version whose tags are listed at `http://tags/index`. -/
def orderVersion : Version :=
  { Name := "latest", MinVersion := "1.0.0", MaxVersion := "2.0.0",
    BaseURL := "http://tags/index", KernelURL := demoKernelURL,
    DefconfigURL := "http://cfg/%s/defconfig",
    KernelDefconfigURL := "http://cfg/%s/linux_defconfig" }

/-- A minikube distribution over the tags `v1.2.3` and `v1.4.0`. -/
def orderMinikube : Distribution :=
  { Name := "minikube", Parser := ["v(\\d+\\.\\d+\\.\\d+)"], Versions := [orderVersion] }

/-- The index page of the tags of `orderBodies`. -/
def orderListing : List String := ["v1.2.3", "v1.4.0"]

/-! ## Theorems: version matcher -/

/-- The error branch of `validateVersion`: a pattern that does not compile. -/
theorem validateVersion_compile_error (L : Libs) (file parser minVerStr maxVerStr err : String)
    (h : L.submatch parser file = .error err) :
    validateVersion L file parser minVerStr maxVerStr = .ok (false, [], some err) := by
  unfold Libs.submatch at h
  unfold validateVersion
  cases hc : L.Compile parser with
  | error e => simp [hc] at h; simp [h]
  | ok r => simp [hc] at h

/-- A pattern that compiles and does not match: not valid, no error, whatever the bounds. -/
theorem validateVersion_no_match (L : Libs) (file parser minVerStr maxVerStr : String)
    (h : L.submatch parser file = .ok []) :
    validateVersion L file parser minVerStr maxVerStr = .ok (false, [], none) := by
  unfold Libs.submatch at h
  unfold validateVersion
  cases hc : L.Compile parser with
  | error e => simp [hc] at h
  | ok r => simp [hc] at h; simp [h]

/-- C1: for a file that the pattern matches with a first capture group `v1`, and bounds that
parse to `minVer` and `maxVer`, `validateVersion` returns, and its flag `valid` is true exactly
when `v1` parses to a version `v` that is not below `minVer` and not above `maxVer` in the
library order (`Compare v minVer >= 0` and `Compare v maxVer <= 0`): both ends are inclusive. -/
theorem validateVersion_valid_iff_in_range (L : Libs)
    (file parser minVerStr maxVerStr m0 v1 : String) (rest : List String)
    (minVer maxVer : L.Version)
    (hm : L.submatch parser file = .ok (m0 :: v1 :: rest))
    (hmin : L.NewVersion minVerStr = .ok minVer)
    (hmax : L.NewVersion maxVerStr = .ok maxVer) :
    ∃ valid err,
      validateVersion L file parser minVerStr maxVerStr = .ok (valid, m0 :: v1 :: rest, err) ∧
      (valid = true ↔
        ∃ v, L.NewVersion v1 = .ok v ∧ 0 ≤ L.Compare v minVer ∧ L.Compare v maxVer ≤ 0) := by
  unfold Libs.submatch at hm
  unfold validateVersion
  cases hc : L.Compile parser with
  | error e => simp [hc] at hm
  | ok r =>
  simp only [hc, Except.ok.injEq] at hm
  simp only [hm, hmin, hmax, List.getElem?_cons_succ, List.getElem?_cons_zero, List.length_cons]
  simp only [show ¬ (rest.length + 1 + 1 < 1) by omega, if_false]
  cases hv : L.NewVersion v1 with
  | error e =>
    by_cases he : e = SemverError.ErrInvalidSemVer
    · exact ⟨false, none, by simp [he], by simp⟩
    · exact ⟨false, some ("wrong current ver " ++ v1 ++ " " ++ e.Error), by simp [he], by simp⟩
  | ok v =>
    refine ⟨_, none, rfl, ?_⟩
    simp [Libs.LessThan, Libs.GreaterThan]

/-- C1, evaluated on the boundary: kernel 5.0.0 against the range [5.0.0, 5.10.0]. -/
theorem validateVersion_valid_iff_in_range_witness :
    ∃ valid err,
      validateVersion goLibs "linux-5.0.0.tar.gz" "linux-(\\d+\\.\\d+\\.\\d+)" "5.0.0" "5.10.0"
        = .ok (valid, ["linux-5.0.0", "5.0.0"], err) ∧
      (valid = true ↔
        ∃ v, goLibs.NewVersion "5.0.0" = .ok v ∧
          0 ≤ goLibs.Compare v ⟨5, 0, 0, "", "", "5.0.0"⟩ ∧
          goLibs.Compare v ⟨5, 10, 0, "", "", "5.10.0"⟩ ≤ 0) :=
  validateVersion_valid_iff_in_range goLibs "linux-5.0.0.tar.gz" "linux-(\\d+\\.\\d+\\.\\d+)"
    "5.0.0" "5.10.0" "linux-5.0.0" "5.0.0" [] ⟨5, 0, 0, "", "", "5.0.0"⟩
    ⟨5, 10, 0, "", "", "5.10.0"⟩ (by decide) rfl rfl

/-- What a `valid = true` answer of `validateVersion` means: the pattern matched with a first
capture group that parses to a version within the parsed bounds. -/
theorem validateVersion_true (L : Libs) (file parser minVerStr maxVerStr : String)
    (vm : List String) (err : Option String)
    (h : validateVersion L file parser minVerStr maxVerStr = .ok (true, vm, err)) :
    err = none ∧ ∃ m0 v1 rest minVer maxVer v,
      vm = m0 :: v1 :: rest ∧ L.submatch parser file = .ok vm ∧
      L.NewVersion minVerStr = .ok minVer ∧ L.NewVersion maxVerStr = .ok maxVer ∧
      L.NewVersion v1 = .ok v ∧ 0 ≤ L.Compare v minVer ∧ L.Compare v maxVer ≤ 0 := by
  unfold validateVersion at h
  unfold Libs.submatch
  cases hc : L.Compile parser with
  | error e => simp [hc] at h
  | ok r =>
    simp only [hc] at h
    by_cases hlen : (r.FindStringSubmatch file).length < 1
    · simp [hlen] at h
    · simp only [hlen, if_false] at h
      cases hmin : L.NewVersion minVerStr with
      | error e => simp [hmin] at h
      | ok minVer =>
        cases hmax : L.NewVersion maxVerStr with
        | error e => simp [hmin, hmax] at h
        | ok maxVer =>
          simp only [hmin, hmax] at h
          cases h1 : (r.FindStringSubmatch file)[1]? with
          | none => simp [h1] at h
          | some v1 =>
            simp only [h1] at h
            cases hv : L.NewVersion v1 with
            | error e =>
              by_cases he : e = SemverError.ErrInvalidSemVer <;> simp [hv, he] at h
            | ok v =>
              simp only [hv, Except.ok.injEq, Prod.mk.injEq] at h
              obtain ⟨hvalid, hvm, herr⟩ := h
              refine ⟨herr.symm, ?_⟩
              match hfs : r.FindStringSubmatch file, h1 with
              | [], h1 => simp at h1
              | [_], h1 => simp at h1
              | m0 :: w :: rest, h1 =>
                simp only [List.getElem?_cons_succ, List.getElem?_cons_zero,
                  Option.some.injEq] at h1
                subst h1
                refine ⟨m0, w, rest, minVer, maxVer, v, ?_, ?_, rfl, rfl, hv, ?_⟩
                · rw [← hvm, hfs]
                · rw [← hvm]
                · simpa [Libs.LessThan, Libs.GreaterThan] using hvalid

/-- Every key of a map after `m[k] = append(m[k], x)` is `k` or a key of the map before. -/
theorem FileMap.mem_set (m : FileMap) (k : String) (v : List String) (K : String)
    (fs : List String) (h : (K, fs) ∈ FileMap.set m k v) :
    K = k ∨ ∃ fs', (K, fs') ∈ m := by
  induction m with
  | nil =>
    simp only [FileMap.set, List.mem_singleton, Prod.mk.injEq] at h
    exact Or.inl h.1
  | cons e rest ih =>
    obtain ⟨k', v'⟩ := e
    simp only [FileMap.set] at h
    by_cases hk : k' = k
    · simp only [hk, if_true, List.mem_cons, Prod.mk.injEq] at h
      rcases h with h | h
      · exact Or.inl h.1
      · exact Or.inr ⟨fs, List.mem_cons_of_mem _ h⟩
    · simp only [hk, if_false, List.mem_cons, Prod.mk.injEq] at h
      rcases h with h | h
      · exact Or.inr ⟨v', by rw [h.1]; exact List.mem_cons_self _ _⟩
      · rcases ih h with h' | ⟨fs', h'⟩
        · exact Or.inl h'
        · exact Or.inr ⟨fs', List.mem_cons_of_mem _ h'⟩

/-- The inner loop of `parse` keeps the invariant that every key has an origin. -/
theorem parseFile_keys (L : Libs) (version : Version) (file : String) (files allParsers : List String)
    (hfile : file ∈ files) (parsers : List String) (hsub : ∀ q ∈ parsers, q ∈ allParsers)
    (kernelMap out : FileMap)
    (hinv : ∀ K fs, (K, fs) ∈ kernelMap → KeyOrigin L files allParsers version K)
    (h : parseFile L version file parsers kernelMap = .ok (.ok out)) :
    ∀ K fs, (K, fs) ∈ out → KeyOrigin L files allParsers version K := by
  induction parsers generalizing kernelMap with
  | nil =>
    simp only [parseFile, Except.ok.injEq] at h
    subst h
    exact hinv
  | cons parser parsers ih =>
    have hsub' : ∀ q ∈ parsers, q ∈ allParsers := fun q hq => hsub q (List.mem_cons_of_mem _ hq)
    unfold parseFile at h
    cases hv : validateVersion L file parser version.MinVersion version.MaxVersion with
    | error e => simp [hv] at h
    | ok res =>
      obtain ⟨valid, vm, err⟩ := res
      cases err with
      | some e => simp [hv] at h
      | none =>
        simp only [hv] at h
        cases valid with
        | false =>
          simp only [Bool.false_eq_true, if_false] at h
          exact ih hsub' kernelMap hinv h
        | true =>
          simp only [if_true] at h
          obtain ⟨-, m0, v1, rest, minVer, maxVer, v, hvm, hsm, hmin, hmax, hcur, hlo, hhi⟩ :=
            validateVersion_true L file parser _ _ vm none hv
          cases hg : groupKey vm with
          | error e => simp [hg] at h
          | ok kv =>
            obtain ⟨key, g0⟩ := kv
            simp only [hg] at h
            refine ih hsub' _ ?_ h
            intro K fs hK
            rcases FileMap.mem_set _ _ _ _ _ hK with hk | ⟨fs', hk⟩
            · refine ⟨file, hfile, parser, hsub parser (List.mem_cons_self _ _), m0, v1, rest,
                minVer, maxVer, v, hvm ▸ hsm, hmin, hmax, hcur, hlo, hhi, ?_⟩
              subst hvm
              rw [hk]
              match rest, hg with
              | [], hg => simp [groupKey] at hg; simp [hg.1]
              | [m2], hg => simp [groupKey] at hg; simp [hg.1]
              | m2 :: m3 :: more, hg => simp [groupKey] at hg; simp [hg.1]
            · exact hinv K fs' hk

/-- The outer loop of `parse` keeps the invariant that every key has an origin. -/
theorem parseFiles_keys (L : Libs) (version : Version) (allFiles parsers : List String)
    (files : List String) (hsub : ∀ f ∈ files, f ∈ allFiles)
    (kernelMap out : FileMap)
    (hinv : ∀ K fs, (K, fs) ∈ kernelMap → KeyOrigin L allFiles parsers version K)
    (h : parseFiles L parsers version files kernelMap = .ok (.ok out)) :
    ∀ K fs, (K, fs) ∈ out → KeyOrigin L allFiles parsers version K := by
  induction files generalizing kernelMap with
  | nil =>
    simp only [parseFiles, Except.ok.injEq] at h
    subst h
    exact hinv
  | cons file files ih =>
    unfold parseFiles at h
    cases hf : parseFile L version file parsers kernelMap with
    | error e => simp [hf] at h
    | ok res =>
      cases res with
      | error e => simp [hf] at h
      | ok km =>
        simp only [hf] at h
        exact ih (fun f hf' => hsub f (List.mem_cons_of_mem _ hf')) km
          (parseFile_keys L version file allFiles parsers (hsub file (List.mem_cons_self _ _))
            parsers (fun q hq => hq) kernelMap km hinv hf) h

/-- C2, as the code has it: every key of the map that `Distribution.parse` returns comes from a
listed file and a configured pattern whose FIRST capture group, read as a semantic version, lies
within the bounds; the key is that group, or that group joined by a dot with the second group
when there are exactly two.  The second group is not compared with the bounds. -/
theorem parse_keys_first_group_in_range (L : Libs) (d : Distribution) (fileList : List String)
    (version : Version) (kernelMap : FileMap)
    (h : d.parse L fileList version = .ok (kernelMap, none)) :
    ∀ K fs, (K, fs) ∈ kernelMap → KeyOrigin L fileList d.Parser version K := by
  unfold Distribution.parse at h
  cases hp : parseFiles L d.Parser version fileList [] with
  | error e => simp [hp] at h
  | ok res =>
    cases res with
    | error e => simp [hp] at h
    | ok km =>
      simp only [hp, Except.ok.injEq, Prod.mk.injEq, and_true] at h
      subst h
      exact parseFiles_keys L version fileList d.Parser fileList (fun f hf => hf) [] km
        (fun K fs hK => by simp at hK) hp

/-- C2 evaluated: the spec listing, pattern and range [5.0.0, 5.10.0]; the one key is `5.4`. -/
theorem parse_keys_first_group_in_range_witness :
    KeyOrigin goLibs ["linux-5.4.0.tar.gz", "linux-5.4.0-headers.tar.gz"]
      ["linux-(\\d+)\\.(\\d+)\\.\\d+"] { MinVersion := "5.0.0", MaxVersion := "5.10.0" } "5.4" :=
  parse_keys_first_group_in_range goLibs { Parser := ["linux-(\\d+)\\.(\\d+)\\.\\d+"] }
    ["linux-5.4.0.tar.gz", "linux-5.4.0-headers.tar.gz"]
    { MinVersion := "5.0.0", MaxVersion := "5.10.0" }
    [("5.4", ["/linux-5.4.0", "/linux-5.4.0"])] (by decide)
    "5.4" ["/linux-5.4.0", "/linux-5.4.0"] (by simp)

/-- C2 fails as stated: with pattern `linux-(\d+)\.(\d+)\.\d+` and range [5.0.0, 5.10.0] the
file of kernel 5.15 does contribute a key, `5.15`, which read as a semantic version is above the
maximum 5.10.0 (only the first group, `5`, was compared with the bounds). -/
theorem parse_key_above_max :
    Distribution.parse goLibs { Parser := ["linux-(\\d+)\\.(\\d+)\\.\\d+"] }
        ["linux-5.15.0.tar.gz"] { MinVersion := "5.0.0", MaxVersion := "5.10.0" }
      = .ok ([("5.15", ["/linux-5.15.0"])], none) ∧
    goNewVersion "5.15" = .ok ⟨5, 15, 0, "", "", "5.15"⟩ ∧
    goNewVersion "5.10.0" = .ok ⟨5, 10, 0, "", "", "5.10.0"⟩ ∧
    goCompare ⟨5, 15, 0, "", "", "5.15"⟩ ⟨5, 10, 0, "", "", "5.10.0"⟩ = 1 := by
  decide

/-- With a bound that does not parse, a match makes `validateVersion` return an error. -/
theorem validateVersion_bad_bounds (L : Libs) (file parser minVerStr maxVerStr m0 : String)
    (ms : List String)
    (hbad : (∃ e, L.NewVersion minVerStr = .error e) ∨ (∃ e, L.NewVersion maxVerStr = .error e))
    (hm : L.submatch parser file = .ok (m0 :: ms)) :
    ∃ err, validateVersion L file parser minVerStr maxVerStr = .ok (false, m0 :: ms, some err) := by
  unfold Libs.submatch at hm
  unfold validateVersion
  cases hc : L.Compile parser with
  | error e => simp [hc] at hm
  | ok r =>
    simp only [hc, Except.ok.injEq] at hm
    simp only [hm, List.length_cons, show ¬ (ms.length + 1 < 1) by omega, if_false]
    cases hmin : L.NewVersion minVerStr with
    | error e => exact ⟨_, rfl⟩
    | ok minVer =>
      rcases hbad with ⟨e, he⟩ | ⟨e, he⟩
      · rw [hmin] at he; cases he
      · simp only [he]; exact ⟨_, rfl⟩

/-- The three outcomes of `L.submatch`. -/
theorem submatch_cases (L : Libs) (parser file : String) :
    (∃ err, L.submatch parser file = .error err) ∨ L.submatch parser file = .ok [] ∨
      ∃ m0 ms, L.submatch parser file = .ok (m0 :: ms) := by
  cases h : L.submatch parser file with
  | error e => exact Or.inl ⟨e, rfl⟩
  | ok vm =>
    cases vm with
    | nil => exact Or.inr (Or.inl rfl)
    | cons m0 ms => exact Or.inr (Or.inr ⟨m0, ms, rfl⟩)

/-- With a bound that does not parse, the inner loop of `parse` leaves the map as it is or
returns an error, and it returns an error when some pattern matches the file. -/
theorem parseFile_bad_bounds (L : Libs) (version : Version) (file : String)
    (hbad : (∃ e, L.NewVersion version.MinVersion = .error e) ∨
      (∃ e, L.NewVersion version.MaxVersion = .error e))
    (parsers : List String) (kernelMap : FileMap) :
    (parseFile L version file parsers kernelMap = .ok (.ok kernelMap) ∨
      ∃ err, parseFile L version file parsers kernelMap = .ok (.error err)) ∧
    ((∃ q ∈ parsers, ∃ m0 ms, L.submatch q file = .ok (m0 :: ms)) →
      ∃ err, parseFile L version file parsers kernelMap = .ok (.error err)) := by
  induction parsers with
  | nil => exact ⟨Or.inl rfl, fun ⟨q, hq, _⟩ => by simp at hq⟩
  | cons parser parsers ih =>
    rcases submatch_cases L parser file with ⟨err, he⟩ | he | ⟨m0, ms, he⟩
    · have hv := validateVersion_compile_error L file parser version.MinVersion
        version.MaxVersion err he
      have : parseFile L version file (parser :: parsers) kernelMap = .ok (.error err) := by
        simp [parseFile, hv]
      exact ⟨Or.inr ⟨err, this⟩, fun _ => ⟨err, this⟩⟩
    · have hv := validateVersion_no_match L file parser version.MinVersion version.MaxVersion he
      have : parseFile L version file (parser :: parsers) kernelMap
          = parseFile L version file parsers kernelMap := by
        simp [parseFile, hv]
      rw [this]
      refine ⟨ih.1, fun ⟨q, hq, m0, ms, hqm⟩ => ih.2 ?_⟩
      rcases List.mem_cons.1 hq with rfl | hq'
      · rw [he] at hqm; cases hqm
      · exact ⟨q, hq', m0, ms, hqm⟩
    · obtain ⟨err, hv⟩ := validateVersion_bad_bounds L file parser version.MinVersion
        version.MaxVersion m0 ms hbad he
      have : parseFile L version file (parser :: parsers) kernelMap = .ok (.error err) := by
        simp [parseFile, hv]
      exact ⟨Or.inr ⟨err, this⟩, fun _ => ⟨err, this⟩⟩

/-- With a bound that does not parse, the outer loop of `parse` returns an error when some
pattern matches some listed file. -/
theorem parseFiles_bad_bounds (L : Libs) (version : Version) (parsers : List String)
    (hbad : (∃ e, L.NewVersion version.MinVersion = .error e) ∨
      (∃ e, L.NewVersion version.MaxVersion = .error e))
    (files : List String) (kernelMap : FileMap)
    (hm : ∃ file ∈ files, ∃ q ∈ parsers, ∃ m0 ms, L.submatch q file = .ok (m0 :: ms)) :
    ∃ err, parseFiles L parsers version files kernelMap = .ok (.error err) := by
  induction files with
  | nil => obtain ⟨f, hf, _⟩ := hm; simp at hf
  | cons file files ih =>
    obtain ⟨htot, herr⟩ := parseFile_bad_bounds L version file hbad parsers kernelMap
    rcases htot with hok | ⟨err, he⟩
    · obtain ⟨f, hf, q, hq, m0, ms, hfm⟩ := hm
      rcases List.mem_cons.1 hf with rfl | hf'
      · obtain ⟨err, he⟩ := herr ⟨q, hq, m0, ms, hfm⟩
        rw [hok] at he; cases he
      · obtain ⟨err, he⟩ := ih ⟨f, hf', q, hq, m0, ms, hfm⟩
        exact ⟨err, by simp [parseFiles, hok, he]⟩
    · exact ⟨err, by simp [parseFiles, he]⟩

/-- The counterpart of `parseFile_bad_bounds` for the inner loop of `parseRedHatPackages`. -/
theorem parseRedHatPackage_bad_bounds (W : World) (version : Version) (rhp : RhPackage)
    (fileName : String) (cache : Option artifactoryKernelCache)
    (hbad : (∃ e, W.libs.NewVersion version.MinVersion = .error e) ∨
      (∃ e, W.libs.NewVersion version.MaxVersion = .error e))
    (parsers : List String) (kernelMap : FileMap) :
    (parseRedHatPackage W rhp fileName version cache parsers kernelMap = .ok (.ok kernelMap) ∨
      ∃ err, parseRedHatPackage W rhp fileName version cache parsers kernelMap
        = .ok (.error err)) ∧
    ((∃ q ∈ parsers, ∃ m0 ms, W.libs.submatch q fileName = .ok (m0 :: ms)) →
      ∃ err, parseRedHatPackage W rhp fileName version cache parsers kernelMap
        = .ok (.error err)) := by
  induction parsers with
  | nil => exact ⟨Or.inl rfl, fun ⟨q, hq, _⟩ => by simp at hq⟩
  | cons parser parsers ih =>
    rcases submatch_cases W.libs parser fileName with ⟨err, he⟩ | he | ⟨m0, ms, he⟩
    · have hv := validateVersion_compile_error W.libs fileName parser version.MinVersion
        version.MaxVersion err he
      have : parseRedHatPackage W rhp fileName version cache (parser :: parsers) kernelMap
          = .ok (.error err) := by
        simp [parseRedHatPackage, hv]
      exact ⟨Or.inr ⟨err, this⟩, fun _ => ⟨err, this⟩⟩
    · have hv := validateVersion_no_match W.libs fileName parser version.MinVersion
        version.MaxVersion he
      have : parseRedHatPackage W rhp fileName version cache (parser :: parsers) kernelMap
          = parseRedHatPackage W rhp fileName version cache parsers kernelMap := by
        simp [parseRedHatPackage, hv]
      rw [this]
      refine ⟨ih.1, fun ⟨q, hq, m0, ms, hqm⟩ => ih.2 ?_⟩
      rcases List.mem_cons.1 hq with rfl | hq'
      · rw [he] at hqm; cases hqm
      · exact ⟨q, hq', m0, ms, hqm⟩
    · obtain ⟨err, hv⟩ := validateVersion_bad_bounds W.libs fileName parser version.MinVersion
        version.MaxVersion m0 ms hbad he
      have : parseRedHatPackage W rhp fileName version cache (parser :: parsers) kernelMap
          = .ok (.error err) := by
        simp [parseRedHatPackage, hv]
      exact ⟨Or.inr ⟨err, this⟩, fun _ => ⟨err, this⟩⟩

/-- The counterpart of `parseFiles_bad_bounds` for the outer loop of `parseRedHatPackages`. -/
theorem parseRedHatPackagesLoop_bad_bounds (W : World) (version : Version)
    (parsers : List String) (cache : Option artifactoryKernelCache)
    (hbad : (∃ e, W.libs.NewVersion version.MinVersion = .error e) ∨
      (∃ e, W.libs.NewVersion version.MaxVersion = .error e))
    (packages : List RhPackage) (kernelMap : FileMap)
    (hm : ∃ rhp ∈ packages, ∃ q ∈ parsers, ∃ m0 ms,
      W.libs.submatch q rhp.fileName = .ok (m0 :: ms)) :
    ∃ err, parseRedHatPackagesLoop W version parsers cache packages kernelMap
      = .ok (.error err) := by
  induction packages with
  | nil => obtain ⟨f, hf, _⟩ := hm; simp at hf
  | cons rhp packages ih =>
    obtain ⟨htot, herr⟩ :=
      parseRedHatPackage_bad_bounds W version rhp rhp.fileName cache hbad parsers kernelMap
    rcases htot with hok | ⟨err, he⟩
    · obtain ⟨f, hf, q, hq, m0, ms, hfm⟩ := hm
      rcases List.mem_cons.1 hf with rfl | hf'
      · obtain ⟨err, he⟩ := herr ⟨q, hq, m0, ms, hfm⟩
        rw [hok] at he; cases he
      · obtain ⟨err, he⟩ := ih ⟨f, hf', q, hq, m0, ms, hfm⟩
        exact ⟨err, by simp [parseRedHatPackagesLoop, hok, he]⟩
    · exact ⟨err, by simp [parseRedHatPackagesLoop, he]⟩

/-- C3, as the code has it: when the configured minimum or maximum does not parse as a semantic
version, `validateVersion` returns an error for every file that the pattern matches (the match
is tested before the bounds are parsed), and `Distribution.parse` and `parseRedHatPackages`
return that kind of error and no grouped map as soon as one listed file is matched by one
configured pattern. -/
theorem malformed_bounds_error_on_match (W : World) (version : Version)
    (hbad : (∃ e, W.libs.NewVersion version.MinVersion = .error e) ∨
      (∃ e, W.libs.NewVersion version.MaxVersion = .error e)) :
    (∀ file parser m0 ms, W.libs.submatch parser file = .ok (m0 :: ms) →
      ∃ err, validateVersion W.libs file parser version.MinVersion version.MaxVersion
        = .ok (false, m0 :: ms, some err)) ∧
    (∀ (d : Distribution) (fileList : List String),
      (∃ file ∈ fileList, ∃ q ∈ d.Parser, ∃ m0 ms, W.libs.submatch q file = .ok (m0 :: ms)) →
      ∃ err, d.parse W.libs fileList version = .ok ([], some err)) ∧
    (∀ (packages : List RhPackage) (parsers : List String)
        (cache : Option artifactoryKernelCache),
      (∃ rhp ∈ packages, ∃ q ∈ parsers, ∃ m0 ms,
        W.libs.submatch q rhp.fileName = .ok (m0 :: ms)) →
      ∃ err, parseRedHatPackages W packages version parsers cache = .ok ([], some err)) := by
  refine ⟨fun file parser m0 ms hm =>
    validateVersion_bad_bounds W.libs file parser _ _ m0 ms hbad hm, ?_, ?_⟩
  · intro d fileList hm
    obtain ⟨err, he⟩ := parseFiles_bad_bounds W.libs version d.Parser hbad fileList [] hm
    exact ⟨err, by simp [Distribution.parse, he]⟩
  · intro packages parsers cache hm
    obtain ⟨err, he⟩ :=
      parseRedHatPackagesLoop_bad_bounds W version parsers cache hbad packages [] hm
    exact ⟨err, by simp [parseRedHatPackages, he]⟩

/-- C3 evaluated: minimum `five` does not parse, and the listed file is matched. -/
theorem malformed_bounds_error_on_match_witness :
    ∃ err, Distribution.parse (listingWorld []).libs { Parser := ["linux-(\\d+)\\.(\\d+)\\.\\d+"] }
      ["linux-5.4.0.tar.gz"] { MinVersion := "five", MaxVersion := "5.10.0" }
      = .ok ([], some err) :=
  (malformed_bounds_error_on_match (listingWorld [])
      { MinVersion := "five", MaxVersion := "5.10.0" }
      (Or.inl ⟨SemverError.ErrInvalidSemVer, rfl⟩)).2.1
    { Parser := ["linux-(\\d+)\\.(\\d+)\\.\\d+"] } ["linux-5.4.0.tar.gz"]
    ⟨"linux-5.4.0.tar.gz", by simp, "linux-(\\d+)\\.(\\d+)\\.\\d+", by simp,
      "linux-5.4.0", ["5", "4"], by decide⟩

/-- C3 fails as stated: the minimum `five` does not parse, yet for a file that the pattern does
not match `validateVersion` returns no error, and `Distribution.parse` returns an (empty) grouped
map and no error for a listing without a matching file. -/
theorem malformed_bounds_no_error_without_match :
    goNewVersion "five" = .error SemverError.ErrInvalidSemVer ∧
    validateVersion goLibs "README.html" "linux-(\\d+)\\.(\\d+)\\.\\d+" "five" "5.10.0"
      = .ok (false, [], none) ∧
    Distribution.parse goLibs { Parser := ["linux-(\\d+)\\.(\\d+)\\.\\d+"] } ["README.html"]
      { MinVersion := "five", MaxVersion := "5.10.0" } = .ok ([], none) := by
  decide

/-- With parseable bounds, a match whose first group the library rejects with
`ErrInvalidSemVer` is answered `not valid`, without an error. -/
theorem validateVersion_invalid_semver (L : Libs) (file parser minVerStr maxVerStr m0 v1 : String)
    (rest : List String) (minVer maxVer : L.Version)
    (hmin : L.NewVersion minVerStr = .ok minVer) (hmax : L.NewVersion maxVerStr = .ok maxVer)
    (hm : L.submatch parser file = .ok (m0 :: v1 :: rest))
    (hv : L.NewVersion v1 = .error SemverError.ErrInvalidSemVer) :
    validateVersion L file parser minVerStr maxVerStr = .ok (false, m0 :: v1 :: rest, none) := by
  unfold Libs.submatch at hm
  unfold validateVersion
  cases hc : L.Compile parser with
  | error e => simp [hc] at hm
  | ok r =>
    simp only [hc, Except.ok.injEq] at hm
    simp [hm, hmin, hmax, hv]

/-- The inner loop of `parse` leaves the map unchanged on a noise file. -/
theorem parseFile_noise (L : Libs) (version : Version) (file : String)
    (minVer maxVer : L.Version)
    (hmin : L.NewVersion version.MinVersion = .ok minVer)
    (hmax : L.NewVersion version.MaxVersion = .ok maxVer)
    (parsers : List String) (hn : NoiseFile L parsers file) (kernelMap : FileMap) :
    parseFile L version file parsers kernelMap = .ok (.ok kernelMap) := by
  induction parsers with
  | nil => rfl
  | cons parser parsers ih =>
    have hrest : NoiseFile L parsers file := fun q hq => hn q (List.mem_cons_of_mem _ hq)
    rcases hn parser (List.mem_cons_self _ _) with h0 | ⟨m0, v1, rest, hm, hv⟩
    · have := validateVersion_no_match L file parser version.MinVersion version.MaxVersion h0
      simp [parseFile, this, ih hrest]
    · have := validateVersion_invalid_semver L file parser version.MinVersion version.MaxVersion
        m0 v1 rest minVer maxVer hmin hmax hm hv
      simp [parseFile, this, ih hrest]

/-- With parseable bounds, a match whose first group the library rejects with an error other
than `ErrInvalidSemVer` is answered with the error `wrong current ver`. -/
theorem validateVersion_other_error (L : Libs) (file parser minVerStr maxVerStr m0 v1 : String)
    (rest : List String) (minVer maxVer : L.Version) (e : SemverError)
    (hmin : L.NewVersion minVerStr = .ok minVer) (hmax : L.NewVersion maxVerStr = .ok maxVer)
    (hm : L.submatch parser file = .ok (m0 :: v1 :: rest))
    (hv : L.NewVersion v1 = .error e) (hne : e ≠ SemverError.ErrInvalidSemVer) :
    validateVersion L file parser minVerStr maxVerStr
      = .ok (false, m0 :: v1 :: rest, some ("wrong current ver " ++ v1 ++ " " ++ e.Error)) := by
  unfold Libs.submatch at hm
  unfold validateVersion
  cases hc : L.Compile parser with
  | error e => simp [hc] at hm
  | ok r =>
    simp only [hc, Except.ok.injEq] at hm
    simp [hm, hmin, hmax, hv, hne]

/-- The inner loop of `parse` over two runs of patterns, one after the other. -/
theorem parseFile_append (L : Libs) (version : Version) (file : String) (qs ps : List String)
    (kernelMap : FileMap) :
    parseFile L version file (qs ++ ps) kernelMap
      = match parseFile L version file qs kernelMap with
        | .error h => .error h
        | .ok (.error err) => .ok (.error err)
        | .ok (.ok km) => parseFile L version file ps km := by
  induction qs generalizing kernelMap with
  | nil => rfl
  | cons q qs ih =>
    simp only [List.cons_append, parseFile]
    cases validateVersion L file q version.MinVersion version.MaxVersion with
    | error h => rfl
    | ok res =>
      obtain ⟨valid, vm, err⟩ := res
      cases err with
      | some e => rfl
      | none =>
        cases valid with
        | false =>
          simp only [Bool.false_eq_true, if_false]
          exact ih kernelMap
        | true =>
          simp only [if_true]
          cases groupKey vm with
          | error h => rfl
          | ok p => exact ih _

/-- The outer loop of `parse` over two listings, one after the other. -/
theorem parseFiles_append (L : Libs) (parsers : List String) (version : Version)
    (fs gs : List String) (kernelMap : FileMap) :
    parseFiles L parsers version (fs ++ gs) kernelMap
      = match parseFiles L parsers version fs kernelMap with
        | .error h => .error h
        | .ok (.error err) => .ok (.error err)
        | .ok (.ok km) => parseFiles L parsers version gs km := by
  induction fs generalizing kernelMap with
  | nil => rfl
  | cons f fs ih =>
    simp only [List.cons_append, parseFiles]
    cases parseFile L version f parsers kernelMap with
    | error h => rfl
    | ok res =>
      cases res with
      | error e => rfl
      | ok km => exact ih km

/-- The inner loop of `parse` returns a map when no pattern makes `validateVersion` fail. -/
theorem parseFile_ok_of_no_error (L : Libs) (version : Version) (file : String)
    (qs : List String) (kernelMap : FileMap)
    (hall : ∀ q ∈ qs, ∃ valid vm,
      validateVersion L file q version.MinVersion version.MaxVersion = .ok (valid, vm, none)) :
    ∃ km, parseFile L version file qs kernelMap = .ok (.ok km) := by
  induction qs generalizing kernelMap with
  | nil => exact ⟨kernelMap, rfl⟩
  | cons q qs ih =>
    obtain ⟨valid, vm, hv⟩ := hall q (List.mem_cons_self _ _)
    have hrest : ∀ x ∈ qs, ∃ valid vm,
        validateVersion L file x version.MinVersion version.MaxVersion = .ok (valid, vm, none) :=
      fun x hx => hall x (List.mem_cons_of_mem _ hx)
    cases valid with
    | false =>
      obtain ⟨km, hk⟩ := ih kernelMap hrest
      exact ⟨km, by simp [parseFile, hv, hk]⟩
    | true =>
      obtain ⟨-, m0, v1, rest, -, -, -, hvm, -⟩ :=
        validateVersion_true L file q _ _ vm none hv
      subst hvm
      have hg : ∃ key g0, groupKey (m0 :: v1 :: rest) = .ok (key, g0) := by
        match rest with
        | [] => exact ⟨_, _, rfl⟩
        | [m2] => exact ⟨_, _, rfl⟩
        | m2 :: m3 :: more => exact ⟨_, _, rfl⟩
      obtain ⟨key, g0, hg'⟩ := hg
      obtain ⟨km, hk⟩ := ih (kernelMap.push key (version.BaseURL ++ "/" ++ g0)) hrest
      exact ⟨km, by simp [parseFile, hv, hg', hk]⟩

/-- The inner loop of `parse` returns no map when some pattern matches the file with a version
text that the library rejects with an error other than `ErrInvalidSemVer`. -/
theorem parseFile_other_error (L : Libs) (version : Version) (file : String)
    (minVer maxVer : L.Version)
    (hmin : L.NewVersion version.MinVersion = .ok minVer)
    (hmax : L.NewVersion version.MaxVersion = .ok maxVer)
    (parsers : List String) (kernelMap : FileMap)
    (hbad : ∃ parser ∈ parsers, ∃ m0 v1 rest e, L.submatch parser file = .ok (m0 :: v1 :: rest) ∧
      L.NewVersion v1 = .error e ∧ e ≠ SemverError.ErrInvalidSemVer) :
    ∀ km, parseFile L version file parsers kernelMap ≠ .ok (.ok km) := by
  induction parsers generalizing kernelMap with
  | nil => obtain ⟨q, hq, _⟩ := hbad; simp at hq
  | cons q qs ih =>
    intro km
    obtain ⟨parser, hp, m0, v1, rest, e, hm, hv, hne⟩ := hbad
    rcases List.mem_cons.1 hp with rfl | hp'
    · have := validateVersion_other_error L file parser version.MinVersion version.MaxVersion
        m0 v1 rest minVer maxVer e hmin hmax hm hv hne
      simp [parseFile, this]
    · have hrest := fun kernelMap' => ih kernelMap' ⟨parser, hp', m0, v1, rest, e, hm, hv, hne⟩
      simp only [parseFile]
      cases validateVersion L file q version.MinVersion version.MaxVersion with
      | error h => simp
      | ok res =>
        obtain ⟨valid, vm, err⟩ := res
        cases err with
        | some e' => simp
        | none =>
          cases valid with
          | false =>
            simp only [Bool.false_eq_true, if_false]
            exact hrest kernelMap km
          | true =>
            simp only [if_true]
            cases groupKey vm with
            | error h => simp
            | ok p => exact hrest _ km

/-- The outer loop of `parse` returns no map when some listed file has a match whose version
text the library rejects with an error other than `ErrInvalidSemVer`. -/
theorem parseFiles_other_error (L : Libs) (version : Version) (file : String)
    (minVer maxVer : L.Version)
    (hmin : L.NewVersion version.MinVersion = .ok minVer)
    (hmax : L.NewVersion version.MaxVersion = .ok maxVer)
    (parsers : List String) (files : List String) (kernelMap : FileMap) (hf : file ∈ files)
    (hbad : ∃ parser ∈ parsers, ∃ m0 v1 rest e, L.submatch parser file = .ok (m0 :: v1 :: rest) ∧
      L.NewVersion v1 = .error e ∧ e ≠ SemverError.ErrInvalidSemVer) :
    ∀ km, parseFiles L parsers version files kernelMap ≠ .ok (.ok km) := by
  induction files generalizing kernelMap with
  | nil => simp at hf
  | cons f files ih =>
    intro km
    simp only [parseFiles]
    rcases List.mem_cons.1 hf with rfl | hf'
    · have := parseFile_other_error L version file minVer maxVer hmin hmax parsers kernelMap hbad
      cases hp : parseFile L version file parsers kernelMap with
      | error h => simp
      | ok res =>
        cases res with
        | error e => simp
        | ok km1 => exact absurd hp (this km1)
    · cases parseFile L version f parsers kernelMap with
      | error h => simp
      | ok res =>
        cases res with
        | error e => simp
        | ok km1 => exact ih km1 hf' km

/-- C4, as the code has it: with parseable bounds, a match whose extracted version text is
rejected by the library as an invalid semantic version (`ErrInvalidSemVer`) is answered
`not valid` with no error, and a listed file all of whose matches are of that kind is excluded:
`Distribution.parse` answers for the listing what it answers for the listing without the file.
A match whose version text is rejected with any other error is answered with the error
`wrong current ver <text> <library error>`; `Distribution.parse` returns that error, and no
map, when the listing before the file and the patterns before that one raise no error, and it
returns no map for any listing that holds such a file. -/
theorem invalid_semver_file_is_excluded (L : Libs) (version : Version) (file : String)
    (minVer maxVer : L.Version)
    (hmin : L.NewVersion version.MinVersion = .ok minVer)
    (hmax : L.NewVersion version.MaxVersion = .ok maxVer) :
    (∀ parser m0 v1 rest, L.submatch parser file = .ok (m0 :: v1 :: rest) →
      L.NewVersion v1 = .error SemverError.ErrInvalidSemVer →
      validateVersion L file parser version.MinVersion version.MaxVersion
        = .ok (false, m0 :: v1 :: rest, none)) ∧
    (∀ (d : Distribution) (before after : List String), NoiseFile L d.Parser file →
      d.parse L (before ++ file :: after) version = d.parse L (before ++ after) version) ∧
    (∀ parser m0 v1 rest e, L.submatch parser file = .ok (m0 :: v1 :: rest) →
      L.NewVersion v1 = .error e → e ≠ SemverError.ErrInvalidSemVer →
      validateVersion L file parser version.MinVersion version.MaxVersion
        = .ok (false, m0 :: v1 :: rest,
            some ("wrong current ver " ++ v1 ++ " " ++ e.Error))) ∧
    (∀ (d : Distribution) (before after : List String) (km : FileMap)
        (qs : List String) (parser : String) (qs' : List String) (m0 v1 : String)
        (rest : List String) (e : SemverError),
      d.parse L before version = .ok (km, none) →
      d.Parser = qs ++ parser :: qs' →
      (∀ q ∈ qs, ∃ valid vm,
        validateVersion L file q version.MinVersion version.MaxVersion
          = .ok (valid, vm, none)) →
      L.submatch parser file = .ok (m0 :: v1 :: rest) →
      L.NewVersion v1 = .error e → e ≠ SemverError.ErrInvalidSemVer →
      d.parse L (before ++ file :: after) version
        = .ok ([], some ("wrong current ver " ++ v1 ++ " " ++ e.Error))) ∧
    (∀ (d : Distribution) (fileList : List String), file ∈ fileList →
      (∃ parser ∈ d.Parser, ∃ m0 v1 rest e, L.submatch parser file = .ok (m0 :: v1 :: rest) ∧
        L.NewVersion v1 = .error e ∧ e ≠ SemverError.ErrInvalidSemVer) →
      ∀ km, d.parse L fileList version ≠ .ok (km, none)) := by
  refine ⟨fun parser m0 v1 rest hm hv =>
    validateVersion_invalid_semver L file parser _ _ m0 v1 rest minVer maxVer hmin hmax hm hv,
    ?_, fun parser m0 v1 rest e hm hv hne =>
    validateVersion_other_error L file parser _ _ m0 v1 rest minVer maxVer e hmin hmax hm hv hne,
    ?_, ?_⟩
  · intro d before after hn
    have key : ∀ kernelMap, parseFiles L d.Parser version (before ++ file :: after) kernelMap
        = parseFiles L d.Parser version (before ++ after) kernelMap := by
      induction before with
      | nil =>
        intro kernelMap
        simp [parseFiles, parseFile_noise L version file minVer maxVer hmin hmax d.Parser hn]
      | cons f before ih =>
        intro kernelMap
        simp only [List.cons_append, parseFiles]
        cases parseFile L version f d.Parser kernelMap with
        | error e => rfl
        | ok res =>
          cases res with
          | error e => rfl
          | ok km => exact ih km
    simp [Distribution.parse, key]
  · intro d before after km qs parser qs' m0 v1 rest e hbefore hparsers hqs hm hv hne
    have hpre : parseFiles L d.Parser version before [] = .ok (.ok km) := by
      unfold Distribution.parse at hbefore
      cases hp : parseFiles L d.Parser version before [] with
      | error h => simp [hp] at hbefore
      | ok res =>
        cases res with
        | error err => simp [hp] at hbefore
        | ok km1 =>
          simp only [hp, Except.ok.injEq, Prod.mk.injEq, and_true] at hbefore
          rw [hbefore]
    obtain ⟨km', hk⟩ := parseFile_ok_of_no_error L version file qs km hqs
    have hvv := validateVersion_other_error L file parser version.MinVersion version.MaxVersion
      m0 v1 rest minVer maxVer e hmin hmax hm hv hne
    have hfile : parseFile L version file d.Parser km
        = .ok (.error ("wrong current ver " ++ v1 ++ " " ++ e.Error)) := by
      rw [hparsers, parseFile_append, hk]
      simp [parseFile, hvv]
    unfold Distribution.parse
    rw [parseFiles_append, hpre]
    simp [parseFiles, hfile]
  · intro d fileList hf hbad km
    have := parseFiles_other_error L version file minVer maxVer hmin hmax d.Parser fileList []
      hf hbad
    unfold Distribution.parse
    cases hp : parseFiles L d.Parser version fileList [] with
    | error h => simp
    | ok res =>
      cases res with
      | error err => simp
      | ok km1 => exact absurd hp (this km1)

/-- C4 evaluated: `linux-5.x.tar.gz` yields the version text `5.x`, which is no semantic
version; the listing with it groups like the listing without it.  The file
`linux-99999999999999999999.tar.gz` yields a version text with a segment beyond 64 bits, and
the listing with it after `linux-5.4.0.tar.gz` has the error for that text and no map. -/
theorem invalid_semver_file_is_excluded_witness :
    Distribution.parse goLibs { Parser := ["linux-(.+)\\.tar"] }
        (["linux-5.4.0.tar.gz"] ++ "linux-5.x.tar.gz" :: ["linux-5.5.0.tar.gz"])
        { MinVersion := "5.0.0", MaxVersion := "5.10.0" }
      = Distribution.parse goLibs { Parser := ["linux-(.+)\\.tar"] }
        (["linux-5.4.0.tar.gz"] ++ ["linux-5.5.0.tar.gz"])
        { MinVersion := "5.0.0", MaxVersion := "5.10.0" } ∧
    Distribution.parse goLibs { Parser := ["linux-(\\d+)"] }
        (["linux-5.4.0.tar.gz"] ++ "linux-99999999999999999999.tar.gz" :: [])
        { MinVersion := "5.0.0", MaxVersion := "5.10.0" }
      = .ok ([], some ("wrong current ver " ++ "99999999999999999999" ++ " "
          ++ (SemverError.other "Error parsing version segment: strconv.ParseInt: parsing \"99999999999999999999\": value out of range").Error)) :=
  ⟨(invalid_semver_file_is_excluded goLibs { MinVersion := "5.0.0", MaxVersion := "5.10.0" }
      "linux-5.x.tar.gz" ⟨5, 0, 0, "", "", "5.0.0"⟩ ⟨5, 10, 0, "", "", "5.10.0"⟩ rfl rfl).2.1
    { Parser := ["linux-(.+)\\.tar"] } ["linux-5.4.0.tar.gz"] ["linux-5.5.0.tar.gz"]
    (by
      intro q hq
      simp only [List.mem_singleton] at hq
      subst hq
      exact Or.inr ⟨"linux-5.x.tar", "5.x", [], by decide, rfl⟩),
   (invalid_semver_file_is_excluded goLibs { MinVersion := "5.0.0", MaxVersion := "5.10.0" }
      "linux-99999999999999999999.tar.gz" ⟨5, 0, 0, "", "", "5.0.0"⟩
      ⟨5, 10, 0, "", "", "5.10.0"⟩ rfl rfl).2.2.2.1
    { Parser := ["linux-(\\d+)"] } ["linux-5.4.0.tar.gz"] [] [("5", ["/linux-5"])]
    [] "linux-(\\d+)" [] "linux-99999999999999999999" "99999999999999999999" []
    (SemverError.other "Error parsing version segment: strconv.ParseInt: parsing \"99999999999999999999\": value out of range")
    (by decide) rfl (by simp) (by decide) rfl (by simp)⟩

/-- C4 fails as stated: the pattern matches and the extracted text `99999999999999999999` does
not parse as a semantic version (a segment beyond 64 bits), the bounds parse, and yet
`validateVersion` returns an error, so that `Distribution.parse` fails for the whole listing
although `linux-5.4.0.tar.gz` is in range. -/
theorem unparseable_version_is_error :
    goNewVersion "99999999999999999999" = .error (.other
      "Error parsing version segment: strconv.ParseInt: parsing \"99999999999999999999\": value out of range") ∧
    validateVersion goLibs "linux-99999999999999999999.tar.gz" "linux-(\\d+)" "5.0.0" "5.10.0"
      = .ok (false, ["linux-99999999999999999999", "99999999999999999999"],
          some "wrong current ver 99999999999999999999 Error parsing version segment: strconv.ParseInt: parsing \"99999999999999999999\": value out of range") ∧
    Distribution.parse goLibs { Parser := ["linux-(\\d+)"] }
        ["linux-99999999999999999999.tar.gz", "linux-5.4.0.tar.gz"]
        { MinVersion := "5.0.0", MaxVersion := "5.10.0" }
      = .ok ([], some "wrong current ver 99999999999999999999 Error parsing version segment: strconv.ParseInt: parsing \"99999999999999999999\": value out of range") := by
  decide

/-! ## Theorems: cache index -/

/-- For a non-empty checksum `InCacheSumCheck` is true exactly when the key is present with
that checksum. -/
theorem InCacheSumCheck_nonempty (a : artifactoryKernelCache)
    (distro version fileName chksum : String) (hne : chksum ≠ "") :
    a.InCacheSumCheck distro version fileName chksum = true ↔
      a.kernels.lookup (keyName distro version fileName) = some chksum := by
  unfold artifactoryKernelCache.InCacheSumCheck
  cases h : a.kernels.lookup (keyName distro version fileName) with
  | none => simp [hne]
  | some asum => simp [eq_comm]

/-- C5 on the failing input: the index holds one entry, the queried file has no entry
(`InCache` says so) and the given checksum is empty, and `InCacheSumCheck` returns true. -/
theorem InCacheSumCheck_absent_key_empty_checksum :
    (⟨some [("rhel_8_kernel-devel-4.18.0-80.el8.x86_64.rpm", "1f2e")]⟩ :
        artifactoryKernelCache).InCache "rhel" "8" "kernel-devel-4.18.0-147.el8.x86_64.rpm"
      = false ∧
    (⟨some [("rhel_8_kernel-devel-4.18.0-80.el8.x86_64.rpm", "1f2e")]⟩ :
        artifactoryKernelCache).InCacheSumCheck "rhel" "8"
        "kernel-devel-4.18.0-147.el8.x86_64.rpm" "" = true := by
  decide

/-- The keys after the write `m[k] = v`. -/
theorem mem_keys_setEntry (k v : String) (m : List (String × String)) (x : String) :
    (∃ e ∈ setEntry k v m, e.1 = x) ↔ x = k ∨ ∃ e ∈ m, e.1 = x := by
  induction m with
  | nil => simp [setEntry, eq_comm]
  | cons e rest ih =>
    obtain ⟨k', v'⟩ := e
    by_cases hk : k' = k
    · subst hk
      simp only [setEntry, if_true, List.mem_cons, exists_eq_or_imp]
      constructor
      · rintro (h | h)
        · exact Or.inl h.symm
        · exact Or.inr (Or.inr h)
      · rintro (h | h | h)
        · exact Or.inl h.symm
        · exact Or.inl h
        · exact Or.inr h
    · simp only [setEntry, hk, if_false, List.mem_cons, exists_eq_or_imp, ih]
      tauto

/-- The keys of the map that the loop of `GetArtifactoryKernels` builds. -/
theorem mem_keys_indexResults (records : List ResultItem) (fileMap : List (String × String))
    (x : String) :
    (∃ e ∈ indexResults records fileMap, e.1 = x) ↔
      (∃ e ∈ fileMap, e.1 = x) ∨
      ∃ r ∈ records, ∃ distro version,
        getDistVersionFromPath r.Path = (distro, version, none) ∧
        keyName distro version r.Name = x := by
  induction records generalizing fileMap with
  | nil => simp [indexResults]
  | cons r rest ih =>
    unfold indexResults
    rcases hp : getDistVersionFromPath r.Path with ⟨distro, version, err⟩
    cases err with
    | some e =>
      simp only [ih, List.mem_cons, exists_eq_or_imp, hp]
      simp
    | none =>
      simp only [ih, mem_keys_setEntry, List.mem_cons, exists_eq_or_imp, hp]
      simp only [Prod.mk.injEq, and_true]
      constructor
      · rintro ((h | h) | h)
        · exact Or.inr (Or.inl ⟨distro, version, ⟨rfl, rfl⟩, h.symm⟩)
        · exact Or.inl h
        · exact Or.inr (Or.inr h)
      · rintro (h | ⟨d', v', ⟨rfl, rfl⟩, h⟩ | h)
        · exact Or.inl (Or.inr h)
        · exact Or.inl (Or.inl h.symm)
        · exact Or.inr h

/-- Membership in the cache is presence of the joined key among the entries. -/
theorem InCache_iff_mem (entries : List (String × String)) (distro version fileName : String) :
    (⟨some entries⟩ : artifactoryKernelCache).InCache distro version fileName = true ↔
      ∃ e ∈ entries, e.1 = keyName distro version fileName := by
  unfold artifactoryKernelCache.InCache StrMap.lookup
  cases h : entries.find? (fun e => decide (e.1 = keyName distro version fileName)) with
  | none =>
    simp only [h]
    simp only [Option.map_none', Bool.false_eq_true, false_iff, not_exists, not_and]
    intro e he
    have := List.find?_eq_none.1 h e he
    simpa using this
  | some e =>
    simp only [h]
    simp only [Option.map_some', true_iff]
    exact ⟨e, List.mem_of_find?_eq_some h, by simpa using List.find?_some h⟩

/-- C6, as the code has it: the index is keyed by the joined string `distro_version_filename`.
For the index built from the records of a search, `InCache(d, v, f)` is true exactly when some
record whose path has two segments or more (its distro and version are the last two) has the
same joined key as `(d, v, f)`. -/
theorem InCache_iff_joined_key (records : List ResultItem) (d v f : String) :
    (GetArtifactoryKernels (.ok (records, none))).1.InCache d v f = true ↔
      ∃ r ∈ records, ∃ distro version,
        getDistVersionFromPath r.Path = (distro, version, none) ∧
        keyName distro version r.Name = keyName d v f := by
  have hkeys := mem_keys_indexResults records [] (keyName d v f)
  simp only [List.not_mem_nil, false_and, exists_false, false_or] at hkeys
  unfold GetArtifactoryKernels
  simp only []
  by_cases hlen : (indexResults records []).length > 0
  · simp only [hlen, if_true, artifactoryKernelCache.Set]
    rw [InCache_iff_mem, hkeys]
  · simp only [hlen, if_false]
    have hnil : indexResults records [] = [] := by
      cases hx : indexResults records [] with
      | nil => rfl
      | cons a l => rw [hx] at hlen; simp at hlen
    rw [hnil] at hkeys
    simp only [List.not_mem_nil, false_and, exists_false, false_iff] at hkeys
    constructor
    · intro h
      simp [artifactoryKernelCache.InCache, StrMap.lookup] at h
    · intro h
      exact absurd h hkeys

/-- C6 fails as stated: the only record has distro `centos` and version `7_9`, and `InCache`
is true for the different triple (`centos_7`, `9`, same file): both resolve to one entry. -/
theorem InCache_distinct_triples_collide :
    getDistVersionFromPath "kernels/centos/7_9" = ("centos", "7_9", none) ∧
    (GetArtifactoryKernels
        (.ok ([{ Path := "kernels/centos/7_9", Name := "kernel-devel.rpm", Sha256 := "ab" }],
          none))).1.InCache "centos_7" "9" "kernel-devel.rpm" = true := by
  decide

/-! ## Theorems: required versions -/

/-- The inner loop of the check finds nothing exactly when no kernel has the identity `rv`. -/
theorem markRequired_eq_none (rv : String) (ks : List Kernel) :
    markRequired rv ks = none ↔ ∀ k ∈ ks, rv ≠ k.Name ++ k.LocalVersion := by
  induction ks with
  | nil => simp [markRequired]
  | cons k rest ih =>
    by_cases hk : rv = k.Name ++ k.LocalVersion
    · simp [markRequired, hk]
    · simp [markRequired, hk, ih]

/-- Marking changes nothing but the `Required` flag. -/
theorem markRequired_clear (rv : String) (ks ks' : List Kernel)
    (h : markRequired rv ks = some ks') :
    ks'.map Kernel.clearRequired = ks.map Kernel.clearRequired := by
  induction ks generalizing ks' with
  | nil => simp [markRequired] at h
  | cons k rest ih =>
    by_cases hk : rv = k.Name ++ k.LocalVersion
    · simp only [markRequired, hk, if_true, Option.some.injEq] at h
      subst h
      simp [Kernel.clearRequired]
    · simp only [markRequired, hk, if_false, Option.map_eq_some'] at h
      obtain ⟨rest', hr, rfl⟩ := h
      simp [ih rest' hr]

/-- Presence of an identity depends on the kernels up to the `Required` flag only. -/
theorem exists_identity_congr (rv : String) (ks ks' : List Kernel)
    (h : ks'.map Kernel.clearRequired = ks.map Kernel.clearRequired) :
    (∃ k ∈ ks', rv = k.Name ++ k.LocalVersion) ↔ (∃ k ∈ ks, rv = k.Name ++ k.LocalVersion) := by
  have key : ∀ a b : List Kernel, a.map Kernel.clearRequired = b.map Kernel.clearRequired →
      (∃ k ∈ a, rv = k.Name ++ k.LocalVersion) → (∃ k ∈ b, rv = k.Name ++ k.LocalVersion) := by
    intro a b hab ⟨k, hk, hrv⟩
    have hm : k.clearRequired ∈ b.map Kernel.clearRequired :=
      hab ▸ List.mem_map_of_mem _ hk
    obtain ⟨k', hk', he⟩ := List.mem_map.1 hm
    refine ⟨k', hk', ?_⟩
    have h1 : k'.clearRequired.Name = k.clearRequired.Name := by rw [he]
    have h2 : k'.clearRequired.LocalVersion = k.clearRequired.LocalVersion := by rw [he]
    simp only [Kernel.clearRequired] at h1 h2
    rw [h1, h2]
    exact hrv
  exact ⟨key ks' ks h, key ks ks' h.symm⟩

/-- The check succeeds, changing flags only, when every required identity is present. -/
theorem checkRequired_all_present (d : Distribution) (rvs : List String) (ks : List Kernel)
    (h : ∀ rv ∈ rvs, ∃ k ∈ ks, rv = k.Name ++ k.LocalVersion) :
    ∃ ks', checkRequired d rvs ks = (ks', none) ∧
      ks'.map Kernel.clearRequired = ks.map Kernel.clearRequired := by
  induction rvs generalizing ks with
  | nil => exact ⟨ks, rfl, rfl⟩
  | cons rv rvs ih =>
    cases hm : markRequired rv ks with
    | none =>
      obtain ⟨k, hk, hrv⟩ := h rv (List.mem_cons_self _ _)
      exact absurd hrv ((markRequired_eq_none rv ks).1 hm k hk)
    | some ks1 =>
      have hc := markRequired_clear rv ks ks1 hm
      obtain ⟨ks', h1, h2⟩ := ih ks1 (fun r hr =>
        (exists_identity_congr r ks ks1 hc).2 (h r (List.mem_cons_of_mem _ hr)))
      exact ⟨ks', by simp [checkRequired, hm, h1], h2.trans hc⟩

/-- The check fails at the first required identity that no kernel has, with the error that
names it. -/
theorem checkRequired_first_missing (d : Distribution) (found : List String) (rv : String)
    (later : List String) (ks : List Kernel)
    (hfound : ∀ r ∈ found, ∃ k ∈ ks, r = k.Name ++ k.LocalVersion)
    (hmiss : ¬ ∃ k ∈ ks, rv = k.Name ++ k.LocalVersion) :
    checkRequired d (found ++ rv :: later) ks = ([], some (requiredError rv d.Name)) := by
  induction found generalizing ks with
  | nil =>
    have : markRequired rv ks = none :=
      (markRequired_eq_none rv ks).2 (fun k hk he => hmiss ⟨k, hk, he⟩)
    simp [checkRequired, this]
  | cons r found ih =>
    cases hm : markRequired r ks with
    | none =>
      obtain ⟨k, hk, hrv⟩ := hfound r (List.mem_cons_self _ _)
      exact absurd hrv ((markRequired_eq_none r ks).1 hm k hk)
    | some ks1 =>
      have hc := markRequired_clear r ks ks1 hm
      have := ih ks1
        (fun x hx => (exists_identity_congr x ks ks1 hc).2 (hfound x (List.mem_cons_of_mem _ hx)))
        (fun hx => hmiss ((exists_identity_congr rv ks ks1 hc).1 hx))
      simp [checkRequired, hm, this]

/-- A list some element of which fails `p` splits at the first such element. -/
theorem split_at_first_failure (p : String → Prop) (rvs : List String)
    (h : ¬ ∀ rv ∈ rvs, p rv) :
    ∃ found rv later, rvs = found ++ rv :: later ∧ (∀ r ∈ found, p r) ∧ ¬ p rv := by
  induction rvs with
  | nil => simp at h
  | cons r rest ih =>
    by_cases hr : p r
    · have : ¬ ∀ rv ∈ rest, p rv := fun hall =>
        h (fun x hx => by
          rcases List.mem_cons.1 hx with rfl | hx'
          · exact hr
          · exact hall x hx')
      obtain ⟨found, rv, later, he, hf, hm⟩ := ih this
      refine ⟨r :: found, rv, later, by simp [he], ?_, hm⟩
      intro x hx
      rcases List.mem_cons.1 hx with rfl | hx'
      · exact hr
      · exact hf x hx'
    · exact ⟨[], r, rest, rfl, by simp, hr⟩

/-- C7: once the kernels of all versions are assembled into `kernelList`, `GetKernelList`
returns a kernel list and no error exactly when every string of `RequiredVersions` equals
`Name + LocalVersion` of some assembled kernel; the list it then returns is `kernelList` up to
`Required` flags; otherwise it returns no kernels and the error that names a required string
that no assembled kernel has. -/
theorem GetKernelList_required_validation (W : World) (d : Distribution) (upstream : Bool)
    (cachedKernels : Option artifactoryKernelCache) (minikubeMap minikubeMap' : FileMap)
    (kernelList : List Kernel)
    (h : assembleVersions W d upstream cachedKernels d.Versions [] minikubeMap
      = .ok (.inr kernelList, minikubeMap')) :
    ((∃ ks, d.GetKernelList W upstream cachedKernels minikubeMap
        = .ok ((ks, none), minikubeMap')) ↔
      ∀ rv ∈ d.RequiredVersions, ∃ k ∈ kernelList, rv = k.Name ++ k.LocalVersion) ∧
    (∀ ks, d.GetKernelList W upstream cachedKernels minikubeMap = .ok ((ks, none), minikubeMap') →
      ks.map Kernel.clearRequired = kernelList.map Kernel.clearRequired) ∧
    ((¬ ∀ rv ∈ d.RequiredVersions, ∃ k ∈ kernelList, rv = k.Name ++ k.LocalVersion) →
      ∃ rv ∈ d.RequiredVersions, (¬ ∃ k ∈ kernelList, rv = k.Name ++ k.LocalVersion) ∧
        d.GetKernelList W upstream cachedKernels minikubeMap
          = .ok (([], some (requiredError rv d.Name)), minikubeMap')) := by
  have hg : d.GetKernelList W upstream cachedKernels minikubeMap
      = .ok (checkRequired d d.RequiredVersions kernelList, minikubeMap') := by
    simp [Distribution.GetKernelList, h]
  have hfail : (¬ ∀ rv ∈ d.RequiredVersions, ∃ k ∈ kernelList, rv = k.Name ++ k.LocalVersion) →
      ∃ rv ∈ d.RequiredVersions, (¬ ∃ k ∈ kernelList, rv = k.Name ++ k.LocalVersion) ∧
        checkRequired d d.RequiredVersions kernelList = ([], some (requiredError rv d.Name)) := by
    intro hn
    obtain ⟨found, rv, later, he, hf, hm⟩ := split_at_first_failure
      (fun rv => ∃ k ∈ kernelList, rv = k.Name ++ k.LocalVersion) d.RequiredVersions hn
    refine ⟨rv, by simp [he], hm, ?_⟩
    rw [he]
    exact checkRequired_first_missing d found rv later kernelList hf hm
  refine ⟨⟨?_, ?_⟩, ?_, ?_⟩
  · rintro ⟨ks, hks⟩
    by_contra hn
    obtain ⟨rv, -, -, hc⟩ := hfail hn
    rw [hg, hc] at hks
    simp at hks
  · intro hall
    obtain ⟨ks, hc, -⟩ := checkRequired_all_present d d.RequiredVersions kernelList hall
    exact ⟨ks, by rw [hg, hc]⟩
  · intro ks hks
    by_cases hall : ∀ rv ∈ d.RequiredVersions, ∃ k ∈ kernelList, rv = k.Name ++ k.LocalVersion
    · obtain ⟨ks', hc, hclear⟩ := checkRequired_all_present d d.RequiredVersions kernelList hall
      rw [hg, hc] at hks
      simp only [Except.ok.injEq, Prod.mk.injEq, and_true] at hks
      rw [← hks]
      exact hclear
    · obtain ⟨rv, -, -, hc⟩ := hfail hall
      rw [hg, hc] at hks
      simp at hks
  · intro hn
    obtain ⟨rv, hmem, hmiss, hc⟩ := hfail hn
    exact ⟨rv, hmem, hmiss, by rw [hg, hc]⟩

/-- C7 evaluated: required `5.4-generic` and an assembled kernel with name `5.4` and local
version `-generic`: the call returns a kernel list. -/
theorem GetKernelList_required_validation_witness :
    ∃ ks, demoUbuntu.GetKernelList (listingWorld demoListing) false none []
      = .ok ((ks, none), []) :=
  (GetKernelList_required_validation (listingWorld demoListing) demoUbuntu false none [] []
      [demoKernel] (by decide)).1.2
    (by
      intro rv hrv
      simp only [demoUbuntu, List.mem_singleton] at hrv
      subst hrv
      exact ⟨demoKernel, List.mem_cons_self _ _, by decide⟩)

/-- C8, as the code has it: the check stops at the first required string, in configuration
order, that no assembled kernel has; the error it returns is the text for that one string,
whatever the strings after it are. -/
theorem GetKernelList_error_names_first_missing (W : World) (d : Distribution) (upstream : Bool)
    (cachedKernels : Option artifactoryKernelCache) (minikubeMap minikubeMap' : FileMap)
    (kernelList : List Kernel) (found : List String) (rv : String) (later : List String)
    (h : assembleVersions W d upstream cachedKernels d.Versions [] minikubeMap
      = .ok (.inr kernelList, minikubeMap'))
    (hreq : d.RequiredVersions = found ++ rv :: later)
    (hfound : ∀ r ∈ found, ∃ k ∈ kernelList, r = k.Name ++ k.LocalVersion)
    (hmiss : ¬ ∃ k ∈ kernelList, rv = k.Name ++ k.LocalVersion) :
    d.GetKernelList W upstream cachedKernels minikubeMap
      = .ok (([], some (requiredError rv d.Name)), minikubeMap') := by
  simp only [Distribution.GetKernelList, h, hreq]
  rw [checkRequired_first_missing d found rv later kernelList hfound hmiss]

/-- C8 evaluated: `5.4-generic` is present, `5.8-generic` and `5.9-generic` are missing; the
error is the text for `5.8-generic`. -/
theorem GetKernelList_error_names_first_missing_witness :
    Distribution.GetKernelList (listingWorld demoListing)
        { demoUbuntu with RequiredVersions := ["5.4-generic", "5.8-generic", "5.9-generic"] }
        false none []
      = .ok (([], some (requiredError "5.8-generic" "ubuntu")), []) :=
  GetKernelList_error_names_first_missing (listingWorld demoListing)
    { demoUbuntu with RequiredVersions := ["5.4-generic", "5.8-generic", "5.9-generic"] }
    false none [] [] [demoKernel] ["5.4-generic"] "5.8-generic" ["5.9-generic"]
    (by decide) rfl
    (by
      intro r hr
      simp only [List.mem_singleton] at hr
      subst hr
      exact ⟨demoKernel, List.mem_cons_self _ _, by decide⟩)
    (by
      rintro ⟨k, hk, he⟩
      simp only [List.mem_singleton] at hk
      subst hk
      exact absurd he (by decide))

/-- C8 fails as stated: two required versions are missing and the one error that
`GetKernelList` returns names the first only; `5.8-generic` is not mentioned in it. -/
theorem required_error_omits_second_missing :
    Distribution.GetKernelList (listingWorld [])
        { Name := "ubuntu", RequiredVersions := ["5.4-generic", "5.8-generic"] } false none []
      = .ok (([], some "kernel 5.4-generic is defined as required, but not present in the any defined versions for ubuntu distribution"), []) ∧
    mentions "kernel 5.4-generic is defined as required, but not present in the any defined versions for ubuntu distribution" "5.8-generic" = false := by
  decide

/-! ## Theorems: assembled kernels -/

/-- When the loop over the custom configurations returns, it has appended one variant for
every matching declaration, in order. -/
theorem appendCustom_ok (d : Distribution) (version : Version) (minikubeMap : FileMap)
    (downloaded : Bool) (k : String) (v : List String) (ccs : List CustomConfig)
    (ks ks' : List Kernel)
    (h : appendCustom d version minikubeMap downloaded k v ccs ks = .ok ks') :
    ks' = ks ++ (ccs.filter (fun cc => cc.KernelName = k)).map
      (variantKernel d version minikubeMap downloaded k v) := by
  induction ccs generalizing ks with
  | nil =>
    simp only [appendCustom, Except.ok.injEq] at h
    simp [h]
  | cons cc ccs ih =>
    unfold appendCustom at h
    by_cases hk : cc.KernelName = k
    · simp only [hk, if_true] at h
      cases hp : cc.Properties with
      | none => simp [hp, StrMap.assign] at h
      | some entries =>
        simp only [hp, StrMap.assign] at h
        rw [ih _ h]
        simp [hk, variantKernel, hp]
    · simp only [hk, if_false] at h
      rw [ih _ h]
      simp [hk]

/-- The loop over the custom configurations returns when every matching declaration has a
properties map. -/
theorem appendCustom_returns (d : Distribution) (version : Version) (minikubeMap : FileMap)
    (downloaded : Bool) (k : String) (v : List String) (ccs : List CustomConfig)
    (ks : List Kernel) (hp : ∀ cc ∈ ccs, cc.KernelName = k → cc.Properties ≠ none) :
    ∃ ks', appendCustom d version minikubeMap downloaded k v ccs ks = .ok ks' := by
  induction ccs generalizing ks with
  | nil => exact ⟨ks, rfl⟩
  | cons cc ccs ih =>
    have hrest : ∀ c ∈ ccs, c.KernelName = k → c.Properties ≠ none :=
      fun c hc => hp c (List.mem_cons_of_mem _ hc)
    unfold appendCustom
    by_cases hk : cc.KernelName = k
    · cases hprop : cc.Properties with
      | none => exact absurd hprop (hp cc (List.mem_cons_self _ _) hk)
      | some entries =>
        simp only [hk, if_true, StrMap.assign]
        exact ih _ hrest
    · simp only [hk, if_false]
      exact ih _ hrest

/-- When the loop over the grouped map returns, it has appended the kernels of every entry. -/
theorem appendEntries_ok (W : World) (d : Distribution) (version : Version) (upstream : Bool)
    (cachedKernels : Option artifactoryKernelCache) (minikubeMap : FileMap)
    (entries : List (String × List String)) (ks ks' : List Kernel)
    (h : appendEntries W d version upstream cachedKernels minikubeMap entries ks = .ok ks') :
    ks' = ks ++ entries.flatMap
      (entryKernels W d version upstream cachedKernels minikubeMap) := by
  induction entries generalizing ks with
  | nil =>
    simp only [appendEntries, Except.ok.injEq] at h
    simp [h]
  | cons e entries ih =>
    obtain ⟨k, v⟩ := e
    unfold appendEntries at h
    simp only [] at h
    cases hc : appendCustom d version minikubeMap
        (downloadedFlag W d version upstream v cachedKernels) k v version.CustomConfigs
        (ks ++ [baseKernel d version minikubeMap
          (downloadedFlag W d version upstream v cachedKernels) k v]) with
    | error e => simp [hc] at h
    | ok ks1 =>
      simp only [hc] at h
      rw [ih _ h, appendCustom_ok _ _ _ _ _ _ _ _ _ hc]
      simp [entryKernels, List.flatMap_cons]

/-- What the fetch step can return early: no kernels, or the kernels assembled so far. -/
theorem fetchVersion_early (W : World) (d : Distribution) (upstream : Bool)
    (cachedKernels : Option artifactoryKernelCache) (version : Version)
    (kernelList : List Kernel) (minikubeMap minikubeMap' : FileMap)
    (kernels : List Kernel) (err : String)
    (h : fetchVersion W d upstream cachedKernels version kernelList minikubeMap
      = .ok (.inl (kernels, err), minikubeMap')) :
    kernels = [] ∨ kernels = kernelList := by
  unfold fetchVersion at h
  split at h
  · split at h
    · simp at h; exact Or.inl h.1.1
    · split at h <;> simp at h
      exact Or.inl h.1.1
  · split at h
    · split at h
      · simp at h
      · split at h
        · simp at h; exact Or.inr h.1.1.symm
        · split at h <;> simp at h
          exact Or.inr h.1.1.symm
    · split at h
      · split at h
        · simp at h; exact Or.inl h.1.1
        · split at h <;> simp at h
          exact Or.inl h.1.1
      · split at h
        · split at h
          · simp at h
          · simp at h; exact Or.inl h.1.1
          · split at h
            · simp at h
            · simp at h; exact Or.inl h.1.1
            · split at h
              · simp at h; exact Or.inl h.1.1
              · simp at h
        · simp at h

/-- The check returns the kernels up to `Required` flags and no error, or no kernels and an
error. -/
theorem checkRequired_result (d : Distribution) (rvs : List String) (ks ks' : List Kernel)
    (err : Option String) (h : checkRequired d rvs ks = (ks', err)) :
    (err = none ∧ ks'.map Kernel.clearRequired = ks.map Kernel.clearRequired) ∨
      (ks' = [] ∧ err ≠ none) := by
  induction rvs generalizing ks with
  | nil =>
    simp only [checkRequired, Prod.mk.injEq] at h
    exact Or.inl ⟨h.2.symm, by rw [h.1]⟩
  | cons rv rvs ih =>
    unfold checkRequired at h
    cases hm : markRequired rv ks with
    | none =>
      simp only [hm, Prod.mk.injEq] at h
      exact Or.inr ⟨h.1.symm, by rw [← h.2]; simp⟩
    | some ks1 =>
      simp only [hm] at h
      rcases ih ks1 h with ⟨he, hc⟩ | hr
      · exact Or.inl ⟨he, hc.trans (markRequired_clear rv ks ks1 hm)⟩
      · exact Or.inr hr

/-- An element of a list has its image inside the concatenation of the images. -/
theorem flatMap_split {α β : Type} (f : α → List β) (l : List α) (a : α) (ha : a ∈ l) :
    ∃ pre post, l.flatMap f = pre ++ f a ++ post := by
  obtain ⟨s, t, rfl⟩ := List.append_of_mem ha
  exact ⟨s.flatMap f, t.flatMap f, by simp [List.flatMap_append, List.flatMap_cons]⟩

/-- When the loop over the versions runs to its end, the list has grown at its end, and for
every version the kernels of every entry of its grouped map are a segment of the list. -/
theorem assembleVersions_ok (W : World) (d : Distribution) (upstream : Bool)
    (cachedKernels : Option artifactoryKernelCache) (versions : List Version)
    (ks ks' : List Kernel) (minikubeMap minikubeMap' : FileMap)
    (h : assembleVersions W d upstream cachedKernels versions ks minikubeMap
      = .ok (.inr ks', minikubeMap')) :
    (∃ added, ks' = ks ++ added) ∧
    ∀ version ∈ versions, ∃ downloadFileList ksAt mk0 mk1,
      fetchVersion W d upstream cachedKernels version ksAt mk0
        = .ok (.inr downloadFileList, mk1) ∧
      ∀ e ∈ W.rangeOrder downloadFileList, ∃ pre post,
        ks' = pre ++ entryKernels W d version upstream cachedKernels mk1 e ++ post := by
  induction versions generalizing ks minikubeMap with
  | nil =>
    simp only [assembleVersions, Except.ok.injEq, Prod.mk.injEq, Sum.inr.injEq] at h
    exact ⟨⟨[], by simp [h.1]⟩, fun v hv => by simp at hv⟩
  | cons version versions ih =>
    unfold assembleVersions at h
    cases hf : fetchVersion W d upstream cachedKernels version ks minikubeMap with
    | error e => simp [hf] at h
    | ok res =>
      obtain ⟨r, mk1⟩ := res
      cases r with
      | inl early => simp [hf] at h
      | inr dl =>
        simp only [hf] at h
        cases ha : appendEntries W d version upstream cachedKernels mk1 (W.rangeOrder dl) ks with
        | error e => simp [ha] at h
        | ok ks1 =>
          simp only [ha] at h
          obtain ⟨⟨added, hadd⟩, hrest⟩ := ih ks1 mk1 h
          have hks1 := appendEntries_ok W d version upstream cachedKernels mk1 _ ks ks1 ha
          refine ⟨⟨_, by rw [hadd, hks1, List.append_assoc]⟩, ?_⟩
          intro ver hver
          rcases List.mem_cons.1 hver with rfl | hver'
          · refine ⟨dl, ks, minikubeMap, mk1, hf, ?_⟩
            intro e he
            obtain ⟨pre, post, hsplit⟩ := flatMap_split
              (entryKernels W d ver upstream cachedKernels mk1) _ e he
            exact ⟨ks ++ pre, post ++ added, by
              rw [hadd, hks1, hsplit]; simp [List.append_assoc]⟩
          · exact hrest ver hver'

/-- Every kernel that the loop over the versions returns, also on an early return, was in the
list before or is a kernel of an entry of one of the versions. -/
theorem assembleVersions_mem (W : World) (d : Distribution) (upstream : Bool)
    (cachedKernels : Option artifactoryKernelCache) (versions : List Version)
    (ks : List Kernel) (minikubeMap minikubeMap' : FileMap)
    (r : List Kernel × String ⊕ List Kernel)
    (h : assembleVersions W d upstream cachedKernels versions ks minikubeMap
      = .ok (r, minikubeMap')) :
    ∀ k ∈ (match r with
        | .inl (l, _) => l
        | .inr l => l),
      k ∈ ks ∨ ∃ version ∈ versions, ∃ mk1 e,
        k ∈ entryKernels W d version upstream cachedKernels mk1 e := by
  induction versions generalizing ks minikubeMap with
  | nil =>
    simp only [assembleVersions, Except.ok.injEq, Prod.mk.injEq] at h
    rw [← h.1]
    intro k hk
    exact Or.inl hk
  | cons version versions ih =>
    unfold assembleVersions at h
    cases hf : fetchVersion W d upstream cachedKernels version ks minikubeMap with
    | error e => simp [hf] at h
    | ok res =>
      obtain ⟨r1, mk1⟩ := res
      cases r1 with
      | inl early =>
        obtain ⟨kernels, err⟩ := early
        simp only [hf, Except.ok.injEq, Prod.mk.injEq] at h
        rw [← h.1]
        intro k hk
        rcases fetchVersion_early W d upstream cachedKernels version ks minikubeMap mk1
          kernels err hf with h0 | h1
        · simp [h0] at hk
        · simp only [h1] at hk
          exact Or.inl hk
      | inr dl =>
        simp only [hf] at h
        cases ha : appendEntries W d version upstream cachedKernels mk1 (W.rangeOrder dl) ks with
        | error e => simp [ha] at h
        | ok ks1 =>
          simp only [ha] at h
          have hks1 := appendEntries_ok W d version upstream cachedKernels mk1 _ ks ks1 ha
          intro k hk
          rcases ih ks1 mk1 h k hk with h1 | ⟨ver, hver, mk2, e, hke⟩
          · rw [hks1, List.mem_append, List.mem_flatMap] at h1
            rcases h1 with h1 | ⟨e, -, hke⟩
            · exact Or.inl h1
            · exact Or.inr ⟨version, List.mem_cons_self _ _, mk1, e, hke⟩
          · exact Or.inr ⟨ver, List.mem_cons_of_mem _ hver, mk2, e, hke⟩

/-- The fields of the base kernel that do not depend on the distribution. -/
theorem baseKernel_fields (d : Distribution) (version : Version) (minikubeMap : FileMap)
    (downloaded : Bool) (k : String) (v : List String) :
    (baseKernel d version minikubeMap downloaded k v).Name = k ∧
    (baseKernel d version minikubeMap downloaded k v).Files = v ∧
    (baseKernel d version minikubeMap downloaded k v).CustomConfig = none ∧
    (baseKernel d version minikubeMap downloaded k v).Required = false ∧
    (baseKernel d version minikubeMap downloaded k v).LocalVersion
      = (if d.Name = UBUNTU then "-generic" else "") := by
  unfold baseKernel
  cases minikubeMap.lookup k <;> by_cases hu : d.Name = UBUNTU <;> simp [hu]

/-- The fields of a custom kernel. -/
theorem customKernel_fields (d : Distribution) (version : Version) (minikubeMap : FileMap)
    (downloaded : Bool) (k : String) (v : List String) (cc : CustomConfig)
    (properties : StrMap) :
    (customKernel d version minikubeMap downloaded k v cc properties).Name = k ∧
    (customKernel d version minikubeMap downloaded k v cc properties).Files = v ∧
    (customKernel d version minikubeMap downloaded k v cc properties).CustomConfig
      = properties ∧
    (customKernel d version minikubeMap downloaded k v cc properties).Required = false ∧
    (customKernel d version minikubeMap downloaded k v cc properties).LocalVersion
      = cc.LocalVersionSuffix := by
  unfold customKernel
  cases minikubeMap.lookup k <;> simp

/-- The read of a key after its write. -/
theorem lookup_setEntry (k v : String) (m : List (String × String)) :
    StrMap.lookup (some (setEntry k v m)) k = some v := by
  induction m with
  | nil => simp [StrMap.lookup, setEntry]
  | cons e rest ih =>
    obtain ⟨k', v'⟩ := e
    by_cases hk : k' = k
    · simp [StrMap.lookup, setEntry, hk]
    · simp only [StrMap.lookup, setEntry, hk, if_false] at ih ⊢
      simp [List.find?_cons, hk, ih]

/-- Clearing the `Required` flag of a kernel that does not have it changes nothing. -/
theorem clearRequired_of_not_required (k : Kernel) (h : k.Required = false) :
    k.clearRequired = k := by
  cases k
  simp only [Kernel.clearRequired] at h ⊢
  simp_all

/-- The kernels of an entry are assembled with the `Required` flag off. -/
theorem entryKernels_clear (W : World) (d : Distribution) (version : Version) (upstream : Bool)
    (cachedKernels : Option artifactoryKernelCache) (minikubeMap : FileMap)
    (e : String × List String) :
    (entryKernels W d version upstream cachedKernels minikubeMap e).map Kernel.clearRequired
      = entryKernels W d version upstream cachedKernels minikubeMap e := by
  have hid : ∀ k ∈ entryKernels W d version upstream cachedKernels minikubeMap e,
      k.clearRequired = k := by
    intro k hk
    apply clearRequired_of_not_required
    simp only [entryKernels, List.mem_cons, List.mem_map, List.mem_filter] at hk
    rcases hk with rfl | ⟨cc, -, rfl⟩
    · exact (baseKernel_fields _ _ _ _ _ _).2.2.2.1
    · exact (customKernel_fields _ _ _ _ _ _ _ _).2.2.2.1
  calc (entryKernels W d version upstream cachedKernels minikubeMap e).map Kernel.clearRequired
      = (entryKernels W d version upstream cachedKernels minikubeMap e).map id :=
        List.map_congr_left hid
    _ = _ := List.map_id _

/-- Two texts that start alike are equal exactly when their ends are. -/
theorem append_ne_append_iff (a b c : String) : a ++ b ≠ a ++ c ↔ b ≠ c := by
  constructor
  · intro h hbc
    exact h (by rw [hbc])
  · intro h habc
    apply h
    have := congrArg String.data habc
    simp only [String.data_append] at this
    exact String.ext (List.append_cancel_left this)

/-- The shape of the kernels of one entry: a base kernel and one variant per matching
declaration. -/
theorem entryKernels_shape (W : World) (d : Distribution) (version : Version) (upstream : Bool)
    (cachedKernels : Option artifactoryKernelCache) (minikubeMap : FileMap)
    (e : String × List String) :
    (entryKernels W d version upstream cachedKernels minikubeMap e).length
      = 1 + (version.CustomConfigs.filter (fun cc => cc.KernelName = e.1)).length ∧
    ∃ base variants,
      entryKernels W d version upstream cachedKernels minikubeMap e = base :: variants ∧
      base.Name = e.1 ∧ base.Files = e.2 ∧ base.CustomConfig = none ∧
      variants.map (fun x => x.LocalVersion)
        = (version.CustomConfigs.filter (fun cc => cc.KernelName = e.1)).map
            (fun cc => cc.LocalVersionSuffix) ∧
      ∀ x ∈ variants, x.Name = e.1 ∧ x.Files = e.2 ∧
        x.CustomConfig.lookup "CONFIG_LOCALVERSION" = some x.LocalVersion ∧
        (x.Name ++ x.LocalVersion ≠ base.Name ++ base.LocalVersion ↔
          x.LocalVersion ≠ base.LocalVersion) := by
  refine ⟨by simp [entryKernels, Nat.add_comm], _, _, rfl, ?_, ?_, ?_, ?_, ?_⟩
  · exact (baseKernel_fields _ _ _ _ _ _).1
  · exact (baseKernel_fields _ _ _ _ _ _).2.1
  · exact (baseKernel_fields _ _ _ _ _ _).2.2.1
  · rw [List.map_map]
    apply List.map_congr_left
    intro cc _
    exact (customKernel_fields _ _ _ _ _ _ _ _).2.2.2.2
  · intro x hx
    obtain ⟨cc, -, rfl⟩ := List.mem_map.1 hx
    have hf := customKernel_fields d version minikubeMap
      (downloadedFlag W d version upstream e.2 cachedKernels) e.1 e.2 cc
      (some (setEntry "CONFIG_LOCALVERSION" cc.LocalVersionSuffix (cc.Properties.getD [])))
    have hb := baseKernel_fields d version minikubeMap
      (downloadedFlag W d version upstream e.2 cachedKernels) e.1 e.2
    refine ⟨hf.1, hf.2.1, ?_, ?_⟩
    · unfold variantKernel
      rw [hf.2.2.1, hf.2.2.2.2]
      exact lookup_setEntry _ _ _
    · unfold variantKernel
      rw [hf.1, hb.1]
      exact append_ne_append_iff _ _ _

/-- C9, as the code has it: whenever `GetKernelList` returns a kernel list, for every version
and every pair (K, F) of its grouped map the list holds, next to each other, a base kernel
(name K, files F, no custom configuration) and, for every custom-configuration declaration of
the version whose `KernelName` is K, in order, a variant (name K, files F, local version the
declared suffix S, custom configuration with `CONFIG_LOCALVERSION` = S); these are 1 plus the
number of matching declarations; and the identity `Name + LocalVersion` of a variant differs
from that of the base kernel exactly when S differs from the local version of the base. -/
theorem GetKernelList_base_and_variants (W : World) (d : Distribution) (upstream : Bool)
    (cachedKernels : Option artifactoryKernelCache) (minikubeMap minikubeMap' : FileMap)
    (ks : List Kernel)
    (h : d.GetKernelList W upstream cachedKernels minikubeMap = .ok ((ks, none), minikubeMap')) :
    ∀ version ∈ d.Versions, ∃ downloadFileList ksAt mk0 mk1,
      fetchVersion W d upstream cachedKernels version ksAt mk0
        = .ok (.inr downloadFileList, mk1) ∧
      ∀ e ∈ W.rangeOrder downloadFileList,
        (∃ pre post, ks.map Kernel.clearRequired
          = pre ++ entryKernels W d version upstream cachedKernels mk1 e ++ post) ∧
        (entryKernels W d version upstream cachedKernels mk1 e).length
          = 1 + (version.CustomConfigs.filter (fun cc => cc.KernelName = e.1)).length ∧
        ∃ base variants,
          entryKernels W d version upstream cachedKernels mk1 e = base :: variants ∧
          base.Name = e.1 ∧ base.Files = e.2 ∧ base.CustomConfig = none ∧
          variants.map (fun x => x.LocalVersion)
            = (version.CustomConfigs.filter (fun cc => cc.KernelName = e.1)).map
                (fun cc => cc.LocalVersionSuffix) ∧
          ∀ x ∈ variants, x.Name = e.1 ∧ x.Files = e.2 ∧
            x.CustomConfig.lookup "CONFIG_LOCALVERSION" = some x.LocalVersion ∧
            (x.Name ++ x.LocalVersion ≠ base.Name ++ base.LocalVersion ↔
              x.LocalVersion ≠ base.LocalVersion) := by
  unfold Distribution.GetKernelList at h
  cases ha : assembleVersions W d upstream cachedKernels d.Versions [] minikubeMap with
  | error e => simp [ha] at h
  | ok res =>
    obtain ⟨r, mk1⟩ := res
    cases r with
    | inl early => simp [ha] at h
    | inr kernelList =>
      simp only [ha, Except.ok.injEq, Prod.mk.injEq] at h
      have hclear : ks.map Kernel.clearRequired = kernelList.map Kernel.clearRequired := by
        rcases checkRequired_result d d.RequiredVersions kernelList ks none h.1 with
          ⟨-, hc⟩ | ⟨-, hne⟩
        · exact hc
        · exact absurd rfl hne
      intro version hversion
      obtain ⟨dl, ksAt, mk0, mk2, hfetch, hseg⟩ :=
        (assembleVersions_ok W d upstream cachedKernels d.Versions [] kernelList minikubeMap mk1
          ha).2 version hversion
      refine ⟨dl, ksAt, mk0, mk2, hfetch, ?_⟩
      intro e he
      obtain ⟨pre, post, hsplit⟩ := hseg e he
      refine ⟨⟨pre.map Kernel.clearRequired, post.map Kernel.clearRequired, ?_⟩,
        entryKernels_shape W d version upstream cachedKernels mk2 e⟩
      rw [hclear, hsplit, List.map_append, List.map_append, entryKernels_clear]

/-- C9 evaluated: centos, the listing of the end-to-end scenario and a declaration for `5.4`
with suffix `-custom`. -/
theorem GetKernelList_base_and_variants_witness :
    ∃ downloadFileList ksAt mk0 mk1,
      fetchVersion (listingWorld demoListing) (demoCustom "centos" "-custom") false none
          (focalCustom "-custom") ksAt mk0 = .ok (.inr downloadFileList, mk1) ∧
      ∀ e ∈ (listingWorld demoListing).rangeOrder downloadFileList,
        (∃ pre post,
          [demoBase "centos" "", demoVariant "centos" "-custom"].map Kernel.clearRequired
            = pre ++ entryKernels (listingWorld demoListing) (demoCustom "centos" "-custom")
                (focalCustom "-custom") false none mk1 e ++ post) ∧
        (entryKernels (listingWorld demoListing) (demoCustom "centos" "-custom")
            (focalCustom "-custom") false none mk1 e).length
          = 1 + ((focalCustom "-custom").CustomConfigs.filter
              (fun cc => cc.KernelName = e.1)).length ∧
        ∃ base variants,
          entryKernels (listingWorld demoListing) (demoCustom "centos" "-custom")
            (focalCustom "-custom") false none mk1 e = base :: variants ∧
          base.Name = e.1 ∧ base.Files = e.2 ∧ base.CustomConfig = none ∧
          variants.map (fun x => x.LocalVersion)
            = ((focalCustom "-custom").CustomConfigs.filter
                (fun cc => cc.KernelName = e.1)).map (fun cc => cc.LocalVersionSuffix) ∧
          ∀ x ∈ variants, x.Name = e.1 ∧ x.Files = e.2 ∧
            x.CustomConfig.lookup "CONFIG_LOCALVERSION" = some x.LocalVersion ∧
            (x.Name ++ x.LocalVersion ≠ base.Name ++ base.LocalVersion ↔
              x.LocalVersion ≠ base.LocalVersion) :=
  GetKernelList_base_and_variants (listingWorld demoListing) (demoCustom "centos" "-custom")
    false none [] [] [demoBase "centos" "", demoVariant "centos" "-custom"] (by decide)
    (focalCustom "-custom") (List.mem_cons_self _ _)

/-- C9 fails as stated: a declaration for `5.4` without a suffix yields a variant whose
identity `Name + LocalVersion` is that of the base kernel. -/
theorem variant_identity_equals_base :
    (demoCustom "centos" "").GetKernelList (listingWorld demoListing) false none []
      = .ok (([demoBase "centos" "", demoVariant "centos" ""], none), []) ∧
    (demoVariant "centos" "").Name ++ (demoVariant "centos" "").LocalVersion
      = (demoBase "centos" "").Name ++ (demoBase "centos" "").LocalVersion := by
  decide

/-- Every kernel of an entry of an ubuntu version follows the rule `UbuntuLocalVersion`. -/
theorem entryKernels_ubuntu (W : World) (d : Distribution) (version : Version) (upstream : Bool)
    (cachedKernels : Option artifactoryKernelCache) (minikubeMap : FileMap)
    (e : String × List String) (hu : d.Name = UBUNTU) (hv : version ∈ d.Versions)
    (k : Kernel) (hk : k ∈ entryKernels W d version upstream cachedKernels minikubeMap e) :
    UbuntuLocalVersion d k := by
  simp only [entryKernels, List.mem_cons, List.mem_map, List.mem_filter] at hk
  rcases hk with rfl | ⟨cc, ⟨hcc, hname⟩, rfl⟩
  · have hb := baseKernel_fields d version minikubeMap
      (downloadedFlag W d version upstream e.2 cachedKernels) e.1 e.2
    exact Or.inl ⟨hb.2.2.1, by rw [hb.2.2.2.2]; simp [hu]⟩
  · have hf := customKernel_fields d version minikubeMap
      (downloadedFlag W d version upstream e.2 cachedKernels) e.1 e.2 cc
      (some (setEntry "CONFIG_LOCALVERSION" cc.LocalVersionSuffix (cc.Properties.getD [])))
    refine Or.inr ⟨?_, version, hv, cc, hcc, ?_, ?_⟩
    · unfold variantKernel; rw [hf.2.2.1]; simp
    · unfold variantKernel; rw [hf.1]; simpa using hname
    · unfold variantKernel; exact hf.2.2.2.2

/-- C10, as the code has it: of the kernels that `GetKernelList` returns for the ubuntu
distribution, every base kernel (no custom configuration) carries the local version
`-generic`, and every custom-configuration variant carries the suffix of its declaration
instead. -/
theorem GetKernelList_ubuntu_local_version (W : World) (d : Distribution) (upstream : Bool)
    (cachedKernels : Option artifactoryKernelCache) (minikubeMap minikubeMap' : FileMap)
    (ks : List Kernel) (err : Option String) (hu : d.Name = UBUNTU)
    (h : d.GetKernelList W upstream cachedKernels minikubeMap = .ok ((ks, err), minikubeMap')) :
    ∀ k ∈ ks, UbuntuLocalVersion d k := by
  unfold Distribution.GetKernelList at h
  cases ha : assembleVersions W d upstream cachedKernels d.Versions [] minikubeMap with
  | error e => simp [ha] at h
  | ok res =>
    obtain ⟨r, mk1⟩ := res
    have hmem := assembleVersions_mem W d upstream cachedKernels d.Versions [] minikubeMap mk1
      r ha
    have hall : ∀ k ∈ (match r with
        | .inl (l, _) => l
        | .inr l => l), UbuntuLocalVersion d k := by
      intro k hk
      rcases hmem k hk with h0 | ⟨version, hv, mk2, e, hke⟩
      · simp at h0
      · exact entryKernels_ubuntu W d version upstream cachedKernels mk2 e hu hv k hke
    cases r with
    | inl early =>
      obtain ⟨kernels, e⟩ := early
      simp only [ha, Except.ok.injEq, Prod.mk.injEq] at h
      rw [← h.1.1]
      exact hall
    | inr kernelList =>
      simp only [ha, Except.ok.injEq, Prod.mk.injEq] at h
      intro k hk
      rcases checkRequired_result d d.RequiredVersions kernelList ks err h.1 with
        ⟨-, hc⟩ | ⟨hnil, -⟩
      · have hm : k.clearRequired ∈ kernelList.map Kernel.clearRequired :=
          hc ▸ List.mem_map_of_mem _ hk
        obtain ⟨k0, hk0, he⟩ := List.mem_map.1 hm
        have hq := hall k0 hk0
        have h1 : k0.clearRequired.CustomConfig = k.clearRequired.CustomConfig := by rw [he]
        have h2 : k0.clearRequired.LocalVersion = k.clearRequired.LocalVersion := by rw [he]
        have h3 : k0.clearRequired.Name = k.clearRequired.Name := by rw [he]
        simp only [Kernel.clearRequired] at h1 h2 h3
        unfold UbuntuLocalVersion at hq ⊢
        rw [← h1, ← h2, ← h3]
        exact hq
      · rw [hnil] at hk
        simp at hk

/-- C10 evaluated: ubuntu with a declaration of suffix `-custom`; the variant carries
`-custom`, the base kernel `-generic`. -/
theorem GetKernelList_ubuntu_local_version_witness :
    UbuntuLocalVersion (demoCustom "ubuntu" "-custom") (demoVariant "ubuntu" "-custom") :=
  GetKernelList_ubuntu_local_version (listingWorld demoListing) (demoCustom "ubuntu" "-custom")
    false none [] [] [demoBase "ubuntu" "-generic", demoVariant "ubuntu" "-custom"] none rfl
    (by decide) (demoVariant "ubuntu" "-custom") (by simp)

/-- C10 fails as stated: for ubuntu with a declaration of suffix `-custom`, the variant that
`GetKernelList` returns has the local version `-custom`, in which `-generic` does not occur. -/
theorem ubuntu_variant_without_generic :
    (demoCustom "ubuntu" "-custom").GetKernelList (listingWorld demoListing) false none []
      = .ok (([demoBase "ubuntu" "-generic", demoVariant "ubuntu" "-custom"], none), []) ∧
    (demoVariant "ubuntu" "-custom").LocalVersion = "-custom" ∧
    mentions (demoVariant "ubuntu" "-custom").LocalVersion "-generic" = false := by
  decide

/-! ## Theorems: download status -/

/-- C20 on the failing input: the pattern `linux` has no capture group and matches the file
name, the bounds parse, and `validateVersion` does not return: reading `versionMatch[1]` of a
slice of length 1 is a run-time fault. -/
theorem validateVersion_faults_without_group :
    goLibs.submatch "linux" "linux-5.4.0.tar.gz" = .ok ["linux"] ∧
    validateVersion goLibs "linux-5.4.0.tar.gz" "linux" "5.0.0" "5.10.0"
      = .error (.panic "index out of range [1] with length 1") := by
  decide

/-- The flag `Downloaded` of the kernels of the assembler is the flag it was given. -/
theorem kernel_Downloaded (d : Distribution) (version : Version) (minikubeMap : FileMap)
    (downloaded : Bool) (k : String) (v : List String) (cc : CustomConfig)
    (properties : StrMap) :
    (baseKernel d version minikubeMap downloaded k v).Downloaded = downloaded ∧
    (customKernel d version minikubeMap downloaded k v cc properties).Downloaded
      = downloaded := by
  unfold baseKernel customKernel
  cases minikubeMap.lookup k <;> by_cases hu : d.Name = UBUNTU <;> simp [hu]

/-- Every kernel of an entry carries the flag that `downloadedFlag` computes for the entry. -/
theorem entryKernels_Downloaded (W : World) (d : Distribution) (version : Version)
    (upstream : Bool) (cachedKernels : Option artifactoryKernelCache) (minikubeMap : FileMap)
    (e : String × List String) (k : Kernel)
    (hk : k ∈ entryKernels W d version upstream cachedKernels minikubeMap e) :
    k.Downloaded = downloadedFlag W d version upstream e.2 cachedKernels := by
  simp only [entryKernels, List.mem_cons, List.mem_map, List.mem_filter] at hk
  rcases hk with rfl | ⟨cc, -, rfl⟩
  · exact (kernel_Downloaded d version minikubeMap _ e.1 e.2 {} none).1
  · exact (kernel_Downloaded d version minikubeMap _ e.1 e.2 cc _).2

/-- Every kernel that `GetKernelList` returns is, up to its `Required` flag, a kernel of an
entry of one of the versions. -/
theorem GetKernelList_mem (W : World) (d : Distribution) (upstream : Bool)
    (cachedKernels : Option artifactoryKernelCache) (minikubeMap minikubeMap' : FileMap)
    (ks : List Kernel) (err : Option String)
    (h : d.GetKernelList W upstream cachedKernels minikubeMap = .ok ((ks, err), minikubeMap')) :
    ∀ k ∈ ks, ∃ version ∈ d.Versions, ∃ mk1 e,
      k.clearRequired ∈ entryKernels W d version upstream cachedKernels mk1 e := by
  unfold Distribution.GetKernelList at h
  cases ha : assembleVersions W d upstream cachedKernels d.Versions [] minikubeMap with
  | error e => simp [ha] at h
  | ok res =>
    obtain ⟨r, mk1⟩ := res
    have hmem := assembleVersions_mem W d upstream cachedKernels d.Versions [] minikubeMap mk1
      r ha
    have hall : ∀ k ∈ (match r with
        | .inl (l, _) => l
        | .inr l => l), ∃ version ∈ d.Versions, ∃ mk2 e,
          k.clearRequired ∈ entryKernels W d version upstream cachedKernels mk2 e := by
      intro k hk
      rcases hmem k hk with h0 | ⟨version, hv, mk2, e, hke⟩
      · simp at h0
      · refine ⟨version, hv, mk2, e, ?_⟩
        have := List.mem_map_of_mem Kernel.clearRequired hke
        rwa [entryKernels_clear] at this
    cases r with
    | inl early =>
      obtain ⟨kernels, e⟩ := early
      simp only [ha, Except.ok.injEq, Prod.mk.injEq] at h
      rw [← h.1.1]
      exact hall
    | inr kernelList =>
      simp only [ha, Except.ok.injEq, Prod.mk.injEq] at h
      intro k hk
      rcases checkRequired_result d d.RequiredVersions kernelList ks err h.1 with
        ⟨-, hc⟩ | ⟨hnil, -⟩
      · have hm : k.clearRequired ∈ kernelList.map Kernel.clearRequired :=
          hc ▸ List.mem_map_of_mem _ hk
        obtain ⟨k0, hk0, he⟩ := List.mem_map.1 hm
        obtain ⟨version, hv, mk2, e, hke⟩ := hall k0 hk0
        exact ⟨version, hv, mk2, e, by rw [← he]; exact hke⟩
      · rw [hnil] at hk
        simp at hk

/-- C11, as the code has it: every kernel that `GetKernelList` returns was assembled for an
entry of one of the versions, and a kernel assembled for a version whose cache flag is
disabled has `Downloaded` equal to the argument `upstream`, whatever the cache index and the
listing are: true in upstream-sync mode, false otherwise. -/
theorem GetKernelList_cache_disabled (W : World) (d : Distribution) (upstream : Bool)
    (cachedKernels : Option artifactoryKernelCache) (minikubeMap minikubeMap' : FileMap)
    (ks : List Kernel) (err : Option String)
    (h : d.GetKernelList W upstream cachedKernels minikubeMap = .ok ((ks, err), minikubeMap')) :
    (∀ k ∈ ks, ∃ version ∈ d.Versions, ∃ mk1 e,
      k.clearRequired ∈ entryKernels W d version upstream cachedKernels mk1 e) ∧
    (∀ (version : Version) (mk1 : FileMap) (e : String × List String) (k : Kernel),
      k.clearRequired ∈ entryKernels W d version upstream cachedKernels mk1 e →
      version.ArtifactoryCache = false → k.Downloaded = upstream) := by
  refine ⟨GetKernelList_mem W d upstream cachedKernels minikubeMap minikubeMap' ks err h, ?_⟩
  intro version mk1 e k hk hflag
  have := entryKernels_Downloaded W d version upstream cachedKernels mk1 e _ hk
  simp only [Kernel.clearRequired] at this
  rw [this]
  cases upstream <;> simp [downloadedFlag, hflag]

/-- C11 evaluated in upstream-sync mode: the cache flag of `focal` is off and the kernel is
returned with `Downloaded` true. -/
theorem GetKernelList_cache_disabled_witness :
    ({ demoKernel with Required := true, Downloaded := true } : Kernel).Downloaded = true :=
  (GetKernelList_cache_disabled (listingWorld demoListing) demoUbuntu true none [] []
      [{ demoKernel with Required := true, Downloaded := true }] none (by decide)).2
    focal [] ("5.4", ["http://mirror/u/linux-5.4.0", "http://mirror/u/linux-5.4.0"])
    { demoKernel with Required := true, Downloaded := true } (by decide) rfl

/-- C11 fails as stated: outside upstream-sync mode the cache flag of `focal` is off and the
kernel that `GetKernelList` returns has `Downloaded` false. -/
theorem cache_disabled_not_downloaded :
    focal.ArtifactoryCache = false ∧
    demoUbuntu.GetKernelList (listingWorld demoListing) false none []
      = .ok (([{ demoKernel with Required := true }], none), []) ∧
    ({ demoKernel with Required := true } : Kernel).Downloaded = false := by
  decide

/-- The loop of `checkIfKernelInArtifactory` answers true exactly when every file whose address
parses has its base name in the cache. -/
theorem allInCache_iff (W : World) (distro version : String) (cache : artifactoryKernelCache)
    (files : List String) :
    allInCache W distro version cache files = true ↔
      ∀ f ∈ files, ∀ fname, destFileName W f = (fname, none) →
        cache.InCache distro version fname = true := by
  induction files with
  | nil => simp [allInCache]
  | cons f rest ih =>
    unfold allInCache
    rcases hd : destFileName W f with ⟨fname, err⟩
    cases err with
    | some e =>
      simp only [ih, List.mem_cons, forall_eq_or_imp, hd]
      simp
    | none =>
      by_cases hc : cache.InCache distro version fname = true
      · simp only [hc, Bool.not_true, Bool.false_eq_true, if_false, ih, List.mem_cons,
          forall_eq_or_imp, hd, Prod.mk.injEq, and_true]
        constructor
        · intro h
          exact ⟨fun x hx => hx ▸ hc, h⟩
        · intro h
          exact h.2
      · simp only [Bool.not_eq_true] at hc
        simp only [hc, Bool.not_false, if_true, Bool.false_eq_true, false_iff, List.mem_cons,
          forall_eq_or_imp, hd, Prod.mk.injEq, and_true, not_and]
        intro h
        have := h fname rfl
        rw [hc] at this
        cases this

/-- C12, as the code has it: `checkIfKernelInArtifactory` returns true exactly when the cache
index is present, its map is not nil, and every file of the kernel whose address parses has
the base name of its path in the index for (distro, version); a file whose address does not
parse is skipped.  For a version with the cache flag on, in upstream-sync mode, that answer is
the flag `Downloaded` of every kernel of the entry. -/
theorem checkIfKernelInArtifactory_iff (W : World) (d : Distribution) (version : Version)
    (cachedKernels : Option artifactoryKernelCache) (minikubeMap : FileMap)
    (e : String × List String) :
    (checkIfKernelInArtifactory W d.Name version.Name e.2 cachedKernels = true ↔
      ∃ cache, cachedKernels = some cache ∧ cache.Empty = false ∧
        ∀ f ∈ e.2, ∀ fname, destFileName W f = (fname, none) →
          cache.InCache d.Name version.Name fname = true) ∧
    (version.ArtifactoryCache = true →
      ∀ k ∈ entryKernels W d version true cachedKernels minikubeMap e,
        k.Downloaded = checkIfKernelInArtifactory W d.Name version.Name e.2 cachedKernels) := by
  constructor
  · unfold checkIfKernelInArtifactory
    cases cachedKernels with
    | none => simp
    | some cache =>
      by_cases hE : cache.Empty = true
      · simp [hE]
      · simp only [Bool.not_eq_true] at hE
        simp [hE, allInCache_iff]
  · intro hflag k hk
    rw [entryKernels_Downloaded W d version true cachedKernels minikubeMap e k hk]
    simp [downloadedFlag, hflag]

/-- C12 evaluated: the cache flag is on, the index holds `linux-5.4.0` for (ubuntu, focal), and
the kernel is marked as downloaded. -/
theorem checkIfKernelInArtifactory_iff_witness :
    ({ demoKernel with Downloaded := true } : Kernel).Downloaded
      = checkIfKernelInArtifactory (listingWorld demoListing) "ubuntu" "focal"
          ["http://mirror/u/linux-5.4.0", "http://mirror/u/linux-5.4.0"]
          (some ⟨some [("ubuntu_focal_linux-5.4.0", "ab")]⟩) :=
  (checkIfKernelInArtifactory_iff (listingWorld demoListing)
      { demoUbuntu with Versions := [focalCached] } focalCached
      (some ⟨some [("ubuntu_focal_linux-5.4.0", "ab")]⟩) []
      ("5.4", ["http://mirror/u/linux-5.4.0", "http://mirror/u/linux-5.4.0"])).2 rfl
    { demoKernel with Downloaded := true } (by decide)

/-- C12 fails as stated: the address of the one file of the kernel does not parse, no entry of
the index is for that file, and `checkIfKernelInArtifactory` returns true. -/
theorem unparsed_file_counts_as_cached :
    destFileName (strictWorld []) "http://mirror/u/linux-%zz"
      = ("", some "parse \"http://mirror/u/linux-%zz\": invalid URL escape") ∧
    (⟨some [("ubuntu_focal_linux-5.4.0", "ab")]⟩ : artifactoryKernelCache).InCache
      "ubuntu" "focal" "linux-%zz" = false ∧
    checkIfKernelInArtifactory (strictWorld []) "ubuntu" "focal" ["http://mirror/u/linux-%zz"]
      (some ⟨some [("ubuntu_focal_linux-5.4.0", "ab")]⟩) = true := by
  decide

/-- C13 on the failing input: the package has an empty checksum and the index has no entry for
its file name, and `parseRedHatPackages` records the file name as the download URL without the
authenticated request; the same package with the checksum `77aa` does make the request, which
in this world fails and fails the parse. -/
theorem empty_checksum_skips_minting :
    otherIndex.InCache "rhel" "8" (demoPackage "").fileName = false ∧
    parseRedHatPackages (listingWorld []) [demoPackage ""] rhel8
        ["kernel-devel-(\\d+\\.\\d+\\.\\d+)-(\\d+)"] (some otherIndex)
      = .ok ([("4.18.0.147", ["kernel-devel-4.18.0-147.el8.x86_64.rpm"])], none) ∧
    parseRedHatPackages (listingWorld []) [demoPackage "77aa"] rhel8
        ["kernel-devel-(\\d+\\.\\d+\\.\\d+)-(\\d+)"] (some otherIndex)
      = .ok ([], some "unexpected end of JSON input") := by
  decide

/-! ## Theorems: grouping -/

/-- The read of a key after a write. -/
theorem FileMap.get_set (m : FileMap) (k : String) (v : List String) (K : String) :
    (FileMap.set m k v).get K = if K = k then v else m.get K := by
  induction m with
  | nil =>
    by_cases h : k = K
    · simp [FileMap.set, FileMap.get, h]
    · have h' : ¬ K = k := fun e => h e.symm
      simp [FileMap.set, FileMap.get, h, h']
  | cons e rest ih =>
    obtain ⟨k', v'⟩ := e
    by_cases hk : k' = k
    · subst hk
      by_cases hK : k' = K
      · simp [FileMap.set, FileMap.get, hK]
      · have h' : ¬ K = k' := fun e => hK e.symm
        simp [FileMap.set, FileMap.get, hK, h']
    · by_cases hK : k' = K
      · subst hK
        simp [FileMap.set, FileMap.get, hk]
      · simp [FileMap.set, FileMap.get, hk, hK, ih]

/-- The read of a key after `m[k] = append(m[k], x)`. -/
theorem FileMap.get_push (m : FileMap) (k x K : String) :
    (m.push k x).get K = if K = k then m.get K ++ [x] else m.get K := by
  unfold FileMap.push
  rw [FileMap.get_set]
  by_cases h : K = k
  · simp [h]
  · simp [h]

/-- The keys after a write. -/
theorem FileMap.keys_set (m : FileMap) (k : String) (v : List String) :
    (FileMap.set m k v).map (fun e => e.1) = if k ∈ m.map (fun e => e.1)
      then m.map (fun e => e.1) else m.map (fun e => e.1) ++ [k] := by
  induction m with
  | nil => simp [FileMap.set]
  | cons e rest ih =>
    obtain ⟨k', v'⟩ := e
    by_cases hk : k' = k
    · subst hk
      simp [FileMap.set]
    · have hk' : ¬ k = k' := fun e => hk e.symm
      simp only [FileMap.set, hk, if_false, List.map_cons, ih, List.mem_cons, hk', false_or]
      by_cases hm : k ∈ rest.map (fun e => e.1)
      · simp only [List.mem_map] at hm
        simp [hm]
      · simp only [List.mem_map] at hm
        simp [hm]

/-- A write keeps the keys distinct. -/
theorem FileMap.nodup_set (m : FileMap) (k : String) (v : List String)
    (h : (m.map (fun e => e.1)).Nodup) : ((FileMap.set m k v).map (fun e => e.1)).Nodup := by
  rw [FileMap.keys_set]
  by_cases hm : k ∈ m.map (fun e => e.1)
  · simp only [hm, if_true]
    exact h
  · simp only [hm, if_false]
    exact List.Nodup.append h (List.nodup_singleton k) (by simpa using hm)

/-- With distinct keys, the list stored under a key is the one a read returns. -/
theorem FileMap.get_of_mem (m : FileMap) (h : (m.map (fun e => e.1)).Nodup) (K : String)
    (fs : List String) (hmem : (K, fs) ∈ m) : m.get K = fs := by
  induction m with
  | nil => simp at hmem
  | cons e rest ih =>
    obtain ⟨k', v'⟩ := e
    simp only [List.map_cons, List.nodup_cons] at h
    rcases List.mem_cons.1 hmem with he | hr
    · simp only [Prod.mk.injEq] at he
      simp [FileMap.get, he.1, he.2]
    · have hne : ¬ k' = K := by
        intro hk
        subst hk
        exact h.1 (List.mem_map.2 ⟨(k', fs), hr, rfl⟩)
      simp only [FileMap.get, hne, if_false]
      exact ih h.2 hr

/-- A key of the map is stored with what a read returns. -/
theorem FileMap.mem_of_key (m : FileMap) (K : String) (hK : K ∈ m.map (fun e => e.1)) :
    (K, m.get K) ∈ m := by
  induction m with
  | nil => simp at hK
  | cons e rest ih =>
    obtain ⟨k', v'⟩ := e
    by_cases hk : k' = K
    · subst hk
      simp [FileMap.get]
    · simp only [List.map_cons, List.mem_cons] at hK
      rcases hK with h | h
      · exact absurd h.symm hk
      · simp only [FileMap.get, hk, if_false]
        exact List.mem_cons_of_mem _ (ih h)

/-- The map after a run of `m[k] = append(m[k], x)`: reads, keys and distinctness. -/
theorem FileMap.foldl_push (pairs : List (String × String)) (m : FileMap)
    (hm : (m.map (fun e => e.1)).Nodup) :
    (∀ K, (pairs.foldl (fun acc p => acc.push p.1 p.2) m).get K
        = m.get K ++ (pairs.filter (fun p => p.1 = K)).map (fun p => p.2)) ∧
    (∀ K, K ∈ (pairs.foldl (fun acc p => acc.push p.1 p.2) m).map (fun e => e.1) ↔
        K ∈ m.map (fun e => e.1) ∨ K ∈ pairs.map (fun p => p.1)) ∧
    ((pairs.foldl (fun acc p => acc.push p.1 p.2) m).map (fun e => e.1)).Nodup ∧
    (pairs.foldl (fun acc p => acc.push p.1 p.2) m).total = m.total + pairs.length := by
  induction pairs generalizing m with
  | nil => simp [hm]
  | cons p pairs ih =>
    obtain ⟨k, x⟩ := p
    have hn : ((m.push k x).map (fun e => e.1)).Nodup := FileMap.nodup_set m k _ hm
    obtain ⟨h1, h2, h3, h4⟩ := ih (m.push k x) hn
    have hkeys : ∀ K, K ∈ (m.push k x).map (fun e => e.1) ↔
        K ∈ m.map (fun e => e.1) ∨ K = k := by
      intro K
      unfold FileMap.push
      rw [FileMap.keys_set]
      by_cases hmem : k ∈ m.map (fun e => e.1)
      · simp only [hmem, if_true]
        constructor
        · exact Or.inl
        · rintro (h | h)
          · exact h
          · exact h ▸ hmem
      · simp [hmem]
    have htotal : (m.push k x).total = m.total + 1 := by
      unfold FileMap.push
      clear hn h1 h2 h3 h4 hkeys hm ih
      induction m with
      | nil => simp [FileMap.set, FileMap.get, FileMap.total]
      | cons e rest ihm =>
        obtain ⟨k', v'⟩ := e
        by_cases hk : k' = k
        · simp [FileMap.set, FileMap.get, FileMap.total, hk]
          omega
        · simp only [FileMap.total] at ihm
          simp [FileMap.set, FileMap.get, FileMap.total, hk, ihm]
          omega
    refine ⟨?_, ?_, h3, ?_⟩
    · intro K
      simp only [List.foldl_cons]
      rw [h1 K, FileMap.get_push]
      by_cases hK : K = k
      · subst hK
        simp [List.filter_cons]
      · have hK' : ¬ k = K := fun e => hK e.symm
        simp [List.filter_cons, hK, hK']
    · intro K
      simp only [List.foldl_cons, h2 K, hkeys K, List.map_cons, List.mem_cons]
      tauto
    · simp only [List.foldl_cons, h4, htotal, List.length_cons]
      omega

/-- One step of the inner loop of `parse`: the map after the pattern is the map before with
the entry of the pair, when there is one. -/
theorem parseFile_step (L : Libs) (version : Version) (file parser : String)
    (parsers : List String) (kernelMap out : FileMap)
    (h : parseFile L version file (parser :: parsers) kernelMap = .ok (.ok out)) :
    parseFile L version file parsers
      (match matchEntry L version file parser with
        | some p => kernelMap.push p.1 p.2
        | none => kernelMap) = .ok (.ok out) := by
  unfold parseFile at h
  cases hv : validateVersion L file parser version.MinVersion version.MaxVersion with
  | error e => simp [hv] at h
  | ok res =>
    obtain ⟨valid, vm, err⟩ := res
    cases err with
    | some e => simp [hv] at h
    | none =>
      simp only [hv] at h
      cases valid with
      | false =>
        simp only [Bool.false_eq_true, if_false] at h
        simp only [matchEntry, hv]
        exact h
      | true =>
        simp only [if_true] at h
        obtain ⟨-, m0, v1, rest, -, -, -, hvm, -⟩ :=
          validateVersion_true L file parser _ _ vm none hv
        subst hvm
        have hg : groupKey (m0 :: v1 :: rest)
            = .ok (if rest.length = 1 then v1 ++ "." ++ rest.headD "" else v1, m0) := by
          match rest with
          | [] => simp [groupKey]
          | [m2] => simp [groupKey]
          | m2 :: m3 :: more => simp [groupKey]
        simp only [hg] at h
        simp only [matchEntry, hv]
        exact h

/-- The inner loop of `parse`, when it returns a map, has added the entries of the file. -/
theorem parseFile_fold (L : Libs) (version : Version) (file : String) (parsers : List String)
    (kernelMap out : FileMap) (h : parseFile L version file parsers kernelMap = .ok (.ok out)) :
    out = (parsers.filterMap (matchEntry L version file)).foldl
      (fun acc p => acc.push p.1 p.2) kernelMap := by
  induction parsers generalizing kernelMap with
  | nil =>
    simp only [parseFile, Except.ok.injEq] at h
    simp [h]
  | cons parser parsers ih =>
    have hs := parseFile_step L version file parser parsers kernelMap out h
    rw [ih _ hs]
    cases hm : matchEntry L version file parser with
    | none => simp [List.filterMap_cons, hm]
    | some p => simp [List.filterMap_cons, hm]

/-- The outer loop of `parse`, when it returns a map, has added the entries of all in-range
matches, in order. -/
theorem parseFiles_fold (L : Libs) (parsers : List String) (version : Version)
    (files : List String) (kernelMap out : FileMap)
    (h : parseFiles L parsers version files kernelMap = .ok (.ok out)) :
    out = (inRangeMatches L parsers version files).foldl
      (fun acc p => acc.push p.1 p.2) kernelMap := by
  induction files generalizing kernelMap with
  | nil =>
    simp only [parseFiles, Except.ok.injEq] at h
    simp [inRangeMatches, h]
  | cons file files ih =>
    unfold parseFiles at h
    cases hf : parseFile L version file parsers kernelMap with
    | error e => simp [hf] at h
    | ok res =>
      cases res with
      | error e => simp [hf] at h
      | ok km =>
        simp only [hf] at h
        rw [ih km h, parseFile_fold L version file parsers kernelMap km hf]
        simp [inRangeMatches, List.flatMap_cons, List.foldl_append]

/-- The map that `parse` returns is the grouping of the in-range matches. -/
theorem parse_fold (L : Libs) (d : Distribution) (fileList : List String) (version : Version)
    (kernelMap : FileMap) (h : d.parse L fileList version = .ok (kernelMap, none)) :
    kernelMap = (inRangeMatches L d.Parser version fileList).foldl
      (fun (acc : FileMap) p => acc.push p.1 p.2) [] := by
  unfold Distribution.parse at h
  cases hp : parseFiles L d.Parser version fileList [] with
  | error e => simp [hp] at h
  | ok res =>
    cases res with
    | error e => simp [hp] at h
    | ok km =>
      simp only [hp, Except.ok.injEq, Prod.mk.injEq, and_true] at h
      rw [← h]
      exact parseFiles_fold L d.Parser version fileList [] km hp

/-- C14: when `Distribution.parse` returns a grouped map, its entries are exactly these: a key
for every key of an in-range (file, pattern) match, the key being `<g1>.<g2>` for a match with
exactly two capture groups and `<g1>` otherwise (`matchEntry`), and under each key the URLs of
the in-range matches with that key, one per match, in listing order. -/
theorem parse_groups_in_range_matches (L : Libs) (d : Distribution) (fileList : List String)
    (version : Version) (kernelMap : FileMap)
    (h : d.parse L fileList version = .ok (kernelMap, none)) :
    ∀ K fs, (K, fs) ∈ kernelMap ↔
      (K ∈ (inRangeMatches L d.Parser version fileList).map (fun p => p.1) ∧
        fs = ((inRangeMatches L d.Parser version fileList).filter (fun p => p.1 = K)).map
          (fun p => p.2)) := by
  have hfold := parse_fold L d fileList version kernelMap h
  obtain ⟨hget, hkeys, hnodup, -⟩ :=
    FileMap.foldl_push (inRangeMatches L d.Parser version fileList) [] (by simp)
  rw [← hfold] at hget hkeys hnodup
  intro K fs
  constructor
  · intro hmem
    refine ⟨?_, ?_⟩
    · have : K ∈ kernelMap.map (fun e => e.1) := List.mem_map.2 ⟨(K, fs), hmem, rfl⟩
      simpa using (hkeys K).1 this
    · rw [← FileMap.get_of_mem kernelMap hnodup K fs hmem, hget K]
      simp [FileMap.get]
  · rintro ⟨hK, hfs⟩
    have hk : K ∈ kernelMap.map (fun e => e.1) := (hkeys K).2 (Or.inr hK)
    have := FileMap.mem_of_key kernelMap K hk
    rw [hget K] at this
    simp only [FileMap.get, List.nil_append] at this
    rw [hfs]
    exact this

/-- C14 evaluated on the end-to-end scenario: the result is the single key `5.4` with two
URLs, and that entry is the grouping of the two in-range matches. -/
theorem parse_groups_in_range_matches_witness :
    Distribution.parse goLibs demoUbuntu demoListing focal
      = .ok ([("5.4", ["http://mirror/u/linux-5.4.0", "http://mirror/u/linux-5.4.0"])], none) ∧
    (("5.4", ["http://mirror/u/linux-5.4.0", "http://mirror/u/linux-5.4.0"])
        ∈ [("5.4", ["http://mirror/u/linux-5.4.0", "http://mirror/u/linux-5.4.0"])] ↔
      ("5.4" ∈ (inRangeMatches goLibs demoUbuntu.Parser focal demoListing).map (fun p => p.1) ∧
        ["http://mirror/u/linux-5.4.0", "http://mirror/u/linux-5.4.0"]
          = ((inRangeMatches goLibs demoUbuntu.Parser focal demoListing).filter
              (fun p => p.1 = "5.4")).map (fun p => p.2))) :=
  ⟨by decide,
    parse_groups_in_range_matches goLibs demoUbuntu demoListing focal
      [("5.4", ["http://mirror/u/linux-5.4.0", "http://mirror/u/linux-5.4.0"])] (by decide)
      "5.4" ["http://mirror/u/linux-5.4.0", "http://mirror/u/linux-5.4.0"]⟩

/-- The number of in-range matches, file by file. -/
theorem inRangeMatches_length (L : Libs) (parsers : List String) (version : Version)
    (fileList : List String) :
    (inRangeMatches L parsers version fileList).length = (fileList.map (fun file =>
      (parsers.filter (fun q => (matchEntry L version file q).isSome)).length)).sum := by
  have hone : ∀ file, (parsers.filterMap (matchEntry L version file)).length
      = (parsers.filter (fun q => (matchEntry L version file q).isSome)).length := by
    intro file
    induction parsers with
    | nil => simp
    | cons q qs ihq =>
      cases hm : matchEntry L version file q with
      | none => simp [List.filterMap_cons, List.filter_cons, hm, ihq]
      | some p => simp [List.filterMap_cons, List.filter_cons, hm, ihq]
  induction fileList with
  | nil => simp [inRangeMatches]
  | cons file files ih =>
    simp only [inRangeMatches] at ih
    simp only [inRangeMatches, List.flatMap_cons, List.length_append, List.map_cons,
      List.sum_cons, ih, hone]

/-- C15, as the code has it: there is no first-match rule.  When `Distribution.parse` returns a
grouped map, the number of URLs in it is the number of in-range (file, pattern) matches: every
listed file contributes one URL for every configured pattern that matches it in range. -/
theorem parse_every_match_contributes (L : Libs) (d : Distribution) (fileList : List String)
    (version : Version) (kernelMap : FileMap)
    (h : d.parse L fileList version = .ok (kernelMap, none)) :
    kernelMap.total = (fileList.map (fun file =>
      (d.Parser.filter (fun q => (matchEntry L version file q).isSome)).length)).sum := by
  have hfold := parse_fold L d fileList version kernelMap h
  obtain ⟨-, -, -, htotal⟩ :=
    FileMap.foldl_push (inRangeMatches L d.Parser version fileList) [] (by simp)
  rw [← hfold] at htotal
  rw [htotal, inRangeMatches_length]
  simp [FileMap.total]

/-- C15 evaluated: two patterns match `linux-5.4.0.tar.gz` in range and the map has two
URLs. -/
theorem parse_every_match_contributes_witness :
    FileMap.total [("5.4", ["http://mirror/u/linux-5.4.0"]), ("5", ["http://mirror/u/linux-5"])]
      = (["linux-5.4.0.tar.gz"].map (fun file =>
          ([linuxPattern, "linux-(\\d+)"].filter
            (fun q => (matchEntry goLibs focal file q).isSome)).length)).sum :=
  parse_every_match_contributes goLibs { Parser := [linuxPattern, "linux-(\\d+)"] }
    ["linux-5.4.0.tar.gz"] focal
    [("5.4", ["http://mirror/u/linux-5.4.0"]), ("5", ["http://mirror/u/linux-5"])] (by decide)

/-- C15 fails as stated: the patterns `linux-(\d+)\.(\d+)\.\d+` and `linux-(\d+)` both match
`linux-5.4.0.tar.gz` in range, and both contribute an entry for it: the second pattern adds
the key `5`. -/
theorem second_pattern_contributes :
    matchEntry goLibs focal "linux-5.4.0.tar.gz" linuxPattern
      = some ("5.4", "http://mirror/u/linux-5.4.0") ∧
    matchEntry goLibs focal "linux-5.4.0.tar.gz" "linux-(\\d+)"
      = some ("5", "http://mirror/u/linux-5") ∧
    Distribution.parse goLibs { Parser := [linuxPattern, "linux-(\\d+)"] }
        ["linux-5.4.0.tar.gz"] focal
      = .ok ([("5.4", ["http://mirror/u/linux-5.4.0"]), ("5", ["http://mirror/u/linux-5"])],
          none) := by
  decide

/-! ## Theorems: paginated fetch -/

/-- With a compiled pattern the filter of a page keeps the packages whose name matches. -/
theorem matchingPackages_some (re : Regexp) (pkgs : List RhPackage) :
    matchingPackages (some re) pkgs = .ok (pkgs.filter (fun p => re.MatchString p.Name)) := by
  induction pkgs with
  | nil => rfl
  | cons p rest ih =>
    unfold matchingPackages
    simp only [ih]
    by_cases hm : re.MatchString p.Name = true
    · simp [List.filter_cons, hm]
    · simp [List.filter_cons, hm]

/-- A worker that starts at `start`, finds `n` full pages and then a short page, requests the
offsets `start, start + 300, ...`, `n + 1` of them, and appends the filtered packages of each
page, provided its loop budget exceeds `n`. -/
theorem rhWorker_pages (W : World) (re : Regexp) (repo : String) (n : Nat) :
    ∀ (start fuel : Nat),
    (∀ j < n, (getEntries W repo (start + 300 * j)).2 = none ∧
      ¬ ((getEntries W repo (start + 300 * j)).1.Pagination.Count
          < (getEntries W repo (start + 300 * j)).1.Pagination.Limit)) →
    ((getEntries W repo (start + 300 * n)).2 = none ∧
      (getEntries W repo (start + 300 * n)).1.Pagination.Count
        < (getEntries W repo (start + 300 * n)).1.Pagination.Limit) →
    n < fuel →
    rhWorker W (some re) repo fuel start
      = .ok ((List.range (n + 1)).map (fun j => start + 300 * j),
          (List.range (n + 1)).map (fun j =>
            (getEntries W repo (start + 300 * j)).1.Packages.filter
              (fun p => re.MatchString p.Name)),
          none) := by
  induction n with
  | zero =>
    intro start fuel _ hlast hfuel
    obtain ⟨f, rfl⟩ : ∃ f, fuel = f + 1 := ⟨fuel - 1, by omega⟩
    unfold rhWorker
    simp only [Nat.mul_zero, Nat.add_zero] at hlast
    rcases hg : getEntries W repo start with ⟨resp, err⟩
    rw [hg] at hlast
    simp only at hlast
    obtain ⟨herr, hshort⟩ := hlast
    subst herr
    simp [matchingPackages_some, hshort, hg, List.range_succ]
  | succ n ih =>
    intro start fuel hfull hlast hfuel
    obtain ⟨f, rfl⟩ : ∃ f, fuel = f + 1 := ⟨fuel - 1, by omega⟩
    have h0 := hfull 0 (by omega)
    simp only [Nat.mul_zero, Nat.add_zero] at h0
    have hrec := ih (start + RH_API_THREADS * 100) f
      (fun j hj => by
        have := hfull (j + 1) (by omega)
        simpa [RH_API_THREADS, Nat.mul_add, Nat.add_assoc, Nat.add_comm 300] using this)
      (by simpa [RH_API_THREADS, Nat.mul_add, Nat.add_assoc, Nat.add_comm 300] using hlast)
      (by omega)
    unfold rhWorker
    rcases hg : getEntries W repo start with ⟨resp, err⟩
    rw [hg] at h0
    simp only at h0
    obtain ⟨herr, hfullpage⟩ := h0
    subst herr
    simp only [matchingPackages_some, hfullpage, if_false, hrec]
    rw [List.range_succ_eq_map (n + 1)]
    simp [hg, RH_API_THREADS, Nat.mul_add, Nat.add_assoc, Nat.add_comm 300, Function.comp_def]

/-- C19: `getRhelPackages` runs three workers; worker `i` starts at offset `i * 100` and, when
its first `n i` pages are full (count not below limit) and the next page is short (count below
limit), it requests exactly the offsets `i*100, i*100 + 300, ..., i*100 + 300 * (n i)` in that
order and stops; it contributes, page by page, the packages whose name matches the name
pattern.  With `n i = 0` that is exactly one request.  The packages returned are the workers'
contributions, interleaved by the scheduler. -/
theorem getRhelPackages_workers (W : World) (re : Regexp) (repo pattern : String) (n : Nat → Nat)
    (hc : W.libs.Compile pattern = .ok re)
    (hfull : ∀ i < RH_API_THREADS, ∀ j < n i,
      (getEntries W repo (i * 100 + 300 * j)).2 = none ∧
      ¬ ((getEntries W repo (i * 100 + 300 * j)).1.Pagination.Count
          < (getEntries W repo (i * 100 + 300 * j)).1.Pagination.Limit))
    (hlast : ∀ i < RH_API_THREADS,
      (getEntries W repo (i * 100 + 300 * n i)).2 = none ∧
      (getEntries W repo (i * 100 + 300 * n i)).1.Pagination.Count
        < (getEntries W repo (i * 100 + 300 * n i)).1.Pagination.Limit)
    (hfuel : ∀ i < RH_API_THREADS, n i < W.fuel) :
    (∀ i < RH_API_THREADS, rhWorker W (some re) repo W.fuel (i * 100)
      = .ok (workerOffsets i (n i), workerChunks W re repo i (n i), none)) ∧
    getRhelPackages W repo pattern
      = .ok (interleave W.schedule
          [workerChunks W re repo 0 (n 0), workerChunks W re repo 1 (n 1),
            workerChunks W re repo 2 (n 2)], none) := by
  have hw : ∀ i < RH_API_THREADS, rhWorker W (some re) repo W.fuel (i * 100)
      = .ok (workerOffsets i (n i), workerChunks W re repo i (n i), none) := fun i hi =>
    rhWorker_pages W re repo (n i) (i * 100) W.fuel (hfull i hi) (hlast i hi) (hfuel i hi)
  refine ⟨hw, ?_⟩
  have h0 := hw 0 (by decide)
  have h1 := hw 1 (by decide)
  have h2 := hw 2 (by decide)
  simp only [Nat.zero_mul, Nat.one_mul] at h0 h1
  simp [getRhelPackages, hc, RH_API_THREADS, rhWorkers, h0, h1, h2]

/-- C19 evaluated: worker 0 finds a full page and then a short one (two requests, offsets 0 and
300) and contributes the matching package of each; workers 1 and 2 find a short first page
(one request each). -/
theorem getRhelPackages_workers_witness :
    rhWorker (pagedWorld "rhel-8" demoPages) (some kernelDevelRe) "rhel-8"
        (pagedWorld "rhel-8" demoPages).fuel (0 * 100)
      = .ok ([0, 300], [[{ Name := "kernel-devel", Version := "4.18.0" }],
          [{ Name := "kernel-devel", Version := "4.18.1" }]], none) ∧
    rhWorker (pagedWorld "rhel-8" demoPages) (some kernelDevelRe) "rhel-8"
        (pagedWorld "rhel-8" demoPages).fuel (1 * 100) = .ok ([100], [[]], none) ∧
    getRhelPackages (pagedWorld "rhel-8" demoPages) "rhel-8" "kernel-devel"
      = .ok ([{ Name := "kernel-devel", Version := "4.18.0" },
          { Name := "kernel-devel", Version := "4.18.1" }], none) :=
  ⟨(getRhelPackages_workers (pagedWorld "rhel-8" demoPages) kernelDevelRe "rhel-8"
      "kernel-devel" demoFullPages rfl (by decide) (by decide) (by decide)).1 0 (by decide),
   (getRhelPackages_workers (pagedWorld "rhel-8" demoPages) kernelDevelRe "rhel-8"
      "kernel-devel" demoFullPages rfl (by decide) (by decide) (by decide)).1 1 (by decide),
   (getRhelPackages_workers (pagedWorld "rhel-8" demoPages) kernelDevelRe "rhel-8"
      "kernel-devel" demoFullPages rfl (by decide) (by decide) (by decide)).2⟩

/-! ## Theorems: minikube resolution -/

/-- The loop of `getMinikubeKernelFile` on a tag, by what the tag resolves to. -/
theorem getMinikubeKernelFileLoop_cons (W : World) (kernelURL defconfigURL kernelDefconfigURL : String)
    (tag : String) (tags : List String) (st : MinikubeState) :
    getMinikubeKernelFileLoop W kernelURL defconfigURL kernelDefconfigURL (tag :: tags) st
      = match resolveTag W defconfigURL tag with
        | .error err => (.error err, st.minikubeMap)
        | .ok none =>
          getMinikubeKernelFileLoop W kernelURL defconfigURL kernelDefconfigURL tags st
        | .ok (some v1) =>
          getMinikubeKernelFileLoop W kernelURL defconfigURL kernelDefconfigURL tags
            (recordTag W kernelURL kernelDefconfigURL tag v1 st) := by
  rw [getMinikubeKernelFileLoop]
  unfold resolveTag
  cases h1 : W.httpGet (W.Sprintf defconfigURL tag) with
  | error e => simp only [h1]
  | ok body =>
    simp only [h1]
    cases h2 : W.libs.Compile "BR2_LINUX_KERNEL_CUSTOM_VERSION_VALUE=\"(.*)\"" with
    | error e => simp only [h2]
    | ok r =>
      simp only [h2]
      match h3 : r.FindStringSubmatch body with
      | [] => simp only [h3]
      | [_] => simp only [h3]
      | _ :: v1 :: _ => simp only [h3, recordTag, archiveURL]

/-- A tag whose body does not match is skipped by the loop, wherever it stands. -/
theorem getMinikubeKernelFileLoop_skip (W : World)
    (kernelURL defconfigURL kernelDefconfigURL tag : String) (before after : List String)
    (hnone : resolveTag W defconfigURL tag = .ok none) (st : MinikubeState) :
    getMinikubeKernelFileLoop W kernelURL defconfigURL kernelDefconfigURL
        (before ++ tag :: after) st
      = getMinikubeKernelFileLoop W kernelURL defconfigURL kernelDefconfigURL
        (before ++ after) st := by
  induction before generalizing st with
  | nil => simp [getMinikubeKernelFileLoop_cons, hnone]
  | cons t before ih =>
    simp only [List.cons_append, getMinikubeKernelFileLoop_cons]
    cases resolveTag W defconfigURL t with
    | error e => rfl
    | ok v =>
      cases v with
      | none => exact ih st
      | some v1 => exact ih _

/-- A tag whose fetch fails makes the loop return an error. -/
theorem getMinikubeKernelFileLoop_fetch_error (W : World)
    (kernelURL defconfigURL kernelDefconfigURL tag err : String) (tags : List String)
    (hmem : tag ∈ tags) (hfail : W.httpGet (W.Sprintf defconfigURL tag) = .error err)
    (st : MinikubeState) :
    ∃ err' mk', getMinikubeKernelFileLoop W kernelURL defconfigURL kernelDefconfigURL tags st
      = (.error err', mk') := by
  induction tags generalizing st with
  | nil => simp at hmem
  | cons t tags ih =>
    rw [getMinikubeKernelFileLoop_cons]
    cases hr : resolveTag W defconfigURL t with
    | error e => exact ⟨e, _, rfl⟩
    | ok v =>
      have hne : t ≠ tag := by
        intro he
        subst he
        simp [resolveTag, hfail] at hr
      have hmem' : tag ∈ tags := by
        rcases List.mem_cons.1 hmem with h | h
        · exact absurd h.symm hne
        · exact h
      cases v with
      | none => exact ih hmem' st
      | some v1 => exact ih hmem' _

/-- C17, as the code has it: a tag whose fetched body does not match the kernel-version
pattern is dropped without an error, and the call answers what it answers for the listing
without that tag; a tag whose configuration fetch fails makes the call return an error and
no result. -/
theorem getMinikubeKernelFile_unmatched_and_failed (W : World) (downloadFileList : FileMap)
    (kernelURL defconfigURL kernelDefconfigURL : String) (minikubeMap : FileMap) :
    (∀ (others : FileMap) (before after : List String) (tag : String),
      (W.rangeOrder downloadFileList).map (fun e => e.1) = before ++ tag :: after →
      (W.rangeOrder others).map (fun e => e.1) = before ++ after →
      resolveTag W defconfigURL tag = .ok none →
      getMinikubeKernelFile W downloadFileList kernelURL defconfigURL kernelDefconfigURL
          minikubeMap
        = getMinikubeKernelFile W others kernelURL defconfigURL kernelDefconfigURL
          minikubeMap) ∧
    (∀ tag err, tag ∈ (W.rangeOrder downloadFileList).map (fun e => e.1) →
      W.httpGet (W.Sprintf defconfigURL tag) = .error err →
      ∃ err' mk', getMinikubeKernelFile W downloadFileList kernelURL defconfigURL
          kernelDefconfigURL minikubeMap = (([], some err'), mk')) := by
  constructor
  · intro others before after tag h1 h2 hnone
    unfold getMinikubeKernelFile
    rw [h1, h2, getMinikubeKernelFileLoop_skip W kernelURL defconfigURL kernelDefconfigURL tag
      before after hnone]
  · intro tag err hmem hfail
    obtain ⟨err', mk', he⟩ := getMinikubeKernelFileLoop_fetch_error W kernelURL defconfigURL
      kernelDefconfigURL tag err _ hmem hfail ⟨minikubeMap, [], []⟩
    exact ⟨err', mk', by simp [getMinikubeKernelFile, he]⟩

/-- C17 evaluated: the tag `v0.9.0` has an error page for a body and is dropped; the tag
`v1.0.0` cannot be fetched and the call returns an error. -/
theorem getMinikubeKernelFile_unmatched_and_failed_witness :
    getMinikubeKernelFile (tagWorld demoBodies) [("v0.9.0", []), ("v1.2.3", [])] demoKernelURL
        "http://cfg/%s/defconfig" "http://cfg/%s/linux_defconfig" []
      = getMinikubeKernelFile (tagWorld demoBodies) [("v1.2.3", [])] demoKernelURL
        "http://cfg/%s/defconfig" "http://cfg/%s/linux_defconfig" [] ∧
    ∃ err' mk', getMinikubeKernelFile (tagWorld demoBodies) [("v1.2.3", []), ("v1.0.0", [])]
        demoKernelURL "http://cfg/%s/defconfig" "http://cfg/%s/linux_defconfig" []
      = (([], some err'), mk') :=
  ⟨(getMinikubeKernelFile_unmatched_and_failed (tagWorld demoBodies)
      [("v0.9.0", []), ("v1.2.3", [])] demoKernelURL "http://cfg/%s/defconfig"
      "http://cfg/%s/linux_defconfig" []).1 [("v1.2.3", [])] [] ["v1.2.3"] "v0.9.0" rfl rfl
      (by decide),
   (getMinikubeKernelFile_unmatched_and_failed (tagWorld demoBodies)
      [("v1.2.3", []), ("v1.0.0", [])] demoKernelURL "http://cfg/%s/defconfig"
      "http://cfg/%s/linux_defconfig" []).2 "v1.0.0"
      "Get \"http://cfg/v1.0.0/defconfig\": dial tcp: connection refused" (by decide)
      (by decide)⟩

/-- C17 fails as stated: the configuration of the tag `v1.0.0` cannot be fetched, and the call
returns that error and no result, although the tag `v1.2.3` resolves to the kernel 5.10.7. -/
theorem fetch_failure_fails_the_call :
    resolveTag (tagWorld demoBodies) "http://cfg/%s/defconfig" "v1.2.3" = .ok (some "5.10.7") ∧
    getMinikubeKernelFile (tagWorld demoBodies) [("v1.0.0", []), ("v1.2.3", [])] demoKernelURL
        "http://cfg/%s/defconfig" "http://cfg/%s/linux_defconfig" []
      = (([], some "Get \"http://cfg/v1.0.0/defconfig\": dial tcp: connection refused"), []) := by
  decide

/-- The alias table after a tag that resolves to `v1`. -/
theorem recordTag_minikubeMap (W : World) (kernelURL kernelDefconfigURL tag v1 : String)
    (st : MinikubeState) :
    (recordTag W kernelURL kernelDefconfigURL tag v1 st).minikubeMap
      = st.minikubeMap.push v1 tag := by
  unfold recordTag
  simp only []
  split <;> split <;> rfl

/-- The aliases of `V` after the loop: those before, then the tags that resolve to `V`, in the
order in which the loop visits them. -/
theorem getMinikubeKernelFileLoop_aliases (W : World)
    (kernelURL defconfigURL kernelDefconfigURL V : String) (tags : List String)
    (st : MinikubeState) (new' mk' : FileMap)
    (h : getMinikubeKernelFileLoop W kernelURL defconfigURL kernelDefconfigURL tags st
      = (.ok new', mk')) :
    mk'.get V = st.minikubeMap.get V
      ++ tags.filter (fun t => resolveTag W defconfigURL t = .ok (some V)) := by
  induction tags generalizing st with
  | nil =>
    simp only [getMinikubeKernelFileLoop, Prod.mk.injEq] at h
    simp [← h.2]
  | cons t tags ih =>
    rw [getMinikubeKernelFileLoop_cons] at h
    cases hr : resolveTag W defconfigURL t with
    | error e => simp [hr] at h
    | ok v =>
      cases v with
      | none =>
        simp only [hr] at h
        rw [ih st h]
        simp [List.filter_cons, hr]
      | some v1 =>
        simp only [hr] at h
        rw [ih _ h, recordTag_minikubeMap, FileMap.get_push]
        by_cases hv : V = v1
        · subst hv
          simp [List.filter_cons, hr]
        · have hv' : ¬ v1 = V := fun e => hv e.symm
          simp [List.filter_cons, hr, hv, hv']

/-- One tag that does not disturb the archive of `V`: the archive address is filed under `V`
once more exactly when the tag resolves to `V` and the base name of the archive was not yet
emitted; afterwards the base name is emitted exactly when it was before or the tag resolves
to `V`. -/
theorem recordTag_archive (W : World) (kernelURL kernelDefconfigURL V tag v1 : String)
    (st : MinikubeState) (hc : NoClash W kernelURL kernelDefconfigURL V tag v1) :
    ((recordTag W kernelURL kernelDefconfigURL tag v1 st).newDownloadFileList.get V).count
        (archiveURL kernelURL V)
      = (st.newDownloadFileList.get V).count (archiveURL kernelURL V)
        + (if v1 = V ∧ filepathBase (archiveURL kernelURL V) ∉ st.fileMap then 1 else 0) ∧
    (filepathBase (archiveURL kernelURL V)
        ∈ (recordTag W kernelURL kernelDefconfigURL tag v1 st).fileMap ↔
      filepathBase (archiveURL kernelURL V) ∈ st.fileMap ∨ v1 = V) := by
  obtain ⟨hc1, hc2, hc3⟩ := hc
  have hc2' : ¬ filepathBase (archiveURL kernelURL V)
      = v1 ++ filepathBase (W.Sprintf kernelDefconfigURL tag) := fun e => hc2 e.symm
  unfold recordTag
  simp only []
  by_cases hv : v1 = V
  · subst hv
    have hD : ¬ W.Sprintf kernelDefconfigURL tag = archiveURL kernelURL v1 := hc3 rfl
    have hcnt : List.count (archiveURL kernelURL v1) [W.Sprintf kernelDefconfigURL tag] = 0 :=
      List.count_eq_zero.2 (by simpa using fun e => hD e.symm)
    by_cases hA : filepathBase (archiveURL kernelURL v1) ∈ st.fileMap
    · simp only [hA, if_true]
      split
      · simp [hA]
      · simp [hA, FileMap.get_push, List.count_append, hcnt]
    · simp only [hA, if_false]
      split
      · simp [hA, FileMap.get_push, List.count_append]
      · simp [hA, FileMap.get_push, List.count_append, hcnt]
  · have hv' : ¬ V = v1 := fun e => hv e.symm
    have hbase : ¬ filepathBase (archiveURL kernelURL V) = filepathBase (archiveURL kernelURL v1) :=
      fun e => hv (hc1 e.symm)
    by_cases hA : filepathBase (archiveURL kernelURL v1) ∈ st.fileMap
    · simp only [hA, if_true]
      split
      · simp [hv]
      · simp [hv, hv', FileMap.get_push, hc2']
    · simp only [hA, if_false]
      split
      · simp [hv, hv', FileMap.get_push, hbase]
      · simp [hv, hv', FileMap.get_push, hbase, hc2']

/-- The number of times the archive of `V` is filed under `V` by the loop: once more than
before exactly when its base name was not yet emitted and some tag resolves to `V`, provided
no tag disturbs the archive of `V`. -/
theorem getMinikubeKernelFileLoop_archive (W : World)
    (kernelURL defconfigURL kernelDefconfigURL V : String) (tags : List String)
    (hclash : ∀ t ∈ tags, ∀ v1, resolveTag W defconfigURL t = .ok (some v1) →
      NoClash W kernelURL kernelDefconfigURL V t v1)
    (st : MinikubeState) (new' mk' : FileMap)
    (h : getMinikubeKernelFileLoop W kernelURL defconfigURL kernelDefconfigURL tags st
      = (.ok new', mk')) :
    (new'.get V).count (archiveURL kernelURL V)
      = (st.newDownloadFileList.get V).count (archiveURL kernelURL V)
        + (if filepathBase (archiveURL kernelURL V) ∉ st.fileMap ∧
            tags.any (fun t => decide (resolveTag W defconfigURL t = .ok (some V))) = true
          then 1 else 0) := by
  induction tags generalizing st with
  | nil =>
    simp only [getMinikubeKernelFileLoop, Prod.mk.injEq, Except.ok.injEq] at h
    simp [← h.1]
  | cons t tags ih =>
    have hrest : ∀ x ∈ tags, ∀ v1, resolveTag W defconfigURL x = .ok (some v1) →
        NoClash W kernelURL kernelDefconfigURL V x v1 :=
      fun x hx => hclash x (List.mem_cons_of_mem _ hx)
    rw [getMinikubeKernelFileLoop_cons] at h
    cases hr : resolveTag W defconfigURL t with
    | error e => simp [hr] at h
    | ok v =>
      cases v with
      | none =>
        simp only [hr] at h
        rw [ih hrest st h]
        simp [hr]
      | some v1 =>
        simp only [hr] at h
        obtain ⟨hcount, hmem⟩ := recordTag_archive W kernelURL kernelDefconfigURL V t v1 st
          (hclash t (List.mem_cons_self _ _) v1 hr)
        rw [ih hrest _ h, hcount]
        by_cases hA : filepathBase (archiveURL kernelURL V) ∈ st.fileMap
        · have hA' := hmem.2 (Or.inl hA)
          simp [hA, hA']
        · by_cases hv : v1 = V
          · subst hv
            have hA' := hmem.2 (Or.inr rfl)
            simp [hA, hA', hr]
          · have hA' : filepathBase (archiveURL kernelURL V)
                ∉ (recordTag W kernelURL kernelDefconfigURL t v1 st).fileMap := by
              intro hx
              rcases hmem.1 hx with h1 | h1
              · exact hA h1
              · exact hv h1
            simp [hA, hA', hv, hr]

/-- C16, as the code has it: when `getMinikubeKernelFile` returns a map, every tag whose
defconfig body yields the kernel version `V` is recorded as an alias of `V`, in the order of
the visit; and if some tag yields `V` and no tag disturbs the archive of `V` (`NoClash`: no
other entry is deduplicated under the base file name of the archive, and no defconfig address
filed under `V` is the archive address), the file list returned for `V` contains the archive
address `<kernelURL>/linux-V.tar.gz` exactly once, however many tags resolve to `V`. -/
theorem getMinikubeKernelFile_aliases_and_archive (W : World) (downloadFileList : FileMap)
    (kernelURL defconfigURL kernelDefconfigURL V : String)
    (minikubeMap newDownloadFileList minikubeMap' : FileMap)
    (h : getMinikubeKernelFile W downloadFileList kernelURL defconfigURL kernelDefconfigURL
      minikubeMap = ((newDownloadFileList, none), minikubeMap'))
    (hsome : ∃ t ∈ (W.rangeOrder downloadFileList).map (fun e => e.1),
      resolveTag W defconfigURL t = .ok (some V))
    (hclash : ∀ t ∈ (W.rangeOrder downloadFileList).map (fun e => e.1), ∀ v1,
      resolveTag W defconfigURL t = .ok (some v1) →
      NoClash W kernelURL kernelDefconfigURL V t v1) :
    minikubeMap'.get V = minikubeMap.get V
      ++ ((W.rangeOrder downloadFileList).map (fun e => e.1)).filter
          (fun t => resolveTag W defconfigURL t = .ok (some V)) ∧
    (newDownloadFileList.get V).count (archiveURL kernelURL V) = 1 := by
  unfold getMinikubeKernelFile at h
  rcases hl : getMinikubeKernelFileLoop W kernelURL defconfigURL kernelDefconfigURL
      ((W.rangeOrder downloadFileList).map (fun e => e.1)) ⟨minikubeMap, [], []⟩ with ⟨r, mk1⟩
  rw [hl] at h
  cases r with
  | error e => simp at h
  | ok new1 =>
    simp only [Prod.mk.injEq, and_true] at h
    obtain ⟨hnew, hmk⟩ := h
    subst hnew hmk
    refine ⟨getMinikubeKernelFileLoop_aliases W kernelURL defconfigURL kernelDefconfigURL V _
      ⟨minikubeMap, [], []⟩ new1 mk1 hl, ?_⟩
    rw [getMinikubeKernelFileLoop_archive W kernelURL defconfigURL kernelDefconfigURL V _ hclash
      ⟨minikubeMap, [], []⟩ new1 mk1 hl]
    obtain ⟨t, ht, hres⟩ := hsome
    have hany : ((W.rangeOrder downloadFileList).map (fun e => e.1)).any
        (fun t => decide (resolveTag W defconfigURL t = .ok (some V))) = true :=
      List.any_eq_true.2 ⟨t, ht, by simpa using hres⟩
    simp [FileMap.get, hany]

/-- C16 evaluated on the minikube scenario: the tags `v1.2.3` and `v1.3.0` both yield the
kernel 5.10.7; both are aliases of it and its file list holds the archive address once. -/
theorem getMinikubeKernelFile_aliases_and_archive_witness :
    FileMap.get [("5.10.7", ["v1.2.3", "v1.3.0"])] "5.10.7"
      = FileMap.get [] "5.10.7"
        ++ (((tagWorld demoBodies).rangeOrder [("v1.2.3", []), ("v1.3.0", [])]).map
            (fun e => e.1)).filter
          (fun t => resolveTag (tagWorld demoBodies) "http://cfg/%s/defconfig" t
            = .ok (some "5.10.7")) ∧
    (FileMap.get [("5.10.7", ["https://cdn.kernel.org/v5.x/linux-5.10.7.tar.gz",
        "http://cfg/v1.2.3/linux_defconfig"])] "5.10.7").count
      (archiveURL demoKernelURL "5.10.7") = 1 :=
  getMinikubeKernelFile_aliases_and_archive (tagWorld demoBodies)
    [("v1.2.3", []), ("v1.3.0", [])] demoKernelURL "http://cfg/%s/defconfig"
    "http://cfg/%s/linux_defconfig" "5.10.7" []
    [("5.10.7", ["https://cdn.kernel.org/v5.x/linux-5.10.7.tar.gz",
      "http://cfg/v1.2.3/linux_defconfig"])]
    [("5.10.7", ["v1.2.3", "v1.3.0"])] (by decide)
    ⟨"v1.2.3", by decide, by decide⟩
    (by
      intro t ht v1 hv
      have ht' : t = "v1.2.3" ∨ t = "v1.3.0" := by simpa [tagWorld, listingWorld] using ht
      have hv1 : v1 = "5.10.7" := by
        rcases ht' with rfl | rfl
        · have : resolveTag (tagWorld demoBodies) "http://cfg/%s/defconfig" "v1.2.3"
              = .ok (some "5.10.7") := by decide
          rw [this] at hv
          simpa using hv.symm
        · have : resolveTag (tagWorld demoBodies) "http://cfg/%s/defconfig" "v1.3.0"
              = .ok (some "5.10.7") := by decide
          rw [this] at hv
          simpa using hv.symm
      subst hv1
      rcases ht' with rfl | rfl
      · exact ⟨fun _ => rfl, by decide, fun _ => by decide⟩
      · exact ⟨fun _ => rfl, by decide, fun _ => by decide⟩)

/-- C16 fails as stated: the tags `v2.0.0` and `v2.1.0` yield the kernel versions
`stable/5.10` and `lts/5.10`, whose archives have the same base file name; the tag `v2.1.0` is
recorded as an alias of `lts/5.10`, but the file list returned for `lts/5.10` does not contain
its archive address at all. -/
theorem archive_missing_after_name_clash :
    getMinikubeKernelFile (tagWorld clashBodies) [("v2.0.0", []), ("v2.1.0", [])] demoKernelURL
        "http://cfg/%s/defconfig" "http://cfg/%s/linux_defconfig" []
      = (([("stable/5.10", ["https://cdn.kernel.org/v5.x/linux-stable/5.10.tar.gz",
              "http://cfg/v2.0.0/linux_defconfig"]),
          ("lts/5.10", ["http://cfg/v2.1.0/linux_defconfig"])], none),
        [("stable/5.10", ["v2.0.0"]), ("lts/5.10", ["v2.1.0"])]) ∧
    (FileMap.get [("stable/5.10", ["https://cdn.kernel.org/v5.x/linux-stable/5.10.tar.gz",
              "http://cfg/v2.0.0/linux_defconfig"]),
          ("lts/5.10", ["http://cfg/v2.1.0/linux_defconfig"])] "lts/5.10").count
      (archiveURL demoKernelURL "lts/5.10") = 0 := by
  decide

/-! ## Theorems: iteration order -/

/-- The loop over the custom configurations faults exactly when a matching declaration has no
properties map, and otherwise appends the variants. -/
theorem appendCustom_eq (d : Distribution) (version : Version) (minikubeMap : FileMap)
    (downloaded : Bool) (k : String) (v : List String) (ccs : List CustomConfig)
    (ks : List Kernel) :
    appendCustom d version minikubeMap downloaded k v ccs ks
      = if ccs.any (fun cc => decide (cc.KernelName = k) && cc.Properties.isNone) = true
        then .error (.panic "assignment to entry in nil map")
        else .ok (ks ++ (ccs.filter (fun cc => cc.KernelName = k)).map
          (variantKernel d version minikubeMap downloaded k v)) := by
  induction ccs generalizing ks with
  | nil => simp [appendCustom]
  | cons cc ccs ih =>
    unfold appendCustom
    by_cases hk : cc.KernelName = k
    · cases hp : cc.Properties with
      | none => simp [hk, hp, StrMap.assign]
      | some entries =>
        simp only [hk, if_true, hp, StrMap.assign, ih]
        simp [hk, hp, variantKernel]
    · simp only [hk, if_false, ih]
      simp [hk]

/-- The loop over the grouped map faults exactly when some entry has a matching declaration
without a properties map, and otherwise appends the kernels of every entry. -/
theorem appendEntries_eq (W : World) (d : Distribution) (version : Version) (upstream : Bool)
    (cachedKernels : Option artifactoryKernelCache) (minikubeMap : FileMap)
    (entries : List (String × List String)) (ks : List Kernel) :
    appendEntries W d version upstream cachedKernels minikubeMap entries ks
      = if entries.any (fun e => entryFaults version e.1) = true
        then .error (.panic "assignment to entry in nil map")
        else .ok (ks ++ entries.flatMap
          (entryKernels W d version upstream cachedKernels minikubeMap)) := by
  induction entries generalizing ks with
  | nil => simp [appendEntries]
  | cons e entries ih =>
    obtain ⟨k, v⟩ := e
    unfold appendEntries
    simp only [appendCustom_eq]
    by_cases hf : entryFaults version k = true
    · have hf' := hf
      unfold entryFaults at hf'
      simp [hf, hf']
    · have hf' := hf
      unfold entryFaults at hf'
      have hf0 : entryFaults version k = false := by simpa using hf
      simp only [hf', if_false, ih]
      rw [List.any_cons]
      simp only [hf0, Bool.false_or, entryKernels, List.flatMap_cons, List.append_assoc,
        List.cons_append, List.nil_append, Bool.false_eq_true, if_false]

/-- The distro and version of the kernels of the assembler. -/
theorem kernel_origin (d : Distribution) (version : Version) (minikubeMap : FileMap)
    (downloaded : Bool) (k : String) (v : List String) (cc : CustomConfig)
    (properties : StrMap) :
    (baseKernel d version minikubeMap downloaded k v).Distro = d.Name ∧
    (baseKernel d version minikubeMap downloaded k v).DistroVersion = version.Name ∧
    (customKernel d version minikubeMap downloaded k v cc properties).Distro = d.Name ∧
    (customKernel d version minikubeMap downloaded k v cc properties).DistroVersion
      = version.Name := by
  unfold baseKernel customKernel
  cases minikubeMap.lookup k <;> by_cases hu : d.Name = UBUNTU <;> simp [hu]

/-- The identities of the kernels of an entry depend on its key only. -/
theorem entryKernels_identity (W : World) (d : Distribution) (version : Version)
    (upstream : Bool) (cachedKernels : Option artifactoryKernelCache) (minikubeMap : FileMap)
    (e : String × List String) :
    (entryKernels W d version upstream cachedKernels minikubeMap e).map Kernel.identity
      = entryIdentities d version e.1 := by
  have hb := baseKernel_fields d version minikubeMap
    (downloadedFlag W d version upstream e.2 cachedKernels) e.1 e.2
  have ho := kernel_origin d version minikubeMap
    (downloadedFlag W d version upstream e.2 cachedKernels) e.1 e.2 {} none
  simp only [entryKernels, entryIdentities, List.map_cons, List.map_map, Kernel.identity,
    hb.1, hb.2.2.2.2, ho.1, ho.2.1, List.cons.injEq, true_and]
  apply List.map_congr_left
  intro cc _
  have hf := customKernel_fields d version minikubeMap
    (downloadedFlag W d version upstream e.2 cachedKernels) e.1 e.2 cc
    (some (setEntry "CONFIG_LOCALVERSION" cc.LocalVersionSuffix (cc.Properties.getD [])))
  have hc := kernel_origin d version minikubeMap
    (downloadedFlag W d version upstream e.2 cachedKernels) e.1 e.2 cc
    (some (setEntry "CONFIG_LOCALVERSION" cc.LocalVersionSuffix (cc.Properties.getD [])))
  simp only [Function.comp, variantKernel, Kernel.identity]
  rw [hf.1, hf.2.2.2.2, hc.2.2.1, hc.2.2.2]

/-- The loop over the grouped map, run in two worlds on two orders of the same entries and on
lists with the same identities, faults in both or returns lists with the same identities. -/
theorem appendEntries_perm (W W' : World) (d : Distribution) (version : Version)
    (upstream : Bool) (cachedKernels : Option artifactoryKernelCache) (mk mk' : FileMap)
    (entries entries' : List (String × List String)) (ks ks' : List Kernel)
    (hp : (entries.map (fun e => e.1)).Perm (entries'.map (fun e => e.1)))
    (hks : (ks.map Kernel.identity).Perm (ks'.map Kernel.identity)) :
    (∃ h, appendEntries W d version upstream cachedKernels mk entries ks = .error h ∧
      appendEntries W' d version upstream cachedKernels mk' entries' ks' = .error h) ∨
    (∃ out out', appendEntries W d version upstream cachedKernels mk entries ks = .ok out ∧
      appendEntries W' d version upstream cachedKernels mk' entries' ks' = .ok out' ∧
      (out.map Kernel.identity).Perm (out'.map Kernel.identity)) := by
  rw [appendEntries_eq, appendEntries_eq]
  have hany : entries.any (fun e => entryFaults version e.1)
      = entries'.any (fun e => entryFaults version e.1) := by
    have h1 : ∀ l : List (String × List String),
        l.any (fun e => entryFaults version e.1)
          = (l.map (fun e => e.1)).any (entryFaults version) := by
      intro l
      induction l with
      | nil => rfl
      | cons a l ih => simp [List.any_cons, ih]
    rw [h1, h1, Bool.eq_iff_iff, List.any_eq_true, List.any_eq_true]
    constructor
    · rintro ⟨x, hx, hf⟩
      exact ⟨x, hp.mem_iff.1 hx, hf⟩
    · rintro ⟨x, hx, hf⟩
      exact ⟨x, hp.mem_iff.2 hx, hf⟩
  rw [← hany]
  by_cases hf : entries.any (fun e => entryFaults version e.1) = true
  · exact Or.inl ⟨.panic "assignment to entry in nil map", by simp [hf], by simp [hf]⟩
  · refine Or.inr ⟨ks ++ entries.flatMap (entryKernels W d version upstream cachedKernels mk),
      ks' ++ entries'.flatMap (entryKernels W' d version upstream cachedKernels mk'),
      by simp [hf], by simp [hf], ?_⟩
    have hid : ∀ (X : World) (m : FileMap) (l : List (String × List String)),
        (l.flatMap (entryKernels X d version upstream cachedKernels m)).map Kernel.identity
          = (l.map (fun e => e.1)).flatMap (entryIdentities d version) := by
      intro X m l
      rw [List.map_flatMap, List.flatMap_map]
      congr 1
      funext e
      exact entryKernels_identity X d version upstream cachedKernels m e
    rw [List.map_append, List.map_append, hid, hid]
    exact hks.append (hp.flatMap_right _)

/-- A worker requests its pages whatever the order of visit of maps. -/
theorem rhWorker_withOrder (W : World) (order : FileMap → FileMap) (r : Option Regexp)
    (repo : String) (fuel offset : Nat) :
    rhWorker (W.withOrder order) r repo fuel offset = rhWorker W r repo fuel offset := by
  induction fuel generalizing offset with
  | zero => rfl
  | succ n ih =>
    rw [rhWorker, rhWorker, ih]
    rfl

/-- The workers of the paginated fetch do not visit a map. -/
theorem rhWorkers_withOrder (W : World) (order : FileMap → FileMap) (r : Option Regexp)
    (repo : String) (n i : Nat) :
    rhWorkers (W.withOrder order) r repo n i = rhWorkers W r repo n i := by
  induction n generalizing i with
  | zero => rfl
  | succ n ih =>
    rw [rhWorkers, rhWorkers, ih, rhWorker_withOrder]
    rfl

/-- The paginated fetch does not visit a map. -/
theorem getRhelPackages_withOrder (W : World) (order : FileMap → FileMap)
    (repo pattern : String) :
    getRhelPackages (W.withOrder order) repo pattern = getRhelPackages W repo pattern := by
  unfold getRhelPackages
  simp only [rhWorkers_withOrder]
  rfl

/-- The loop over the patterns for one package does not visit a map. -/
theorem parseRedHatPackage_withOrder (W : World) (order : FileMap → FileMap) (rhp : RhPackage)
    (fileName : String) (version : Version) (artifactoryCache : Option artifactoryKernelCache)
    (parsers : List String) (kernelMap : FileMap) :
    parseRedHatPackage (W.withOrder order) rhp fileName version artifactoryCache parsers kernelMap
      = parseRedHatPackage W rhp fileName version artifactoryCache parsers kernelMap := by
  induction parsers generalizing kernelMap with
  | nil => rfl
  | cons parser parsers ih =>
    rw [parseRedHatPackage, parseRedHatPackage]
    simp only [ih]
    rfl

/-- The loop over the packages does not visit a map. -/
theorem parseRedHatPackagesLoop_withOrder (W : World) (order : FileMap → FileMap)
    (version : Version) (parsers : List String)
    (artifactoryCache : Option artifactoryKernelCache) (packages : List RhPackage)
    (kernelMap : FileMap) :
    parseRedHatPackagesLoop (W.withOrder order) version parsers artifactoryCache packages kernelMap
      = parseRedHatPackagesLoop W version parsers artifactoryCache packages kernelMap := by
  induction packages generalizing kernelMap with
  | nil => rfl
  | cons rhp packages ih =>
    rw [parseRedHatPackagesLoop, parseRedHatPackagesLoop, parseRedHatPackage_withOrder]
    simp only [ih]

/-- Outside minikube, the fetch step does not visit a map. -/
theorem fetchVersion_withOrder (W : World) (order : FileMap → FileMap) (d : Distribution)
    (upstream : Bool) (cachedKernels : Option artifactoryKernelCache) (version : Version)
    (kernelList : List Kernel) (minikubeMap : FileMap) (hd : d.Name ≠ MINIKUBE) :
    fetchVersion (W.withOrder order) d upstream cachedKernels version kernelList minikubeMap
      = fetchVersion W d upstream cachedKernels version kernelList minikubeMap := by
  unfold fetchVersion
  simp only [getRhelPackages_withOrder, parseRedHatPackages, parseRedHatPackagesLoop_withOrder,
    hd, if_false]
  rfl

/-- The kernel list that the fetch step is given shows in an early return only, and only for
the authenticated fetch. -/
theorem fetchVersion_kernelList (W : World) (d : Distribution) (upstream : Bool)
    (cachedKernels : Option artifactoryKernelCache) (version : Version) (minikubeMap : FileMap) :
    ∃ keep : Bool, ∀ ks : List Kernel,
      fetchVersion W d upstream cachedKernels version ks minikubeMap
        = match fetchVersion W d upstream cachedKernels version [] minikubeMap with
          | .error h => .error h
          | .ok (.inl (_, err), m) => .ok (.inl (if keep then ks else [], err), m)
          | .ok (.inr dl, m) => .ok (.inr dl, m) := by
  by_cases hr : (!upstream && decide (d.Name ≠ MINIKUBE) && version.ArtifactoryCache) = false
      ∧ d.Name = RHEL
  · refine ⟨true, fun ks => ?_⟩
    unfold fetchVersion
    simp only [hr.1, Bool.false_eq_true, if_false]
    simp only [hr.2, if_true]
    cases hg : getRhelPackages W version.RhRepository "kernel-devel" with
    | error h => rfl
    | ok res =>
      obtain ⟨rhPackages, err⟩ := res
      simp only
      by_cases hc : (err.isSome && decide (rhPackages.length < 1)) = true
      · simp only [hc, if_true]
      · simp only [hc, if_false]
        cases hp : parseRedHatPackages W rhPackages version d.Parser cachedKernels with
        | error h => rfl
        | ok out =>
          obtain ⟨dl, e⟩ := out
          cases e <;> rfl
  · refine ⟨false, fun ks => ?_⟩
    have hind : fetchVersion W d upstream cachedKernels version ks minikubeMap
        = fetchVersion W d upstream cachedKernels version [] minikubeMap := by
      unfold fetchVersion
      split_ifs with h1 h2
      · rfl
      · exact absurd ⟨by simpa using h1, h2⟩ hr
      all_goals rfl
    rw [hind]
    cases hf : fetchVersion W d upstream cachedKernels version [] minikubeMap with
    | error h => rfl
    | ok res =>
      obtain ⟨r, m⟩ := res
      cases r with
      | inl early =>
        obtain ⟨kernels, err⟩ := early
        have h0 := fetchVersion_early W d upstream cachedKernels version [] minikubeMap m
          kernels err hf
        simp only [or_self] at h0
        simp [h0]
      | inr dl => rfl

/-- Outside minikube, the loop over the versions, run on two orders of visit and on lists with
the same identities, ends in the same way with the same identities. -/
theorem assembleVersions_perm (W : World) (order : FileMap → FileMap) (d : Distribution)
    (upstream : Bool) (cachedKernels : Option artifactoryKernelCache)
    (hW : ∀ m, (W.rangeOrder m).Perm m) (ho : ∀ m, (order m).Perm m) (hd : d.Name ≠ MINIKUBE)
    (versions : List Version) (ks1 ks2 : List Kernel) (minikubeMap : FileMap)
    (hks : (ks1.map Kernel.identity).Perm (ks2.map Kernel.identity)) :
    SameAssembled (assembleVersions W d upstream cachedKernels versions ks1 minikubeMap)
      (assembleVersions (W.withOrder order) d upstream cachedKernels versions ks2
        minikubeMap) := by
  induction versions generalizing ks1 ks2 minikubeMap with
  | nil => simpa [assembleVersions, SameAssembled] using hks
  | cons version versions ih =>
    rw [assembleVersions, assembleVersions, fetchVersion_withOrder _ _ _ _ _ _ _ _ hd]
    obtain ⟨keep, hk⟩ := fetchVersion_kernelList W d upstream cachedKernels version minikubeMap
    rw [hk ks1, hk ks2]
    cases hf : fetchVersion W d upstream cachedKernels version [] minikubeMap with
    | error h => simp [SameAssembled]
    | ok res =>
      obtain ⟨r, m⟩ := res
      cases r with
      | inl early =>
        obtain ⟨kernels, err⟩ := early
        cases keep
        · simp [SameAssembled]
        · simpa [SameAssembled] using hks
      | inr dl =>
        simp only
        have hp : ((W.rangeOrder dl).map (fun e => e.1)).Perm
            (((W.withOrder order).rangeOrder dl).map (fun e => e.1)) :=
          ((hW dl).trans (ho dl).symm).map _
        rcases appendEntries_perm W (W.withOrder order) d version upstream cachedKernels m m
          (W.rangeOrder dl) ((W.withOrder order).rangeOrder dl) ks1 ks2 hp hks with
          ⟨h, h1, h2⟩ | ⟨out, out', h1, h2, hperm⟩
        · simp [h1, h2, SameAssembled]
        · simp only [h1, h2]
          exact ih out out' m hperm

/-- The identity of a kernel does not depend on its `Required` flag. -/
theorem map_identity_of_clear (a b : List Kernel)
    (h : a.map Kernel.clearRequired = b.map Kernel.clearRequired) :
    a.map Kernel.identity = b.map Kernel.identity := by
  have key : ∀ l : List Kernel,
      l.map Kernel.identity = (l.map Kernel.clearRequired).map Kernel.identity := by
    intro l
    rw [List.map_map]
    rfl
  rw [key a, key b, h]

/-- Presence of a required string depends on the identities only. -/
theorem exists_identity_of_perm (rv : String) (ks1 ks2 : List Kernel)
    (hks : (ks1.map Kernel.identity).Perm (ks2.map Kernel.identity)) :
    (∃ k ∈ ks1, rv = k.Name ++ k.LocalVersion) → (∃ k ∈ ks2, rv = k.Name ++ k.LocalVersion) := by
  rintro ⟨k, hk, hrv⟩
  have hm : k.identity ∈ ks2.map Kernel.identity :=
    hks.mem_iff.1 (List.mem_map_of_mem _ hk)
  obtain ⟨k', hk', he⟩ := List.mem_map.1 hm
  refine ⟨k', hk', ?_⟩
  simp only [Kernel.identity, Prod.mk.injEq] at he
  rw [he.1, he.2.1]
  exact hrv

/-- The required-version check, run on lists with the same identities, returns the same error
and lists with the same identities. -/
theorem checkRequired_perm (d : Distribution) (rvs : List String) (ks1 ks2 : List Kernel)
    (hks : (ks1.map Kernel.identity).Perm (ks2.map Kernel.identity)) :
    (checkRequired d rvs ks1).2 = (checkRequired d rvs ks2).2 ∧
    ((checkRequired d rvs ks1).1.map Kernel.identity).Perm
      ((checkRequired d rvs ks2).1.map Kernel.identity) := by
  by_cases hall : ∀ rv ∈ rvs, ∃ k ∈ ks1, rv = k.Name ++ k.LocalVersion
  · obtain ⟨a, ha, hca⟩ := checkRequired_all_present d rvs ks1 hall
    obtain ⟨b, hb, hcb⟩ := checkRequired_all_present d rvs ks2
      (fun rv hrv => exists_identity_of_perm rv ks1 ks2 hks (hall rv hrv))
    rw [ha, hb, map_identity_of_clear a ks1 hca, map_identity_of_clear b ks2 hcb]
    exact ⟨rfl, hks⟩
  · obtain ⟨found, rv, later, he, hf, hm⟩ := split_at_first_failure
      (fun rv => ∃ k ∈ ks1, rv = k.Name ++ k.LocalVersion) rvs hall
    rw [he, checkRequired_first_missing d found rv later ks1 hf hm,
      checkRequired_first_missing d found rv later ks2
        (fun r hr => exists_identity_of_perm r ks1 ks2 hks (hf r hr))
        (fun hx => hm (exists_identity_of_perm rv ks2 ks1 hks.symm hx))]
    exact ⟨rfl, List.Perm.refl _⟩

/-- Outside minikube, `GetKernelList` ends in the same way under two orders of visit: with the
same fault, or with the same error and with lists of kernels whose identities are the same up
to order. -/
theorem GetKernelList_perm_outside_minikube (W : World) (order : FileMap → FileMap)
    (d : Distribution) (upstream : Bool) (cachedKernels : Option artifactoryKernelCache)
    (minikubeMap : FileMap)
    (hW : ∀ m, (W.rangeOrder m).Perm m) (ho : ∀ m, (order m).Perm m)
    (hd : d.Name ≠ MINIKUBE) :
    SameIdentities (d.GetKernelList W upstream cachedKernels minikubeMap)
      (d.GetKernelList (W.withOrder order) upstream cachedKernels minikubeMap) := by
  have h := assembleVersions_perm W order d upstream cachedKernels hW ho hd d.Versions [] []
    minikubeMap (List.Perm.refl _)
  unfold Distribution.GetKernelList
  cases h1 : assembleVersions W d upstream cachedKernels d.Versions [] minikubeMap with
  | error e1 =>
    cases h2 : assembleVersions (W.withOrder order) d upstream cachedKernels d.Versions []
        minikubeMap with
    | error e2 => simpa [h1, h2, SameAssembled, SameIdentities] using h
    | ok res2 =>
      obtain ⟨r2, m2⟩ := res2
      cases r2 <;> simp [h1, h2, SameAssembled] at h
  | ok res1 =>
    obtain ⟨r1, m1⟩ := res1
    cases h2 : assembleVersions (W.withOrder order) d upstream cachedKernels d.Versions []
        minikubeMap with
    | error e2 => cases r1 <;> simp [h1, h2, SameAssembled] at h
    | ok res2 =>
      obtain ⟨r2, m2⟩ := res2
      cases r1 with
      | inl early1 =>
        cases r2 with
        | inl early2 =>
          simp only [h1, h2, SameAssembled] at h
          simpa [SameIdentities] using h
        | inr ks2 => simp [h1, h2, SameAssembled] at h
      | inr ks1 =>
        cases r2 with
        | inl early2 => simp [h1, h2, SameAssembled] at h
        | inr ks2 =>
          simp only [h1, h2, SameAssembled] at h
          have hc := checkRequired_perm d d.RequiredVersions ks1 ks2 h
          simpa [SameIdentities] using hc

/-- C18 fails as stated for minikube: two tags, the first resolving to the kernel version `l`
and the second to `lin`, each with a defconfig file whose name, after the version, spells the
archive name of the other, so that the two names of each tag are the two names of the other.
Visited in map order the call returns the kernel `l` only, visited in the reverse order it
returns the kernel `lin` only: the identities differ. -/
theorem minikube_identities_depend_on_order :
    dedupNames (minikubeWorld crossListing crossBodies) crossVersion.KernelURL
        crossVersion.KernelDefconfigURL "1./inux-lin.tar.gz" "l"
      = ["linux-l.tar.gz", "linux-lin.tar.gz"] ∧
    dedupNames (minikubeWorld crossListing crossBodies) crossVersion.KernelURL
        crossVersion.KernelDefconfigURL "1./ux-l.tar.gz" "lin"
      = ["linux-lin.tar.gz", "linux-l.tar.gz"] ∧
    crossMinikube.GetKernelList (minikubeWorld crossListing crossBodies) false none []
      = .ok (([crossFirst], none), [("l", ["1./inux-lin.tar.gz"]), ("lin", ["1./ux-l.tar.gz"])]) ∧
    crossMinikube.GetKernelList
        ((minikubeWorld crossListing crossBodies).withOrder List.reverse) false none []
      = .ok (([crossSecond], none), [("lin", ["1./ux-l.tar.gz"]), ("l", ["1./inux-lin.tar.gz"])]) ∧
    crossFirst.identity = ("l", "", "minikube", "latest") ∧
    crossSecond.identity = ("lin", "", "minikube", "latest") ∧
    crossSecond.identity ∉ [crossFirst].map Kernel.identity := by
  refine ⟨by decide, by decide, by decide, by decide, by decide, by decide, by decide⟩

/-! ## Theorems: absent cache and absent properties -/

/-- Without a cache, the loop over the patterns for one package faults at the first in-range
match and returns the map unchanged when there is none. -/
theorem parseRedHatPackage_absent_cache (W : World) (rhp : RhPackage) (fileName : String)
    (version : Version) (parsers : List String) (kernelMap : FileMap)
    (hall : ∀ parser ∈ parsers, ∃ valid vm,
      validateVersion W.libs fileName parser version.MinVersion version.MaxVersion
        = .ok (valid, vm, none)) :
    (parseRedHatPackage W rhp fileName version none parsers kernelMap
        = .error (.panic "invalid memory address or nil pointer dereference") ∧
      ∃ parser ∈ parsers, ∃ vm,
        validateVersion W.libs fileName parser version.MinVersion version.MaxVersion
          = .ok (true, vm, none)) ∨
    (parseRedHatPackage W rhp fileName version none parsers kernelMap = .ok (.ok kernelMap) ∧
      ∀ parser ∈ parsers, ∀ vm,
        validateVersion W.libs fileName parser version.MinVersion version.MaxVersion
          ≠ .ok (true, vm, none)) := by
  induction parsers with
  | nil => exact Or.inr ⟨rfl, fun p hp => by simp at hp⟩
  | cons parser parsers ih =>
    obtain ⟨valid, vm, hv⟩ := hall parser (List.mem_cons_self _ _)
    cases valid with
    | true =>
      refine Or.inl ⟨?_, parser, List.mem_cons_self _ _, vm, hv⟩
      rw [parseRedHatPackage]
      simp [hv, rhDownloadUrl]
    | false =>
      have hstep : parseRedHatPackage W rhp fileName version none (parser :: parsers) kernelMap
          = parseRedHatPackage W rhp fileName version none parsers kernelMap := by
        rw [parseRedHatPackage]
        simp [hv]
      rw [hstep]
      rcases ih (fun p hp => hall p (List.mem_cons_of_mem _ hp)) with ⟨h1, q, hq, vm', hq'⟩ | ⟨h1, h2⟩
      · exact Or.inl ⟨h1, q, List.mem_cons_of_mem _ hq, vm', hq'⟩
      · refine Or.inr ⟨h1, ?_⟩
        intro q hq vm'
        rcases List.mem_cons.1 hq with rfl | hq'
        · rw [hv]
          simp
        · exact h2 q hq' vm'

/-- Without a cache, the loop over the packages faults at the first in-range match and
returns the map unchanged when there is none. -/
theorem parseRedHatPackagesLoop_absent_cache (W : World) (version : Version)
    (parsers : List String) (packages : List RhPackage) (kernelMap : FileMap)
    (hall : ∀ rhp ∈ packages, ∀ parser ∈ parsers, ∃ valid vm,
      validateVersion W.libs rhp.fileName parser version.MinVersion version.MaxVersion
        = .ok (valid, vm, none)) :
    (parseRedHatPackagesLoop W version parsers none packages kernelMap
        = .error (.panic "invalid memory address or nil pointer dereference") ∧
      ∃ rhp ∈ packages, ∃ parser ∈ parsers, ∃ vm,
        validateVersion W.libs rhp.fileName parser version.MinVersion version.MaxVersion
          = .ok (true, vm, none)) ∨
    (parseRedHatPackagesLoop W version parsers none packages kernelMap = .ok (.ok kernelMap) ∧
      ∀ rhp ∈ packages, ∀ parser ∈ parsers, ∀ vm,
        validateVersion W.libs rhp.fileName parser version.MinVersion version.MaxVersion
          ≠ .ok (true, vm, none)) := by
  induction packages with
  | nil => exact Or.inr ⟨rfl, fun p hp => by simp at hp⟩
  | cons rhp packages ih =>
    rw [parseRedHatPackagesLoop]
    rcases parseRedHatPackage_absent_cache W rhp rhp.fileName version parsers kernelMap
      (hall rhp (List.mem_cons_self _ _)) with ⟨h1, q, hq, vm, hq'⟩ | ⟨h1, h2⟩
    · exact Or.inl ⟨by simp [h1], rhp, List.mem_cons_self _ _, q, hq, vm, hq'⟩
    · simp only [h1]
      rcases ih (fun p hp => hall p (List.mem_cons_of_mem _ hp)) with
        ⟨h3, p, hp, q, hq, vm, hq'⟩ | ⟨h3, h4⟩
      · exact Or.inl ⟨h3, p, List.mem_cons_of_mem _ hp, q, hq, vm, hq'⟩
      · refine Or.inr ⟨h3, ?_⟩
        intro p hp
        rcases List.mem_cons.1 hp with rfl | hp'
        · exact h2
        · exact h4 p hp'

/-- C21, as the code has it: without a cache index (the cache argument is `nil`), and when no
version check fails, `parseRedHatPackages` returns a map exactly when no package is in range,
and the map is then empty; as soon as one package name matches a pattern in range, the call
does not return: it stops with the fault of a method call on the `nil` cache, and no download
URL is minted. -/
theorem parseRedHatPackages_absent_cache (W : World) (packages : List RhPackage)
    (version : Version) (parsers : List String)
    (hall : ∀ rhp ∈ packages, ∀ parser ∈ parsers, ∃ valid vm,
      validateVersion W.libs rhp.fileName parser version.MinVersion version.MaxVersion
        = .ok (valid, vm, none)) :
    ((∃ rhp ∈ packages, ∃ parser ∈ parsers, ∃ vm,
        validateVersion W.libs rhp.fileName parser version.MinVersion version.MaxVersion
          = .ok (true, vm, none)) →
      parseRedHatPackages W packages version parsers none
        = .error (.panic "invalid memory address or nil pointer dereference")) ∧
    ((¬ ∃ rhp ∈ packages, ∃ parser ∈ parsers, ∃ vm,
        validateVersion W.libs rhp.fileName parser version.MinVersion version.MaxVersion
          = .ok (true, vm, none)) →
      parseRedHatPackages W packages version parsers none = .ok ([], none)) := by
  unfold parseRedHatPackages
  rcases parseRedHatPackagesLoop_absent_cache W version parsers packages [] hall with
    ⟨h1, hex⟩ | ⟨h1, hno⟩
  · refine ⟨fun _ => by simp [h1], fun hn => absurd hex hn⟩
  · refine ⟨?_, fun _ => by simp [h1]⟩
    rintro ⟨rhp, hrhp, q, hq, vm, hv⟩
    exact absurd hv (hno rhp hrhp q hq vm)

/-- C21 on the failing input: the package `kernel-devel-4.18.0-147.el8.x86_64.rpm` is in the
range of the version and there is no cache: `parseRedHatPackages` faults; so does
`GetKernelList` for a rhel distribution whose repository lists an in-range package; with an
index that is present and empty the package list is parsed and the authenticated request is
made (it fails in this world). -/
theorem parseRedHatPackages_absent_cache_witness :
    parseRedHatPackages (listingWorld []) [demoPackage ""] rhel8
        ["kernel-devel-(\\d+\\.\\d+\\.\\d+)-(\\d+)"] none
      = .error (.panic "invalid memory address or nil pointer dereference") ∧
    demoRhel.GetKernelList (pagedWorld "rhel-8" demoPages) false none []
      = .error (.panic "invalid memory address or nil pointer dereference") ∧
    parseRedHatPackages (listingWorld []) [demoPackage ""] rhel8
        ["kernel-devel-(\\d+\\.\\d+\\.\\d+)-(\\d+)"] (some ⟨none⟩)
      = .ok ([], some "unexpected end of JSON input") :=
  ⟨(parseRedHatPackages_absent_cache (listingWorld []) [demoPackage ""] rhel8
      ["kernel-devel-(\\d+\\.\\d+\\.\\d+)-(\\d+)"]
      (by
        intro rhp hrhp parser hparser
        simp only [List.mem_singleton] at hrhp hparser
        subst hrhp hparser
        exact ⟨true, ["kernel-devel-4.18.0-147", "4.18.0", "147"], by decide⟩)).1
      ⟨demoPackage "", List.mem_cons_self _ _, "kernel-devel-(\\d+\\.\\d+\\.\\d+)-(\\d+)",
        List.mem_cons_self _ _, ["kernel-devel-4.18.0-147", "4.18.0", "147"], by decide⟩,
    by decide, by decide⟩

/-- C22, as the code has it: when the first version of a distribution has a grouped entry
whose key is the `KernelName` of a custom-configuration declaration without a properties map,
`GetKernelList` does not return: the write of `CONFIG_LOCALVERSION` into the `nil` map is a
run-time fault, and no variant kernel is appended. -/
theorem GetKernelList_absent_properties (W : World) (d : Distribution) (upstream : Bool)
    (cachedKernels : Option artifactoryKernelCache) (minikubeMap minikubeMap' : FileMap)
    (version : Version) (versions : List Version) (downloadFileList : FileMap)
    (k : String) (v : List String) (cc : CustomConfig)
    (hv : d.Versions = version :: versions)
    (hf : fetchVersion W d upstream cachedKernels version [] minikubeMap
      = .ok (.inr downloadFileList, minikubeMap'))
    (he : (k, v) ∈ W.rangeOrder downloadFileList)
    (hcc : cc ∈ version.CustomConfigs) (hk : cc.KernelName = k) (hp : cc.Properties = none) :
    d.GetKernelList W upstream cachedKernels minikubeMap
      = .error (.panic "assignment to entry in nil map") := by
  have hfault : (W.rangeOrder downloadFileList).any (fun e => entryFaults version e.1) = true := by
    rw [List.any_eq_true]
    refine ⟨(k, v), he, ?_⟩
    unfold entryFaults
    rw [List.any_eq_true]
    exact ⟨cc, hcc, by simp [hk, hp]⟩
  unfold Distribution.GetKernelList
  rw [hv, assembleVersions]
  simp only [hf, appendEntries_eq, hfault, if_true]

/-- C22 on the failing input: the index page lists `linux-5.4.0.tar.gz`, and the version
declares a custom configuration for the kernel `5.4` with the suffix `-custom` and no
properties; the call faults. With an empty properties map it returns the base kernel and the
variant. -/
theorem GetKernelList_absent_properties_witness :
    (demoBare "centos" "-custom").GetKernelList (listingWorld demoListing) false none []
      = .error (.panic "assignment to entry in nil map") ∧
    (demoCustom "centos" "-custom").GetKernelList (listingWorld demoListing) false none []
      = .ok (([demoBase "centos" "", demoVariant "centos" "-custom"], none), []) :=
  ⟨GetKernelList_absent_properties (listingWorld demoListing) (demoBare "centos" "-custom")
      false none [] [] (focalBare "-custom") []
      [("5.4", ["http://mirror/u/linux-5.4.0", "http://mirror/u/linux-5.4.0"])] "5.4"
      ["http://mirror/u/linux-5.4.0", "http://mirror/u/linux-5.4.0"]
      { KernelName := "5.4", LocalVersionSuffix := "-custom" }
      rfl (by decide) (List.mem_cons_self _ _) (List.mem_cons_self _ _) rfl rfl,
    by decide⟩

/-! ## Theorems: emitted URLs -/

/-- A pair contributes an entry exactly for an in-range match: the key is built from the
capture groups and the URL from the matched substring. -/
theorem matchEntry_eq_some (L : Libs) (version : Version) (file parser K u : String) :
    matchEntry L version file parser = some (K, u) ↔
      ∃ m0 v1 rest,
        validateVersion L file parser version.MinVersion version.MaxVersion
          = .ok (true, m0 :: v1 :: rest, none) ∧
        K = (if rest.length = 1 then v1 ++ "." ++ rest.headD "" else v1) ∧
        u = version.BaseURL ++ "/" ++ m0 := by
  unfold matchEntry
  constructor
  · intro h
    split at h
    · rename_i m0 v1 rest hv
      simp only [Option.some.injEq, Prod.mk.injEq] at h
      exact ⟨m0, v1, rest, hv, h.1.symm, h.2.symm⟩
    · simp at h
  · rintro ⟨m0, v1, rest, hv, hK, hu⟩
    simp only [hv, hK, hu]

/-- The answer of `validateVersion` depends on the file through the match only. -/
theorem validateVersion_congr (L : Libs) (file1 file2 parser minVerStr maxVerStr : String)
    (h : L.submatch parser file2 = L.submatch parser file1) :
    validateVersion L file2 parser minVerStr maxVerStr
      = validateVersion L file1 parser minVerStr maxVerStr := by
  unfold Libs.submatch at h
  unfold validateVersion
  cases hc : L.Compile parser with
  | error e => rfl
  | ok r =>
    simp only [hc, Except.ok.injEq] at h
    simp only [h]

/-- The in-range matches of a listing are those of its files. -/
theorem mem_inRangeMatches (L : Libs) (parsers : List String) (version : Version)
    (fileList : List String) (p : String × String) :
    p ∈ inRangeMatches L parsers version fileList ↔
      ∃ file ∈ fileList, ∃ parser ∈ parsers, matchEntry L version file parser = some p := by
  simp [inRangeMatches, List.mem_flatMap, List.mem_filterMap]

/-- A file with an in-range match has its URL among the URLs of its key. -/
theorem one_le_count_of_match (L : Libs) (parsers : List String) (version : Version)
    (fileList : List String) (file parser K u : String) (hf : file ∈ fileList)
    (hq : parser ∈ parsers) (hm : matchEntry L version file parser = some (K, u)) :
    1 ≤ (((inRangeMatches L parsers version fileList).filter (fun p => p.1 = K)).map
      (fun p => p.2)).count u := by
  apply List.count_pos_iff.2
  refine List.mem_map.2 ⟨(K, u), ?_, rfl⟩
  refine List.mem_filter.2 ⟨?_, by simp⟩
  exact (mem_inRangeMatches L parsers version fileList (K, u)).2 ⟨file, hf, parser, hq, hm⟩

/-- Two different files with in-range matches of the same key and URL have that URL twice
among the URLs of the key. -/
theorem two_le_count_of_matches (L : Libs) (parsers : List String) (version : Version)
    (fileList : List String) (file1 file2 parser K u : String)
    (h1 : file1 ∈ fileList) (h2 : file2 ∈ fileList) (hne : file1 ≠ file2)
    (hq : parser ∈ parsers)
    (hm1 : matchEntry L version file1 parser = some (K, u))
    (hm2 : matchEntry L version file2 parser = some (K, u)) :
    2 ≤ (((inRangeMatches L parsers version fileList).filter (fun p => p.1 = K)).map
      (fun p => p.2)).count u := by
  obtain ⟨s, t, rfl⟩ := List.append_of_mem h1
  have happ : inRangeMatches L parsers version (s ++ file1 :: t)
      = inRangeMatches L parsers version s ++ inRangeMatches L parsers version (file1 :: t) := by
    simp [inRangeMatches, List.flatMap_append]
  rw [happ, List.filter_append, List.map_append, List.count_append]
  rcases List.mem_append.1 h2 with hs | ht
  · have a := one_le_count_of_match L parsers version s file2 parser K u hs hq hm2
    have b := one_le_count_of_match L parsers version (file1 :: t) file1 parser K u
      (List.mem_cons_self _ _) hq hm1
    omega
  · rcases List.mem_cons.1 ht with he | ht'
    · exact absurd he.symm hne
    · have hcons : inRangeMatches L parsers version (file1 :: t)
          = inRangeMatches L parsers version [file1] ++ inRangeMatches L parsers version t := by
        simp [inRangeMatches, List.flatMap_cons]
      rw [hcons, List.filter_append, List.map_append, List.count_append]
      have a := one_le_count_of_match L parsers version [file1] file1 parser K u
        (List.mem_cons_self _ _) hq hm1
      have b := one_le_count_of_match L parsers version t file2 parser K u ht' hq hm2
      omega

/-- C23, with the last clause as the code has it: when `Distribution.parse` returns a grouped
map, every URL in it is `BaseURL + "/" +` the substring that a pattern matched in a listed file
(group 0 of an in-range match, filed under the key of that match), and every in-range match
has its URL in the map; such a URL equals `BaseURL + "/" + file` exactly when the matched
substring is the whole file name; and two different files that the same pattern matches with
the same result (the same matched substring and the same capture groups) yield the same URL
at least twice under one key. -/
theorem parse_url_of_matched_substring (L : Libs) (d : Distribution) (fileList : List String)
    (version : Version) (kernelMap : FileMap)
    (h : d.parse L fileList version = .ok (kernelMap, none)) :
    (∀ K fs, (K, fs) ∈ kernelMap → ∀ u ∈ fs,
      ∃ file ∈ fileList, ∃ parser ∈ d.Parser, ∃ m0 v1 rest,
        L.submatch parser file = .ok (m0 :: v1 :: rest) ∧
        validateVersion L file parser version.MinVersion version.MaxVersion
          = .ok (true, m0 :: v1 :: rest, none) ∧
        K = (if rest.length = 1 then v1 ++ "." ++ rest.headD "" else v1) ∧
        u = version.BaseURL ++ "/" ++ m0 ∧
        (u = version.BaseURL ++ "/" ++ file ↔ m0 = file)) ∧
    (∀ file ∈ fileList, ∀ parser ∈ d.Parser, ∀ m0 v1 rest,
      validateVersion L file parser version.MinVersion version.MaxVersion
        = .ok (true, m0 :: v1 :: rest, none) →
      version.BaseURL ++ "/" ++ m0
        ∈ kernelMap.get (if rest.length = 1 then v1 ++ "." ++ rest.headD "" else v1)) ∧
    (∀ file1 ∈ fileList, ∀ file2 ∈ fileList, file1 ≠ file2 → ∀ parser ∈ d.Parser,
      ∀ m0 v1 rest,
        validateVersion L file1 parser version.MinVersion version.MaxVersion
          = .ok (true, m0 :: v1 :: rest, none) →
        L.submatch parser file2 = L.submatch parser file1 →
        2 ≤ (kernelMap.get (if rest.length = 1 then v1 ++ "." ++ rest.headD "" else v1)).count
          (version.BaseURL ++ "/" ++ m0)) := by
  have hfold := parse_fold L d fileList version kernelMap h
  obtain ⟨hget, -, hnodup, -⟩ :=
    FileMap.foldl_push (inRangeMatches L d.Parser version fileList) [] (by simp)
  rw [← hfold] at hget hnodup
  simp only [FileMap.get, List.nil_append] at hget
  refine ⟨?_, ?_, ?_⟩
  · intro K fs hmem u hu
    rw [← FileMap.get_of_mem kernelMap hnodup K fs hmem, hget K] at hu
    obtain ⟨p, hp, hpu⟩ := List.mem_map.1 hu
    obtain ⟨hp1, hpK⟩ := List.mem_filter.1 hp
    obtain ⟨file, hfile, parser, hparser, hm⟩ :=
      (mem_inRangeMatches L d.Parser version fileList p).1 hp1
    have hpe : p = (K, u) := by
      obtain ⟨a, b⟩ := p
      simp only [decide_eq_true_eq] at hpK
      simp only at hpu
      rw [hpK, hpu]
    rw [hpe] at hm
    obtain ⟨m0, v1, rest, hv, hK, hu'⟩ := (matchEntry_eq_some L version file parser K u).1 hm
    obtain ⟨-, m0', v1', rest', -, -, -, hvm, hsub, -⟩ :=
      validateVersion_true L file parser _ _ _ none hv
    refine ⟨file, hfile, parser, hparser, m0, v1, rest, hsub, hv, hK, hu', ?_⟩
    rw [hu']
    exact not_iff_not.1 (append_ne_append_iff (version.BaseURL ++ "/") m0 file)
  · intro file hfile parser hparser m0 v1 rest hv
    rw [hget]
    refine List.mem_map.2 ⟨(if rest.length = 1 then v1 ++ "." ++ rest.headD "" else v1,
      version.BaseURL ++ "/" ++ m0), List.mem_filter.2 ⟨?_, by simp⟩, rfl⟩
    exact (mem_inRangeMatches L d.Parser version fileList _).2 ⟨file, hfile, parser, hparser,
      (matchEntry_eq_some L version file parser _ _).2 ⟨m0, v1, rest, hv, rfl, rfl⟩⟩
  · intro file1 h1 file2 h2 hne parser hparser m0 v1 rest hv hsub
    rw [hget]
    have hm1 := (matchEntry_eq_some L version file1 parser _ _).2 ⟨m0, v1, rest, hv, rfl, rfl⟩
    have hv2 := (validateVersion_congr L file1 file2 parser version.MinVersion
      version.MaxVersion hsub).trans hv
    have hm2 := (matchEntry_eq_some L version file2 parser _ _).2 ⟨m0, v1, rest, hv2, rfl, rfl⟩
    exact two_le_count_of_matches L d.Parser version fileList file1 file2 parser _ _
      h1 h2 hne hparser hm1 hm2

/-- C23 evaluated on the end-to-end scenario: the pattern matches `linux-5.4.0` in both
`linux-5.4.0.tar.gz` and `linux-5.4.0-headers.tar.gz`, with the same groups, and the URL
`http://mirror/u/linux-5.4.0` is twice under the key `5.4`; it is the URL of neither file
name. -/
theorem parse_url_of_matched_substring_witness :
    Distribution.parse goLibs demoUbuntu demoListing focal
      = .ok ([("5.4", ["http://mirror/u/linux-5.4.0", "http://mirror/u/linux-5.4.0"])], none) ∧
    2 ≤ (FileMap.get [("5.4", ["http://mirror/u/linux-5.4.0", "http://mirror/u/linux-5.4.0"])]
        (if ["4"].length = 1 then "5" ++ "." ++ ["4"].headD "" else "5")).count
      (focal.BaseURL ++ "/" ++ "linux-5.4.0") :=
  ⟨by decide,
    (parse_url_of_matched_substring goLibs demoUbuntu demoListing focal
      [("5.4", ["http://mirror/u/linux-5.4.0", "http://mirror/u/linux-5.4.0"])]
      (by decide)).2.2 "linux-5.4.0.tar.gz" (by decide) "linux-5.4.0-headers.tar.gz" (by decide)
      (by decide) linuxPattern (by decide) "linux-5.4.0" "5" ["4"] (by decide) (by decide)⟩

/-- C23 fails as stated in its last clause: the pattern `linux-(\d+)\.(\d+$)?\d*` matches the
substring `linux-5.4` in both `linux-5.4` and `linux-5.4-rc1`, with the second group `4` in
the first file and empty in the second; the two files yield the same URL, once under the key
`5.4` and once under the key `5.`, and under no key twice. -/
theorem equal_substrings_under_two_keys :
    goLibs.submatch endPattern "linux-5.4" = .ok ["linux-5.4", "5", "4"] ∧
    goLibs.submatch endPattern "linux-5.4-rc1" = .ok ["linux-5.4", "5", ""] ∧
    demoEnd.parse goLibs ["linux-5.4", "linux-5.4-rc1"] focal
      = .ok ([("5.4", ["http://mirror/u/linux-5.4"]), ("5.", ["http://mirror/u/linux-5.4"])],
          none) ∧
    (FileMap.get [("5.4", ["http://mirror/u/linux-5.4"]), ("5.", ["http://mirror/u/linux-5.4"])]
      "5.4").count "http://mirror/u/linux-5.4" = 1 ∧
    (FileMap.get [("5.4", ["http://mirror/u/linux-5.4"]), ("5.", ["http://mirror/u/linux-5.4"])]
      "5.").count "http://mirror/u/linux-5.4" = 1 := by
  refine ⟨by decide, by decide, by decide, by decide, by decide⟩

/-! ## Theorems: iteration order for minikube -/

/-- The loop over the pages of tags does not visit a map. -/
theorem getMinikubeTagsLoop_withOrder (W : World) (order : FileMap → FileMap)
    (githubOwner repo : String) (fuel page : Nat) (allTags : List String) :
    getMinikubeTagsLoop (W.withOrder order) githubOwner repo fuel page allTags
      = getMinikubeTagsLoop W githubOwner repo fuel page allTags := by
  induction fuel generalizing page allTags with
  | zero => rfl
  | succ n ih =>
    rw [getMinikubeTagsLoop, getMinikubeTagsLoop]
    simp only [ih]
    rfl

/-- The listing of the tags does not visit a map. -/
theorem minikubeList_withOrder (W : World) (order : FileMap → FileMap) (baseURL : String) :
    minikubeList (W.withOrder order) baseURL = minikubeList W baseURL := by
  unfold minikubeList getMinikubeTags
  simp only [getMinikubeTagsLoop_withOrder]
  rfl

/-- The loop of `getMinikubeKernelFile` visits the tags it is given, whatever the order of
visit of maps. -/
theorem getMinikubeKernelFileLoop_withOrder (W : World) (order : FileMap → FileMap)
    (kernelURL defconfigURL kernelDefconfigURL : String) (tags : List String)
    (st : MinikubeState) :
    getMinikubeKernelFileLoop (W.withOrder order) kernelURL defconfigURL kernelDefconfigURL
        tags st
      = getMinikubeKernelFileLoop W kernelURL defconfigURL kernelDefconfigURL tags st := by
  induction tags generalizing st with
  | nil => rfl
  | cons t tags ih =>
    rw [getMinikubeKernelFileLoop_cons, getMinikubeKernelFileLoop_cons]
    have hr : resolveTag (W.withOrder order) defconfigURL t = resolveTag W defconfigURL t := rfl
    have hrec : ∀ v1, recordTag (W.withOrder order) kernelURL kernelDefconfigURL t v1 st
        = recordTag W kernelURL kernelDefconfigURL t v1 st := fun _ => rfl
    rw [hr]
    cases resolveTag W defconfigURL t with
    | error e => rfl
    | ok v =>
      cases v with
      | none => exact ih st
      | some v1 =>
        simp only [hrec]
        exact ih _

/-- The loop of `getMinikubeKernelFile` returns an error exactly when some tag cannot be
resolved, whatever the order of the tags. -/
theorem getMinikubeKernelFileLoop_outcome (W : World)
    (kernelURL defconfigURL kernelDefconfigURL : String) (tags : List String)
    (st : MinikubeState) :
    ((∃ t ∈ tags, ∃ e, resolveTag W defconfigURL t = .error e) →
      ∃ e' mk', getMinikubeKernelFileLoop W kernelURL defconfigURL kernelDefconfigURL tags st
        = (.error e', mk')) ∧
    ((∀ t ∈ tags, ∀ e, resolveTag W defconfigURL t ≠ .error e) →
      ∃ new' mk', getMinikubeKernelFileLoop W kernelURL defconfigURL kernelDefconfigURL tags st
        = (.ok new', mk')) := by
  induction tags generalizing st with
  | nil =>
    refine ⟨fun ⟨t, ht, _⟩ => by simp at ht, fun _ => ⟨_, _, rfl⟩⟩
  | cons t tags ih =>
    rw [getMinikubeKernelFileLoop_cons]
    cases hr : resolveTag W defconfigURL t with
    | error e =>
      refine ⟨fun _ => ⟨e, _, rfl⟩, fun hall => absurd hr (hall t (List.mem_cons_self _ _) e)⟩
    | ok v =>
      have hstep : ∀ st', ((∃ x ∈ t :: tags, ∃ e, resolveTag W defconfigURL x = .error e) →
            ∃ e' mk', getMinikubeKernelFileLoop W kernelURL defconfigURL kernelDefconfigURL
              tags st' = (.error e', mk')) ∧
          ((∀ x ∈ t :: tags, ∀ e, resolveTag W defconfigURL x ≠ .error e) →
            ∃ new' mk', getMinikubeKernelFileLoop W kernelURL defconfigURL kernelDefconfigURL
              tags st' = (.ok new', mk')) := by
        intro st'
        refine ⟨?_, fun hall => (ih st').2 (fun x hx => hall x (List.mem_cons_of_mem _ hx))⟩
        rintro ⟨x, hx, e, he⟩
        rcases List.mem_cons.1 hx with rfl | hx'
        · rw [hr] at he
          cases he
        · exact (ih st').1 ⟨x, hx', e, he⟩
      cases v with
      | none => exact hstep st
      | some v1 => exact hstep _

/-- A key under which a read finds something is a key of the map. -/
theorem FileMap.mem_keys_of_get (m : FileMap) (K : String) (h : m.get K ≠ []) :
    K ∈ m.map (fun e => e.1) := by
  induction m with
  | nil => simp [FileMap.get] at h
  | cons e rest ih =>
    obtain ⟨k', v'⟩ := e
    by_cases hk : k' = K
    · simp [hk]
    · simp only [FileMap.get, hk, if_false] at h
      simp only [List.map_cons, List.mem_cons]
      exact Or.inr (ih h)

/-- The keys after `m[k] = append(m[k], x)`. -/
theorem FileMap.keys_push (m : FileMap) (k x : String) (hm : (m.map (fun e => e.1)).Nodup) :
    ((m.push k x).map (fun e => e.1)).Nodup ∧
    ∀ K, K ∈ (m.push k x).map (fun e => e.1) → K ∈ m.map (fun e => e.1) ∨ K = k := by
  unfold FileMap.push
  refine ⟨FileMap.nodup_set m k _ hm, ?_⟩
  intro K hK
  rw [FileMap.keys_set] at hK
  by_cases hmem : k ∈ m.map (fun e => e.1)
  · simp only [hmem, if_true] at hK
    exact Or.inl hK
  · simp only [hmem, if_false, List.mem_append, List.mem_singleton] at hK
    exact hK

/-- The keys of the new map after a tag that resolves to `v1`: distinct, and those before or
`v1`. -/
theorem recordTag_keys (W : World) (kernelURL kernelDefconfigURL tag v1 : String)
    (st : MinikubeState) (hn : (st.newDownloadFileList.map (fun e => e.1)).Nodup) :
    ((recordTag W kernelURL kernelDefconfigURL tag v1 st).newDownloadFileList.map
        (fun e => e.1)).Nodup ∧
    ∀ K, K ∈ (recordTag W kernelURL kernelDefconfigURL tag v1 st).newDownloadFileList.map
        (fun e => e.1) → K ∈ st.newDownloadFileList.map (fun e => e.1) ∨ K = v1 := by
  have h1 := FileMap.keys_push st.newDownloadFileList v1 (archiveURL kernelURL v1) hn
  have h2 := FileMap.keys_push (st.newDownloadFileList.push v1 (archiveURL kernelURL v1)) v1
    (W.Sprintf kernelDefconfigURL tag) h1.1
  have h3 := FileMap.keys_push st.newDownloadFileList v1 (W.Sprintf kernelDefconfigURL tag) hn
  unfold recordTag
  simp only []
  split <;> split
  · exact ⟨hn, fun K hK => Or.inl hK⟩
  · exact h3
  · exact h1
  · refine ⟨h2.1, fun K hK => ?_⟩
    rcases h2.2 K hK with h | h
    · exact h1.2 K h
    · exact Or.inr h

/-- The keys of the map that the loop returns: distinct, and those before or the versions to
which the tags resolve. -/
theorem getMinikubeKernelFileLoop_keys (W : World)
    (kernelURL defconfigURL kernelDefconfigURL : String) (tags : List String)
    (st : MinikubeState) (new' mk' : FileMap)
    (hn : (st.newDownloadFileList.map (fun e => e.1)).Nodup)
    (h : getMinikubeKernelFileLoop W kernelURL defconfigURL kernelDefconfigURL tags st
      = (.ok new', mk')) :
    (new'.map (fun e => e.1)).Nodup ∧
    ∀ K, K ∈ new'.map (fun e => e.1) → K ∈ st.newDownloadFileList.map (fun e => e.1) ∨
      ∃ t ∈ tags, resolveTag W defconfigURL t = .ok (some K) := by
  induction tags generalizing st with
  | nil =>
    simp only [getMinikubeKernelFileLoop, Prod.mk.injEq, Except.ok.injEq] at h
    rw [← h.1]
    exact ⟨hn, fun K hK => Or.inl hK⟩
  | cons t tags ih =>
    rw [getMinikubeKernelFileLoop_cons] at h
    cases hr : resolveTag W defconfigURL t with
    | error e => simp [hr] at h
    | ok v =>
      cases v with
      | none =>
        simp only [hr] at h
        obtain ⟨h1, h2⟩ := ih st hn h
        refine ⟨h1, fun K hK => ?_⟩
        rcases h2 K hK with hk | ⟨x, hx, hxr⟩
        · exact Or.inl hk
        · exact Or.inr ⟨x, List.mem_cons_of_mem _ hx, hxr⟩
      | some v1 =>
        simp only [hr] at h
        obtain ⟨hn', hk'⟩ := recordTag_keys W kernelURL kernelDefconfigURL t v1 st hn
        obtain ⟨h1, h2⟩ := ih _ hn' h
        refine ⟨h1, fun K hK => ?_⟩
        rcases h2 K hK with hk | ⟨x, hx, hxr⟩
        · rcases hk' K hk with hk0 | hk0
          · exact Or.inl hk0
          · subst hk0
            exact Or.inr ⟨t, List.mem_cons_self _ _, hr⟩
        · exact Or.inr ⟨x, List.mem_cons_of_mem _ hx, hxr⟩

/-- The keys after `m[k] = append(m[k], x)`: those before and `k`. -/
theorem FileMap.mem_keys_push_iff (m : FileMap) (k x K : String) :
    K ∈ (m.push k x).map (fun e => e.1) ↔ K ∈ m.map (fun e => e.1) ∨ K = k := by
  unfold FileMap.push
  rw [FileMap.keys_set]
  by_cases hmem : k ∈ m.map (fun e => e.1)
  · simp only [hmem, if_true]
    constructor
    · exact Or.inl
    · rintro (h | h)
      · exact h
      · rw [h]
        exact hmem
  · simp only [hmem, if_false, List.mem_append, List.mem_singleton]

/-- One tag of a listing in which every tag keeps an entry. When every name emitted so far is
a name of a listed tag whose version is a key of the new map, this is so after the tag as
well, the keys before are still keys, and the version of the tag is a key. -/
theorem recordTag_keeps (W : World) (kernelURL defconfigURL kernelDefconfigURL : String)
    (all : List String) (tag v1 : String) (st : MinikubeState)
    (htag : tag ∈ all) (hres : resolveTag W defconfigURL tag = .ok (some v1))
    (hkeep : ∃ name ∈ dedupNames W kernelURL kernelDefconfigURL tag v1,
      ∀ t' ∈ all, ∀ V', resolveTag W defconfigURL t' = .ok (some V') → V' ≠ v1 →
        name ∉ dedupNames W kernelURL kernelDefconfigURL t' V')
    (hinv : ∀ name ∈ st.fileMap, ∃ t' ∈ all, ∃ V', resolveTag W defconfigURL t' = .ok (some V') ∧
      V' ∈ st.newDownloadFileList.map (fun e => e.1) ∧
      name ∈ dedupNames W kernelURL kernelDefconfigURL t' V') :
    (∀ name ∈ (recordTag W kernelURL kernelDefconfigURL tag v1 st).fileMap,
      ∃ t' ∈ all, ∃ V', resolveTag W defconfigURL t' = .ok (some V') ∧
        V' ∈ (recordTag W kernelURL kernelDefconfigURL tag v1 st).newDownloadFileList.map
          (fun e => e.1) ∧
        name ∈ dedupNames W kernelURL kernelDefconfigURL t' V') ∧
    (∀ K ∈ st.newDownloadFileList.map (fun e => e.1),
      K ∈ (recordTag W kernelURL kernelDefconfigURL tag v1 st).newDownloadFileList.map
        (fun e => e.1)) ∧
    v1 ∈ (recordTag W kernelURL kernelDefconfigURL tag v1 st).newDownloadFileList.map
      (fun e => e.1) := by
  have hA : filepathBase (archiveURL kernelURL v1)
      ∈ dedupNames W kernelURL kernelDefconfigURL tag v1 := by simp [dedupNames]
  have hD : v1 ++ filepathBase (W.Sprintf kernelDefconfigURL tag)
      ∈ dedupNames W kernelURL kernelDefconfigURL tag v1 := by simp [dedupNames]
  have hold : ∀ name ∈ st.fileMap, ∀ new : FileMap,
      (∀ K ∈ st.newDownloadFileList.map (fun e => e.1), K ∈ new.map (fun e => e.1)) →
      ∃ t' ∈ all, ∃ V', resolveTag W defconfigURL t' = .ok (some V') ∧
        V' ∈ new.map (fun e => e.1) ∧
        name ∈ dedupNames W kernelURL kernelDefconfigURL t' V' := by
    intro name hname new hsub
    obtain ⟨t', ht', V', hr', hV', hn'⟩ := hinv name hname
    exact ⟨t', ht', V', hr', hsub V' hV', hn'⟩
  unfold recordTag
  simp only []
  by_cases h1 : filepathBase (archiveURL kernelURL v1) ∈ st.fileMap
  · simp only [h1, if_true]
    by_cases h2 : v1 ++ filepathBase (W.Sprintf kernelDefconfigURL tag) ∈ st.fileMap
    · simp only [h2, if_true]
      refine ⟨hinv, fun K hK => hK, ?_⟩
      obtain ⟨name, hname, hfree⟩ := hkeep
      have hin : name ∈ st.fileMap := by
        simp only [dedupNames, List.mem_cons, List.mem_singleton, List.not_mem_nil,
          or_false] at hname
        rcases hname with rfl | rfl
        · exact h1
        · exact h2
      obtain ⟨t', ht', V', hr', hV', hn'⟩ := hinv name hin
      by_cases hv : V' = v1
      · rw [← hv]
        exact hV'
      · exact absurd hn' (hfree t' ht' V' hr' hv)
    · simp only [h2, if_false]
      have hsub : ∀ K ∈ st.newDownloadFileList.map (fun e => e.1),
          K ∈ (st.newDownloadFileList.push v1 (W.Sprintf kernelDefconfigURL tag)).map
            (fun e => e.1) :=
        fun K hK => (FileMap.mem_keys_push_iff _ _ _ K).2 (Or.inl hK)
      have hv1 : v1 ∈ (st.newDownloadFileList.push v1 (W.Sprintf kernelDefconfigURL tag)).map
          (fun e => e.1) := (FileMap.mem_keys_push_iff _ _ _ v1).2 (Or.inr rfl)
      refine ⟨fun name hname => ?_, hsub, hv1⟩
      rcases List.mem_append.1 hname with h | h
      · exact hold name h _ hsub
      · simp only [List.mem_singleton] at h
        subst h
        exact ⟨tag, htag, v1, hres, hv1, hD⟩
  · simp only [h1, if_false]
    have hsub1 : ∀ K ∈ st.newDownloadFileList.map (fun e => e.1),
        K ∈ (st.newDownloadFileList.push v1 (archiveURL kernelURL v1)).map (fun e => e.1) :=
      fun K hK => (FileMap.mem_keys_push_iff _ _ _ K).2 (Or.inl hK)
    have hv1 : v1 ∈ (st.newDownloadFileList.push v1 (archiveURL kernelURL v1)).map
        (fun e => e.1) := (FileMap.mem_keys_push_iff _ _ _ v1).2 (Or.inr rfl)
    by_cases h2 : v1 ++ filepathBase (W.Sprintf kernelDefconfigURL tag)
        ∈ st.fileMap ++ [filepathBase (archiveURL kernelURL v1)]
    · simp only [h2, if_true]
      refine ⟨fun name hname => ?_, hsub1, hv1⟩
      rcases List.mem_append.1 hname with h | h
      · exact hold name h _ hsub1
      · simp only [List.mem_singleton] at h
        subst h
        exact ⟨tag, htag, v1, hres, hv1, hA⟩
    · simp only [h2, if_false]
      have hsub2 : ∀ K ∈ st.newDownloadFileList.map (fun e => e.1),
          K ∈ ((st.newDownloadFileList.push v1 (archiveURL kernelURL v1)).push v1
            (W.Sprintf kernelDefconfigURL tag)).map (fun e => e.1) :=
        fun K hK => (FileMap.mem_keys_push_iff _ _ _ K).2 (Or.inl (hsub1 K hK))
      have hv2 : v1 ∈ ((st.newDownloadFileList.push v1 (archiveURL kernelURL v1)).push v1
          (W.Sprintf kernelDefconfigURL tag)).map (fun e => e.1) :=
        (FileMap.mem_keys_push_iff _ _ _ v1).2 (Or.inr rfl)
      refine ⟨fun name hname => ?_, hsub2, hv2⟩
      rcases List.mem_append.1 hname with h | h
      · rcases List.mem_append.1 h with h' | h'
        · exact hold name h' _ hsub2
        · simp only [List.mem_singleton] at h'
          subst h'
          exact ⟨tag, htag, v1, hres, hv2, hA⟩
      · simp only [List.mem_singleton] at h
        subst h
        exact ⟨tag, htag, v1, hres, hv2, hD⟩

/-- The loop over tags of a listing in which every tag keeps an entry: the keys before are keys
of the map that the loop returns, and so is the version of every tag that it visits. -/
theorem getMinikubeKernelFileLoop_keeps (W : World)
    (kernelURL defconfigURL kernelDefconfigURL : String) (all tags : List String)
    (hsub : ∀ t ∈ tags, t ∈ all)
    (hkeep : ∀ t ∈ all, ∀ V, resolveTag W defconfigURL t = .ok (some V) →
      ∃ name ∈ dedupNames W kernelURL kernelDefconfigURL t V,
        ∀ t' ∈ all, ∀ V', resolveTag W defconfigURL t' = .ok (some V') → V' ≠ V →
          name ∉ dedupNames W kernelURL kernelDefconfigURL t' V')
    (st : MinikubeState) (new' mk' : FileMap)
    (hinv : ∀ name ∈ st.fileMap, ∃ t' ∈ all, ∃ V', resolveTag W defconfigURL t' = .ok (some V') ∧
      V' ∈ st.newDownloadFileList.map (fun e => e.1) ∧
      name ∈ dedupNames W kernelURL kernelDefconfigURL t' V')
    (h : getMinikubeKernelFileLoop W kernelURL defconfigURL kernelDefconfigURL tags st
      = (.ok new', mk')) :
    (∀ K ∈ st.newDownloadFileList.map (fun e => e.1), K ∈ new'.map (fun e => e.1)) ∧
    ∀ t ∈ tags, ∀ V, resolveTag W defconfigURL t = .ok (some V) →
      V ∈ new'.map (fun e => e.1) := by
  induction tags generalizing st with
  | nil =>
    simp only [getMinikubeKernelFileLoop, Prod.mk.injEq, Except.ok.injEq] at h
    rw [← h.1]
    exact ⟨fun K hK => hK, fun t ht => by simp at ht⟩
  | cons t tags ih =>
    have hsub' : ∀ x ∈ tags, x ∈ all := fun x hx => hsub x (List.mem_cons_of_mem _ hx)
    rw [getMinikubeKernelFileLoop_cons] at h
    cases hr : resolveTag W defconfigURL t with
    | error e => simp [hr] at h
    | ok v =>
      cases v with
      | none =>
        simp only [hr] at h
        obtain ⟨h1, h2⟩ := ih hsub' st hinv h
        refine ⟨h1, fun x hx V hxr => ?_⟩
        rcases List.mem_cons.1 hx with rfl | hx'
        · rw [hr] at hxr
          simp at hxr
        · exact h2 x hx' V hxr
      | some v1 =>
        simp only [hr] at h
        have htag := hsub t (List.mem_cons_self _ _)
        obtain ⟨hinv', hkeys, hv1⟩ := recordTag_keeps W kernelURL defconfigURL
          kernelDefconfigURL all t v1 st htag hr (hkeep t htag v1 hr) hinv
        obtain ⟨h1, h2⟩ := ih hsub' _ hinv' h
        refine ⟨fun K hK => h1 K (hkeys K hK), fun x hx V hxr => ?_⟩
        rcases List.mem_cons.1 hx with rfl | hx'
        · rw [hr] at hxr
          simp only [Except.ok.injEq, Option.some.injEq] at hxr
          rw [← hxr]
          exact h1 v1 hv1
        · exact h2 x hx' V hxr

/-- The keys of the map that `getMinikubeKernelFile` returns when every tag keeps an entry:
the versions to which the visited tags resolve, each once. -/
theorem getMinikubeKernelFile_keys (W : World) (downloadFileList : FileMap) (version : Version)
    (minikubeMap new' minikubeMap' : FileMap)
    (hclash : TagsKeepEntry W version ((W.rangeOrder downloadFileList).map (fun e => e.1)))
    (h : getMinikubeKernelFile W downloadFileList version.KernelURL version.DefconfigURL
      version.KernelDefconfigURL minikubeMap = ((new', none), minikubeMap')) :
    (new'.map (fun e => e.1)).Nodup ∧
    ∀ V, V ∈ new'.map (fun e => e.1) ↔
      ∃ t ∈ (W.rangeOrder downloadFileList).map (fun e => e.1),
        resolveTag W version.DefconfigURL t = .ok (some V) := by
  unfold getMinikubeKernelFile at h
  rcases hl : getMinikubeKernelFileLoop W version.KernelURL version.DefconfigURL
      version.KernelDefconfigURL ((W.rangeOrder downloadFileList).map (fun e => e.1))
      ⟨minikubeMap, [], []⟩ with ⟨r, mk1⟩
  rw [hl] at h
  cases r with
  | error e => simp at h
  | ok new1 =>
    simp only [Prod.mk.injEq, and_true] at h
    obtain ⟨hnew, -⟩ := h
    subst hnew
    obtain ⟨hnodup, hkeys⟩ := getMinikubeKernelFileLoop_keys W version.KernelURL
      version.DefconfigURL version.KernelDefconfigURL _ ⟨minikubeMap, [], []⟩ new1 mk1
      (by simp) hl
    refine ⟨hnodup, fun V => ⟨fun hV => ?_, ?_⟩⟩
    · rcases hkeys V hV with h0 | h0
      · simp at h0
      · exact h0
    · rintro ⟨t, ht, hres⟩
      exact (getMinikubeKernelFileLoop_keeps W version.KernelURL version.DefconfigURL
        version.KernelDefconfigURL _ _ (fun x hx => hx) hclash ⟨minikubeMap, [], []⟩ new1 mk1
        (by simp) hl).2 t ht V hres

/-- The map that `getMinikubeKernelFile` returns, under two orders of visit of tags that all
keep an entry: an error under both, or maps with the same keys. -/
theorem getMinikubeKernelFile_perm (W : World) (order : FileMap → FileMap)
    (downloadFileList : FileMap) (version : Version) (mk1 mk2 : FileMap)
    (hW : (W.rangeOrder downloadFileList).Perm downloadFileList)
    (ho : (order downloadFileList).Perm downloadFileList)
    (hclash : TagsKeepEntry W version (downloadFileList.map (fun e => e.1))) :
    (∃ l1 e1 m1 l2 e2 m2,
      getMinikubeKernelFile W downloadFileList version.KernelURL version.DefconfigURL
        version.KernelDefconfigURL mk1 = ((l1, some e1), m1) ∧
      getMinikubeKernelFile (W.withOrder order) downloadFileList version.KernelURL
        version.DefconfigURL version.KernelDefconfigURL mk2 = ((l2, some e2), m2)) ∨
    (∃ new1 m1 new2 m2,
      getMinikubeKernelFile W downloadFileList version.KernelURL version.DefconfigURL
        version.KernelDefconfigURL mk1 = ((new1, none), m1) ∧
      getMinikubeKernelFile (W.withOrder order) downloadFileList version.KernelURL
        version.DefconfigURL version.KernelDefconfigURL mk2 = ((new2, none), m2) ∧
      (new1.map (fun e => e.1)).Perm (new2.map (fun e => e.1))) := by
  have hm1 : ∀ t, t ∈ (W.rangeOrder downloadFileList).map (fun e => e.1) ↔
      t ∈ downloadFileList.map (fun e => e.1) := fun t => (hW.map _).mem_iff
  have hm2 : ∀ t, t ∈ ((W.withOrder order).rangeOrder downloadFileList).map (fun e => e.1) ↔
      t ∈ downloadFileList.map (fun e => e.1) := fun t => (ho.map _).mem_iff
  have hc1 : TagsKeepEntry W version ((W.rangeOrder downloadFileList).map (fun e => e.1)) := by
    intro t ht V hr
    obtain ⟨name, hname, hfree⟩ := hclash t ((hm1 t).1 ht) V hr
    exact ⟨name, hname, fun t' ht' V' hr' hne => hfree t' ((hm1 t').1 ht') V' hr' hne⟩
  have hc2 : TagsKeepEntry (W.withOrder order) version
      (((W.withOrder order).rangeOrder downloadFileList).map (fun e => e.1)) := by
    intro t ht V hr
    obtain ⟨name, hname, hfree⟩ := hclash t ((hm2 t).1 ht) V hr
    exact ⟨name, hname, fun t' ht' V' hr' hne => hfree t' ((hm2 t').1 ht') V' hr' hne⟩
  have hloop1 := getMinikubeKernelFileLoop_outcome W version.KernelURL version.DefconfigURL
    version.KernelDefconfigURL ((W.rangeOrder downloadFileList).map (fun e => e.1))
    ⟨mk1, [], []⟩
  have hloop2 := getMinikubeKernelFileLoop_outcome W version.KernelURL version.DefconfigURL
    version.KernelDefconfigURL (((W.withOrder order).rangeOrder downloadFileList).map
      (fun e => e.1)) ⟨mk2, [], []⟩
  have hg2 : getMinikubeKernelFile (W.withOrder order) downloadFileList version.KernelURL
      version.DefconfigURL version.KernelDefconfigURL mk2
      = match getMinikubeKernelFileLoop W version.KernelURL version.DefconfigURL
          version.KernelDefconfigURL
          (((W.withOrder order).rangeOrder downloadFileList).map (fun e => e.1))
          ⟨mk2, [], []⟩ with
        | (.error err, minikubeMap') => (([], some err), minikubeMap')
        | (.ok newDownloadFileList, minikubeMap') => ((newDownloadFileList, none), minikubeMap') := by
    unfold getMinikubeKernelFile
    rw [getMinikubeKernelFileLoop_withOrder]
  by_cases herr : ∃ t ∈ downloadFileList.map (fun e => e.1), ∃ e,
      resolveTag W version.DefconfigURL t = .error e
  · obtain ⟨t, ht, e, he⟩ := herr
    obtain ⟨e1, m1, h1⟩ := hloop1.1 ⟨t, (hm1 t).2 ht, e, he⟩
    obtain ⟨e2, m2, h2⟩ := hloop2.1 ⟨t, (hm2 t).2 ht, e, he⟩
    refine Or.inl ⟨[], e1, m1, [], e2, m2, ?_, ?_⟩
    · unfold getMinikubeKernelFile
      rw [h1]
    · rw [hg2, h2]
  · have hno : ∀ t ∈ downloadFileList.map (fun e => e.1), ∀ e,
        resolveTag W version.DefconfigURL t ≠ .error e :=
      fun t ht e he => herr ⟨t, ht, e, he⟩
    obtain ⟨new1, m1, h1⟩ := hloop1.2 (fun t ht => hno t ((hm1 t).1 ht))
    obtain ⟨new2, m2, h2⟩ := hloop2.2 (fun t ht => hno t ((hm2 t).1 ht))
    have hr1 : getMinikubeKernelFile W downloadFileList version.KernelURL version.DefconfigURL
        version.KernelDefconfigURL mk1 = ((new1, none), m1) := by
      unfold getMinikubeKernelFile
      rw [h1]
    have hr2 : getMinikubeKernelFile (W.withOrder order) downloadFileList version.KernelURL
        version.DefconfigURL version.KernelDefconfigURL mk2 = ((new2, none), m2) := by
      rw [hg2, h2]
    refine Or.inr ⟨new1, m1, new2, m2, hr1, hr2, ?_⟩
    obtain ⟨hn1, hk1⟩ := getMinikubeKernelFile_keys W downloadFileList version mk1 new1 m1 hc1 hr1
    obtain ⟨hn2, hk2⟩ := getMinikubeKernelFile_keys (W.withOrder order) downloadFileList version
      mk2 new2 m2 hc2 hr2
    refine (List.perm_ext_iff_of_nodup hn1 hn2).2 (fun V => ?_)
    rw [hk1 V, hk2 V]
    constructor
    · rintro ⟨t, ht, hr⟩
      exact ⟨t, (hm2 t).2 ((hm1 t).1 ht), hr⟩
    · rintro ⟨t, ht, hr⟩
      exact ⟨t, (hm1 t).2 ((hm2 t).1 ht), hr⟩

/-- The fetch step of a minikube distribution. -/
theorem fetchVersion_minikube (W : World) (d : Distribution) (upstream : Bool)
    (cachedKernels : Option artifactoryKernelCache) (version : Version)
    (kernelList : List Kernel) (minikubeMap : FileMap) (hd : d.Name = MINIKUBE) :
    fetchVersion W d upstream cachedKernels version kernelList minikubeMap
      = match minikubeList W version.BaseURL with
        | .error h => .error h
        | .ok (_, some err) => .ok (.inl ([], err), minikubeMap)
        | .ok (fileList, none) =>
          match d.parse W.libs fileList version with
          | .error h => .error h
          | .ok (_, some err) => .ok (.inl ([], err), minikubeMap)
          | .ok (downloadFileList, none) =>
            match getMinikubeKernelFile W downloadFileList version.KernelURL
                version.DefconfigURL version.KernelDefconfigURL minikubeMap with
            | ((_, some err), minikubeMap') => .ok (.inl ([], err), minikubeMap')
            | ((downloadFileList', none), minikubeMap') =>
              .ok (.inr downloadFileList', minikubeMap') := by
  have h1 : ¬ d.Name = RHEL := by rw [hd]; decide
  have h2 : ¬ (d.Name = UBUNTU ∨ d.Name = CENTOS) := by rw [hd]; decide
  unfold fetchVersion
  simp only [h1, h2, if_false]
  simp [hd]

/-- The fetch step of a minikube distribution, under two orders of visit of tags that all keep
an entry: the same fault, an early return without kernels under both, or grouped maps with
the same keys. -/
theorem fetchVersion_minikube_perm (W : World) (order : FileMap → FileMap) (d : Distribution)
    (upstream : Bool) (cachedKernels : Option artifactoryKernelCache) (version : Version)
    (ks1 ks2 : List Kernel) (mk1 mk2 : FileMap) (hd : d.Name = MINIKUBE)
    (hW : ∀ m, (W.rangeOrder m).Perm m) (ho : ∀ m, (order m).Perm m)
    (hclash : ∀ fileList dl, minikubeList W version.BaseURL = .ok (fileList, none) →
      d.parse W.libs fileList version = .ok (dl, none) →
      TagsKeepEntry W version (dl.map (fun e => e.1))) :
    (∃ h, fetchVersion W d upstream cachedKernels version ks1 mk1 = .error h ∧
      fetchVersion (W.withOrder order) d upstream cachedKernels version ks2 mk2 = .error h) ∨
    (∃ e1 m1 e2 m2,
      fetchVersion W d upstream cachedKernels version ks1 mk1 = .ok (.inl ([], e1), m1) ∧
      fetchVersion (W.withOrder order) d upstream cachedKernels version ks2 mk2
        = .ok (.inl ([], e2), m2)) ∨
    (∃ dl1 m1 dl2 m2,
      fetchVersion W d upstream cachedKernels version ks1 mk1 = .ok (.inr dl1, m1) ∧
      fetchVersion (W.withOrder order) d upstream cachedKernels version ks2 mk2
        = .ok (.inr dl2, m2) ∧
      (dl1.map (fun e => e.1)).Perm (dl2.map (fun e => e.1))) := by
  rw [fetchVersion_minikube W d upstream cachedKernels version ks1 mk1 hd,
    fetchVersion_minikube (W.withOrder order) d upstream cachedKernels version ks2 mk2 hd,
    minikubeList_withOrder]
  have hlibs : (W.withOrder order).libs = W.libs := rfl
  rw [hlibs]
  cases hl : minikubeList W version.BaseURL with
  | error h => exact Or.inl ⟨h, rfl, rfl⟩
  | ok res =>
    obtain ⟨fileList, err⟩ := res
    cases err with
    | some e => exact Or.inr (Or.inl ⟨e, mk1, e, mk2, rfl, rfl⟩)
    | none =>
      simp only
      cases hp : d.parse W.libs fileList version with
      | error h => exact Or.inl ⟨h, rfl, rfl⟩
      | ok out =>
        obtain ⟨dl, err⟩ := out
        cases err with
        | some e => exact Or.inr (Or.inl ⟨e, mk1, e, mk2, rfl, rfl⟩)
        | none =>
          simp only
          rcases getMinikubeKernelFile_perm W order dl version mk1 mk2 (hW dl) (ho dl)
            (hclash fileList dl hl hp) with
            ⟨l1, e1, m1, l2, e2, m2, h1, h2⟩ | ⟨new1, m1, new2, m2, h1, h2, hperm⟩
          · rw [h1, h2]
            exact Or.inr (Or.inl ⟨e1, m1, e2, m2, rfl, rfl⟩)
          · rw [h1, h2]
            exact Or.inr (Or.inr ⟨new1, m1, new2, m2, rfl, rfl, hperm⟩)

/-- For minikube, the loop over the versions, run on two orders of visit of tags that all keep
an entry and on lists with the same identities, ends in the same way with the same
identities. -/
theorem assembleVersions_minikube_perm (W : World) (order : FileMap → FileMap)
    (d : Distribution) (upstream : Bool) (cachedKernels : Option artifactoryKernelCache)
    (hW : ∀ m, (W.rangeOrder m).Perm m) (ho : ∀ m, (order m).Perm m) (hd : d.Name = MINIKUBE)
    (versions : List Version)
    (hclash : ∀ version ∈ versions, ∀ fileList dl,
      minikubeList W version.BaseURL = .ok (fileList, none) →
      d.parse W.libs fileList version = .ok (dl, none) →
      TagsKeepEntry W version (dl.map (fun e => e.1)))
    (ks1 ks2 : List Kernel) (mk1 mk2 : FileMap)
    (hks : (ks1.map Kernel.identity).Perm (ks2.map Kernel.identity)) :
    SameAssembledSet (assembleVersions W d upstream cachedKernels versions ks1 mk1)
      (assembleVersions (W.withOrder order) d upstream cachedKernels versions ks2 mk2) := by
  induction versions generalizing ks1 ks2 mk1 mk2 with
  | nil => simpa [assembleVersions, SameAssembledSet] using hks
  | cons version versions ih =>
    rw [assembleVersions, assembleVersions]
    rcases fetchVersion_minikube_perm W order d upstream cachedKernels version ks1 ks2 mk1 mk2
      hd hW ho (hclash version (List.mem_cons_self _ _)) with
      ⟨h, h1, h2⟩ | ⟨e1, m1, e2, m2, h1, h2⟩ | ⟨dl1, m1, dl2, m2, h1, h2, hperm⟩
    · simp [h1, h2, SameAssembledSet]
    · simp [h1, h2, SameAssembledSet]
    · simp only [h1, h2]
      have hp : ((W.rangeOrder dl1).map (fun e => e.1)).Perm
          (((W.withOrder order).rangeOrder dl2).map (fun e => e.1)) :=
        ((hW dl1).map _).trans (hperm.trans ((ho dl2).map _).symm)
      rcases appendEntries_perm W (W.withOrder order) d version upstream cachedKernels m1 m2
        (W.rangeOrder dl1) ((W.withOrder order).rangeOrder dl2) ks1 ks2 hp hks with
        ⟨h, h3, h4⟩ | ⟨out, out', h3, h4, hperm'⟩
      · simp [h3, h4, SameAssembledSet]
      · simp only [h3, h4]
        exact ih (fun v hv => hclash v (List.mem_cons_of_mem _ hv)) out out' m1 m2 hperm'

/-- Outcomes with the same error and the same identities have the same set of identities. -/
theorem SameIdentitySet_of_SameIdentities
    (r1 r2 : Run ((List Kernel × Option String) × FileMap)) (h : SameIdentities r1 r2) :
    SameIdentitySet r1 r2 := by
  cases r1 with
  | error h1 =>
    cases r2 with
    | error h2 => simpa [SameIdentities, SameIdentitySet] using h
    | ok o2 => simp [SameIdentities] at h
  | ok o1 =>
    cases r2 with
    | error h2 => simp [SameIdentities] at h
    | ok o2 =>
      obtain ⟨⟨ks1, e1⟩, m1⟩ := o1
      obtain ⟨⟨ks2, e2⟩, m2⟩ := o2
      simp only [SameIdentities] at h
      simp only [SameIdentitySet]
      exact ⟨by rw [h.1], h.2⟩

/-- C18, as the code has it: for every world, whose `range` visits the entries of a map in
some order, and every other order of visit, `GetKernelList` on the same listing, patterns,
configuration and cache index yields the same set of kernel identities
`(Name, LocalVersion, Distro, DistroVersion)` under both orders (the same fault, or an error
under both or under neither and lists with the same identities up to order), provided, for a
minikube distribution, that the tags of each version keep an entry (`TagsKeepEntry`: for
every tag, one of the two names under which its entries are deduplicated is not a name of a
tag that resolves to another kernel version); for the other distributions the error is the
same too. -/
theorem GetKernelList_identities_order_independent (W : World) (order : FileMap → FileMap)
    (d : Distribution) (upstream : Bool) (cachedKernels : Option artifactoryKernelCache)
    (minikubeMap : FileMap)
    (hW : ∀ m, (W.rangeOrder m).Perm m) (ho : ∀ m, (order m).Perm m)
    (hclash : d.Name = MINIKUBE → ∀ version ∈ d.Versions, ∀ fileList dl,
      minikubeList W version.BaseURL = .ok (fileList, none) →
      d.parse W.libs fileList version = .ok (dl, none) →
      TagsKeepEntry W version (dl.map (fun e => e.1))) :
    SameIdentitySet (d.GetKernelList W upstream cachedKernels minikubeMap)
      (d.GetKernelList (W.withOrder order) upstream cachedKernels minikubeMap) ∧
    (d.Name ≠ MINIKUBE →
      SameIdentities (d.GetKernelList W upstream cachedKernels minikubeMap)
        (d.GetKernelList (W.withOrder order) upstream cachedKernels minikubeMap)) := by
  have hsame := fun hd : d.Name ≠ MINIKUBE =>
    GetKernelList_perm_outside_minikube W order d upstream cachedKernels minikubeMap hW ho hd
  refine ⟨?_, hsame⟩
  by_cases hd : d.Name = MINIKUBE
  · have h := assembleVersions_minikube_perm W order d upstream cachedKernels hW ho hd
      d.Versions (hclash hd) [] [] minikubeMap minikubeMap (List.Perm.refl _)
    unfold Distribution.GetKernelList
    cases h1 : assembleVersions W d upstream cachedKernels d.Versions [] minikubeMap with
    | error e1 =>
      cases h2 : assembleVersions (W.withOrder order) d upstream cachedKernels d.Versions []
          minikubeMap with
      | error e2 => simpa [h1, h2, SameAssembledSet, SameIdentitySet] using h
      | ok res2 =>
        obtain ⟨r2, m2⟩ := res2
        cases r2 <;> simp [h1, h2, SameAssembledSet] at h
    | ok res1 =>
      obtain ⟨r1, m1⟩ := res1
      cases h2 : assembleVersions (W.withOrder order) d upstream cachedKernels d.Versions []
          minikubeMap with
      | error e2 => cases r1 <;> simp [h1, h2, SameAssembledSet] at h
      | ok res2 =>
        obtain ⟨r2, m2⟩ := res2
        cases r1 with
        | inl early1 =>
          cases r2 with
          | inl early2 =>
            simp only [h1, h2, SameAssembledSet] at h
            simpa [SameIdentitySet] using h
          | inr ks2 => simp [h1, h2, SameAssembledSet] at h
        | inr ks1 =>
          cases r2 with
          | inl early2 => simp [h1, h2, SameAssembledSet] at h
          | inr ks2 =>
            simp only [h1, h2, SameAssembledSet] at h
            have hc := checkRequired_perm d d.RequiredVersions ks1 ks2 h
            simp only [SameIdentitySet]
            exact ⟨by rw [hc.1], hc.2⟩
  · exact SameIdentitySet_of_SameIdentities _ _ (hsame hd)


/-- C18 evaluated. A centos index page with the kernels 5.4 and 5.8 and a custom configuration
for 5.4, visited in map order and in the reverse order: three kernels either way, with the
same identities in another order. A minikube index page with the tags `v1.2.3` and `v1.4.0`,
which build the kernels 5.10.7 and 5.15.2 with archives of different names: two kernels with
the same identities either way. -/
theorem GetKernelList_identities_order_independent_witness :
    (∀ m : FileMap, (List.reverse m).Perm m) ∧
    identitiesOf ((demoCustom "centos" "-custom").GetKernelList (listingWorld twoKernels)
        false none [])
      = .ok [("5.4", "", "centos", "focal"), ("5.4", "-custom", "centos", "focal"),
          ("5.8", "", "centos", "focal")] ∧
    identitiesOf ((demoCustom "centos" "-custom").GetKernelList
        ((listingWorld twoKernels).withOrder List.reverse) false none [])
      = .ok [("5.8", "", "centos", "focal"), ("5.4", "", "centos", "focal"),
          ("5.4", "-custom", "centos", "focal")] ∧
    SameIdentities
      ((demoCustom "centos" "-custom").GetKernelList (listingWorld twoKernels) false none [])
      ((demoCustom "centos" "-custom").GetKernelList
        ((listingWorld twoKernels).withOrder List.reverse) false none []) ∧
    TagsKeepEntry (minikubeWorld orderListing orderBodies) orderVersion ["1.2.3", "1.4.0"] ∧
    identitiesOf (orderMinikube.GetKernelList (minikubeWorld orderListing orderBodies)
        false none [])
      = .ok [("5.10.7", "", "minikube", "latest"), ("5.15.2", "", "minikube", "latest")] ∧
    SameIdentitySet
      (orderMinikube.GetKernelList (minikubeWorld orderListing orderBodies) false none [])
      (orderMinikube.GetKernelList
        ((minikubeWorld orderListing orderBodies).withOrder List.reverse) false none []) :=
  have hkeep : TagsKeepEntry (minikubeWorld orderListing orderBodies) orderVersion
      ["1.2.3", "1.4.0"] := by
    have r1 : resolveTag (minikubeWorld orderListing orderBodies) orderVersion.DefconfigURL
        "1.2.3" = .ok (some "5.10.7") := by decide
    have r2 : resolveTag (minikubeWorld orderListing orderBodies) orderVersion.DefconfigURL
        "1.4.0" = .ok (some "5.15.2") := by decide
    intro t ht V hr
    have ht0 : t = "1.2.3" ∨ t = "1.4.0" := by simpa using ht
    rcases ht0 with rfl | rfl
    · rw [r1] at hr
      simp only [Except.ok.injEq, Option.some.injEq] at hr
      subst hr
      refine ⟨"linux-5.10.7.tar.gz", by decide, ?_⟩
      intro t' ht' V' hr' hne
      have ht1 : t' = "1.2.3" ∨ t' = "1.4.0" := by simpa using ht'
      rcases ht1 with rfl | rfl
      · rw [r1] at hr'
        simp only [Except.ok.injEq, Option.some.injEq] at hr'
        exact absurd hr'.symm hne
      · rw [r2] at hr'
        simp only [Except.ok.injEq, Option.some.injEq] at hr'
        subst hr'
        decide
    · rw [r2] at hr
      simp only [Except.ok.injEq, Option.some.injEq] at hr
      subst hr
      refine ⟨"linux-5.15.2.tar.gz", by decide, ?_⟩
      intro t' ht' V' hr' hne
      have ht1 : t' = "1.2.3" ∨ t' = "1.4.0" := by simpa using ht'
      rcases ht1 with rfl | rfl
      · rw [r1] at hr'
        simp only [Except.ok.injEq, Option.some.injEq] at hr'
        subst hr'
        decide
      · rw [r2] at hr'
        simp only [Except.ok.injEq, Option.some.injEq] at hr'
        exact absurd hr'.symm hne
  ⟨fun m => List.reverse_perm m, by decide, by decide,
    (GetKernelList_identities_order_independent (listingWorld twoKernels) List.reverse
      (demoCustom "centos" "-custom") false none [] (fun m => List.Perm.refl m)
      (fun m => List.reverse_perm m) (fun hd => absurd hd (by decide))).2 (by decide),
    hkeep, by decide,
    (GetKernelList_identities_order_independent (minikubeWorld orderListing orderBodies)
      List.reverse orderMinikube false none [] (fun m => List.Perm.refl m)
      (fun m => List.reverse_perm m)
      (by
        intro _ version hv fileList dl hl hp
        have hv' : version = orderVersion := by simpa [orderMinikube] using hv
        subst hv'
        have e1 : minikubeList (minikubeWorld orderListing orderBodies) orderVersion.BaseURL
            = .ok (["v1.2.3", "v1.4.0"], none) := by decide
        rw [e1] at hl
        simp only [Except.ok.injEq, Prod.mk.injEq, and_true] at hl
        subst hl
        have e2 : orderMinikube.parse (minikubeWorld orderListing orderBodies).libs
            ["v1.2.3", "v1.4.0"] orderVersion
            = .ok ([("1.2.3", ["http://tags/index/v1.2.3"]),
                ("1.4.0", ["http://tags/index/v1.4.0"])], none) := by decide
        rw [e2] at hp
        simp only [Except.ok.injEq, Prod.mk.injEq, and_true] at hp
        subst hp
        exact hkeep)).1⟩

end KernelDownloader
